import Mathlib

/-!
# fbclock: pixel regions, the framebuffer device and the clock driver

A shallow embedding of `region.c`, `framebuffer.c`, `program.c`, the hand
angles and the font choice of `fbanalogclock.c`, and the parts of `props.c`
and `program_context.c` that `program.c` reads its settings through.

Conventions of the embedding

* C `int` is `Int`; no theorem below depends on wrap-around.
* `BYTE` (`unsigned char`) is `Fin 256`; a conversion of an `int` to `BYTE`
  is `toBYTE` (reduction modulo 256).
* A heap buffer is a `List BYTE`; a store `p[i] = v` is `List.set`, a load
  `p[i]` is `List.getD _ i 0`.  Stores and loads that the C code guards by a
  bounds test are in range whenever the buffer has the size the allocator
  gave it.
* A C `for (int i = lo; i < hi; i++)` whose bounds are not assigned in the
  body is `forLoop lo hi body`.
* `float` and `double` values are fractions (`CFloat`); a conversion to
  `float` rounds to 24 significant bits (`CFloat.single`), see below.
* Functions of `region.c` are functions of the value of the region; where
  the identity of a buffer matters, a `RegionRef` points into a `Heap`.
-/

namespace FbClock

/-! ## Machine-level helpers -/

/-- The C type `BYTE` of `defs.h` (`unsigned char`). -/
abbrev BYTE := Fin 256

/-- Conversion of a C `int` to `BYTE`: reduction modulo 256. -/
def toBYTE (i : Int) : BYTE := ⟨(i % 256).toNat, by omega⟩

/-- The store `p[i] = v` for an `int` index. -/
def poke (p : List BYTE) (i : Int) (v : BYTE) : List BYTE := p.set i.toNat v

/-- The load `p[i]` for an `int` index. -/
def peek (p : List BYTE) (i : Int) : BYTE := p.getD i.toNat 0

/-- Runs `body i` for `i = start, start+1, ...`, `n` times. -/
def loopFrom {σ : Type} (body : Int → σ → σ) : Nat → Int → σ → σ
  | 0, _, s => s
  | n + 1, i, s => loopFrom body n (i + 1) (body i s)

/-- The loop `for (int i = lo; i < hi; i++) body`. -/
def forLoop {σ : Type} (lo hi : Int) (body : Int → σ → σ) (s : σ) : σ :=
  loopFrom body (hi - lo).toNat lo s

/-! ## Floating-point values

A `float` or `double` value is a fraction.  The operations `+`, `-`, `*` and
`/` below return the exact sum, difference, product and quotient; where the C
code produces a `float` (an operation on `float` operands, a conversion of an
`int` or of a `double` expression to `float`, also when an argument is passed
or a value returned) the exact value is rounded by `CFloat.single` to 24
significant bits, ties to even, as IEEE single precision does.  The exponent
range is not limited: the values of this code stay far inside it.  `double`
arithmetic is left exact: the corners of a hollow line are computed from
32-bit integers and halves, which a `double` represents exactly, and the
angles of the hands are kept as exact multiples of pi (`Angle`). -/

/-- The integer nearest to `n / d`, a tie going to the even neighbour. -/
def roundHalfEven (n d : Nat) : Nat :=
  let q := n / d
  let r := n % d
  if 2 * r < d then q
  else if d < 2 * r then q + 1
  else if q % 2 = 0 then q else q + 1

/-- The least `s` with `2^23 * d <= n * 2^s`, searched upwards from 0 for at
most `fuel` steps. -/
def scaleUp : Nat → Nat → Nat → Nat
  | 0, _, _ => 0
  | fuel + 1, n, d => if n < 2 ^ 23 * d then scaleUp fuel (2 * n) d + 1 else 0

/-- The least `p` with `n < 2^24 * d * 2^p`, searched upwards from 0 for at
most `fuel` steps. -/
def scaleDown : Nat → Nat → Nat → Nat
  | 0, _, _ => 0
  | fuel + 1, n, d => if 2 ^ 24 * d ≤ n then scaleDown fuel n (2 * d) + 1 else 0

/-- A `float`: the fraction `num / den`.  `den = 0` only arises from a
division by zero. -/
structure CFloat where
  num : Int
  den : Nat
deriving Repr

namespace CFloat

/-- The exact value of an `int`, as in a conversion to `double`. -/
def ofInt (i : Int) : CFloat := ⟨i, 1⟩

/-- Conversion of a `BYTE` to `float`, as in `(float)b`. -/
def ofBYTE (b : BYTE) : CFloat := ⟨(b.val : Int), 1⟩

/-- The literal `0.5`. -/
def half : CFloat := ⟨1, 2⟩

instance : Add CFloat := ⟨fun a b => ⟨a.num * b.den + b.num * a.den, a.den * b.den⟩⟩
instance : Sub CFloat := ⟨fun a b => ⟨a.num * b.den - b.num * a.den, a.den * b.den⟩⟩
instance : Mul CFloat := ⟨fun a b => ⟨a.num * b.num, a.den * b.den⟩⟩
instance : Div CFloat := ⟨fun a b => ⟨a.num * b.den * b.num.sign, a.den * b.num.natAbs⟩⟩
instance : Neg CFloat := ⟨fun a => ⟨-a.num, a.den⟩⟩

/-- The comparison `a < b`. -/
def lt (a b : CFloat) : Bool := decide (a.num * b.den < b.num * a.den)

/-- The comparison `a == 0.0`. -/
def isZero (a : CFloat) : Bool := decide (a.num = 0)

/-- The libm function `floor`, as an integer. -/
def floor (a : CFloat) : Int := a.num / (a.den : Int)

/-- Conversion of a `float` to `int`: truncation toward zero. -/
def toInt (a : CFloat) : Int := Int.tdiv a.num (a.den : Int)

/-- Conversion of a `float` to `BYTE`, as in `(BYTE) (t * (float)b)`. -/
def toBYTE (a : CFloat) : BYTE := FbClock.toBYTE a.toInt

/-- Conversion to `float`: the value is rounded to 24 significant bits, ties
to even.  With `|num| / den = m * 2^p / 2^s`, `2^23 <= m < 2^24`, the
significand `m` is rounded to an integer.  A quotient by zero (`den = 0`) is
left as it is. -/
def single (a : CFloat) : CFloat :=
  if a.den = 0 ∨ a.num = 0 then a
  else
    let n := a.num.natAbs
    let p := scaleDown n n a.den
    let s := scaleUp (24 + a.den) n a.den
    let m := roundHalfEven (n * 2 ^ s) (a.den * 2 ^ p)
    ⟨a.num.sign * ((m * 2 ^ p : Nat) : Int), 2 ^ s⟩

/-- Conversion of an `int` to `float`. -/
def ofIntSingle (i : Int) : CFloat := single (ofInt i)

end CFloat

/-- The helper `absolute` of `region.c`. -/
def absolute (x : CFloat) : CFloat := if x.lt (CFloat.ofInt 0) then -x else x

/-- The helper `ipart` of `region.c`: `floor (x)`, returned as a `float`. -/
def ipart (x : CFloat) : CFloat := (CFloat.ofInt x.floor).single

/-- The helper `rnd` of `region.c`: `x + 0.5` is a `double` sum, converted to
`float` when it is passed to `ipart`. -/
def rnd (x : CFloat) : CFloat := ipart (x + CFloat.half).single

/-- The helper `fpart` of `region.c`: `x - floor (x)` is a `double`
difference, returned as a `float`. -/
def fpart (x : CFloat) : CFloat := (x - CFloat.ofInt x.floor).single

/-- The helper `rfpart` of `region.c`: `1 - fpart (x)` is a `float`
difference. -/
def rfpart (x : CFloat) : CFloat := (CFloat.ofIntSingle 1 - fpart x).single

/-! ## region.c -/

/-- Bytes per pixel of a region (`#define BPP 3` in `region.c`). -/
def BPP : Int := 3

/-- The C `struct _Region`. -/
structure Region where
  w : Int
  h : Int
  data : List BYTE
deriving DecidableEq, Repr

/-- A region whose buffer has the size `region_create` allocates,
`w * h * BPP` bytes. -/
def Region.WellSized (self : Region) : Prop :=
  (self.data.length : Int) = self.w * self.h * BPP

instance (self : Region) : Decidable self.WellSized := by
  unfold Region.WellSized; infer_instance

/-- The C function `region_set_pixel`. -/
def region_set_pixel (self : Region) (x y : Int) (r g b : BYTE) : Region :=
  if x ≥ 0 ∧ x < self.w ∧ y ≥ 0 ∧ y < self.h then
    let index24 := (y * self.w + x) * BPP
    let d := poke self.data index24 b
    let d := poke d (index24 + 1) g
    let d := poke d (index24 + 2) r
    { self with data := d }
  else
    self

/-- The C function `region_create`.  `malloc` does not initialise the
buffer: its `w * h * BPP` bytes are whatever the allocator hands out, the
parameter `garbage` (read cyclically; zero when empty). -/
def region_create (w h : Int) (garbage : List BYTE) : Region :=
  { w := w, h := h,
    data := (List.range (w * h * BPP).toNat).map
      (fun i => garbage.getD (i % garbage.length) 0) }

/-- The C function `region_set_pixel_t`. -/
def region_set_pixel_t (self : Region) (x y : Int) (r g b : BYTE)
    (t : CFloat) : Region :=
  let b := (t * CFloat.ofBYTE b).single.toBYTE
  let g := (t * CFloat.ofBYTE g).single.toBYTE
  let r := (t * CFloat.ofBYTE r).single.toBYTE
  if x > 0 ∧ x < self.w ∧ y > 0 ∧ y < self.h then
    let index24 := (y * self.w + x) * BPP
    let d := poke self.data (index24 + 0) b
    let d := poke d (index24 + 1) g
    let d := poke d (index24 + 2) r
    { self with data := d }
  else
    self

/-- The corner exchange at the head of `region_fill_rect`:
`if (a1 > a2) { int t = a1; a2 = a1; a1 = t; }`. -/
def fill_rect_order (a1 a2 : Int) : Int × Int :=
  if a1 > a2 then
    let t := a1
    let a2 := a1
    let a1 := t
    (a1, a2)
  else
    (a1, a2)

/-- The C function `region_fill_rect`. -/
def region_fill_rect (self : Region) (x1 y1 x2 y2 : Int) (r g b : BYTE) : Region :=
  let xs := fill_rect_order x1 x2
  let ys := fill_rect_order y1 y2
  forLoop ys.1 ys.2 (fun y s =>
    forLoop xs.1 xs.2 (fun x s => region_set_pixel s x y r g b) s) self

/-- The C function `region_darken`, one byte:
`data[i] = data[i] * percent / 100`, computed in `int` and stored in a
`BYTE`. -/
def darken_byte (v : BYTE) (percent : Int) : BYTE :=
  toBYTE (Int.tdiv ((v.val : Int) * percent) 100)

/-- The C function `region_darken`. -/
def region_darken (self : Region) (percent : Int) : Region :=
  let l := self.w * self.h * BPP
  let d := forLoop 0 l (fun i d => poke d i (darken_byte (peek d i) percent)) self.data
  { self with data := d }

/-! ## framebuffer.c -/

/-- The C `struct _FrameBuffer`.  `fb_data` is `none` for `NULL`, else the
mapped device memory. -/
structure FrameBuffer where
  fd : Int
  w : Int
  h : Int
  fb_data_size : Int
  fb_data : Option (List BYTE)
  fbdev : String
deriving DecidableEq, Repr

/-- The C function `framebuffer_get_width`. -/
def framebuffer_get_width (self : FrameBuffer) : Int := self.w

/-- The C function `framebuffer_get_height`. -/
def framebuffer_get_height (self : FrameBuffer) : Int := self.h

/-- The C function `framebuffer_get_data`. -/
def framebuffer_get_data (self : FrameBuffer) : Option (List BYTE) := self.fb_data

/-- The device memory of a frame buffer, empty when it is not mapped. -/
def FrameBuffer.mem (self : FrameBuffer) : List BYTE := self.fb_data.getD []

/-- The C function `framebuffer_set_pixel` (`BPP` is 4 in `framebuffer.c`).
On a device that is not mapped there is no memory to store into. -/
def framebuffer_set_pixel (self : FrameBuffer) (x y : Int) (r g b : BYTE) :
    FrameBuffer :=
  if x > 0 ∧ x < self.w ∧ y > 0 ∧ y < self.h then
    let index32 := (y * self.w + x) * 4
    let store := fun (d : List BYTE) =>
      let d := poke d index32 b
      let d := poke d (index32 + 1) g
      let d := poke d (index32 + 2) r
      poke d (index32 + 3) 0
    { self with fb_data := self.fb_data.map store }
  else
    self

/-- The C function `framebuffer_get_pixel`; the result is `(r, g, b)`. -/
def framebuffer_get_pixel (self : FrameBuffer) (x y : Int) : BYTE × BYTE × BYTE :=
  if x > 0 ∧ x < self.w ∧ y > 0 ∧ y < self.h then
    let index32 := (y * self.w + x) * 4
    let b := peek self.mem index32
    let g := peek self.mem (index32 + 1)
    let r := peek self.mem (index32 + 2)
    (r, g, b)
  else
    (0, 0, 0)

/-! ## region.c: transfers between a region and the device -/

/-- The C function `region_to_fb`.  It stores three bytes per pixel and does
not touch the fourth byte of the device pixel. -/
def region_to_fb (self : Region) (fb : FrameBuffer) (x1 y1 : Int) : FrameBuffer :=
  let w_in := self.w
  let h_in := self.h
  let w_out := framebuffer_get_width fb
  let blit := fun (data : List BYTE) =>
    forLoop 0 h_in (fun y data =>
      let linestart24 := y * w_in
      let linestart32 := (y + y1) * w_out
      forLoop 0 w_in (fun x data =>
        let index24 := (linestart24 + x) * BPP
        let index32 := (linestart32 + x + x1) * 4
        let b := peek self.data index24
        let g := peek self.data (index24 + 1)
        let r := peek self.data (index24 + 2)
        let data := poke data index32 b
        let data := poke data (index32 + 1) g
        poke data (index32 + 2) r) data) data
  { fb with fb_data := (framebuffer_get_data fb).map blit }

/-- The C function `region_from_fb`. -/
def region_from_fb (self : Region) (fb : FrameBuffer) (x1 y1 : Int) : Region :=
  let w_in := self.w
  let h_in := self.h
  let d := forLoop 0 h_in (fun y data =>
    let yp := y + y1
    let linestart := y * w_in
    forLoop 0 w_in (fun x data =>
      -- `xp` is `x1` on entry and incremented once per iteration
      let xp := x1 + x
      let rgb := framebuffer_get_pixel fb xp yp
      let index24 := (linestart + x) * BPP
      let data := poke data index24 rgb.2.2
      let data := poke data (index24 + 1) rgb.2.1
      poke data (index24 + 2) rgb.1) data) self.data
  { self with data := d }

/-! ## region.c: anti-aliased lines -/

/-- The two stores that `region_draw_line_one_pixel` makes for one column:
at `(x, y)` with intensity `t1` and at `(x, y + 1)` with intensity `t2`, the
two coordinates exchanged when the line is steep. -/
def line_plot_pair (self : Region) (steep : Bool) (x y : Int) (r g b : BYTE)
    (t1 t2 : CFloat) : Region :=
  if steep then
    let self := region_set_pixel_t self y x r g b t1
    region_set_pixel_t self (y + 1) x r g b t2
  else
    let self := region_set_pixel_t self x y r g b t1
    region_set_pixel_t self x (y + 1) r g b t2

/-- The head of `region_draw_line_one_pixel`: the steepness test, the
exchange of the two axes when the line is steep, and the ordering of the end
points from left to right.  The result is `steep` and `(x0, y0, x1, y1)`. -/
def line_endpoints (x0 y0 x1 y1 : Int) : Bool × Int × Int × Int × Int :=
  let steep :=
    (absolute (CFloat.ofIntSingle (x1 - x0))).lt (absolute (CFloat.ofIntSingle (y1 - y0)))
  -- swap (&x0, &y0); swap (&x1, &y1)
  let p := if steep then (y0, x0, y1, x1) else (x0, y0, x1, y1)
  -- swap (&x0, &x1); swap (&y0, &y1)
  let p := if p.1 > p.2.2.1 then (p.2.2.1, p.2.2.2, p.1, p.2.1) else p
  (steep, p)

/-- One iteration of the main loop of `region_draw_line_one_pixel`; the
state is the region and `intersectY`. -/
def line_step (steep : Bool) (gradient : CFloat) (r g b : BYTE) (x : Int)
    (st : Region × CFloat) : Region × CFloat :=
  let t1 := rfpart st.2
  let t2 := fpart st.2
  let s := line_plot_pair st.1 steep x (ipart st.2).toInt r g b t1 t2
  (s, (st.2 + gradient).single)

/-- The slope computed by `region_draw_line_one_pixel`:
`dy / dx`, replaced by 1 when `dx == 0.0`. -/
def line_gradient (x0 y0 x1 y1 : Int) : CFloat :=
  let dx := CFloat.ofIntSingle (x1 - x0)
  let dy := CFloat.ofIntSingle (y1 - y0)
  let gradient := (dy / dx).single
  if dx.isZero then CFloat.ofIntSingle 1 else gradient

/-- The handling of one end point `(x, y)` in `region_draw_line_one_pixel`
(the C code has this block twice, once per end point): `xend`, `yend`,
`xgap`, `xpxl`, `ypxl` and the coverage-weighted pair of stores.  The result
is the region, `xpxl` and `yend`. -/
def line_end (self : Region) (steep : Bool) (gradient : CFloat) (x y : Int)
    (r g b : BYTE) : Region × Int × CFloat :=
  let xend := rnd (CFloat.ofIntSingle x)
  let yend :=
    (CFloat.ofIntSingle y + (gradient * (xend - CFloat.ofIntSingle x).single).single).single
  let xgap := rfpart (CFloat.ofInt x + CFloat.half).single
  let xpxl := xend.toInt
  let ypxl := (ipart yend).toInt
  let self := line_plot_pair self steep xpxl ypxl r g b
    (rfpart yend * xgap).single (fpart yend * xgap).single
  (self, xpxl, yend)

/-- The body of `region_draw_line_one_pixel` from `float dx = x1 - x0` on,
with the end points already exchanged and ordered. -/
def draw_line_ordered (self : Region) (steep : Bool) (x0 y0 x1 y1 : Int)
    (r g b : BYTE) : Region :=
  let gradient := line_gradient x0 y0 x1 y1
  let e1 := line_end self steep gradient x0 y0 r g b
  let xpxl1 := e1.2.1
  let intersectY := (e1.2.2 + gradient).single
  let e2 := line_end e1.1 steep gradient x1 y1 r g b
  let xpxl2 := e2.2.1
  -- for (int x = xpxl1; x <= xpxl2; x++)
  (forLoop xpxl1 (xpxl2 + 1) (line_step steep gradient r g b) (e2.1, intersectY)).1

/-- The C function `region_draw_line_one_pixel`. -/
def region_draw_line_one_pixel (self : Region) (x0 y0 x1 y1 : Int)
    (r g b : BYTE) : Region :=
  let e := line_endpoints x0 y0 x1 y1
  draw_line_ordered self e.1 e.2.1 e.2.2.1 e.2.2.2.1 e.2.2.2.2 r g b

/-! ## framebuffer.c: opening the device -/

/-- What the operating system answers for a frame-buffer device that opens:
the descriptor `open` returns, the geometry `ioctl` reports and the memory
`mmap` maps. -/
structure Device where
  fd : Nat
  xres : Int
  yres : Int
  bits_per_pixel : Int
  mem : List BYTE
deriving DecidableEq, Repr

/-- The C function `framebuffer_create`.  The fields `w` and `h` are left
unset by the C code; they are read only after `framebuffer_init` has
assigned them. -/
def framebuffer_create (fbdev : String) : FrameBuffer :=
  { fd := -1, w := 0, h := 0, fb_data_size := 0, fb_data := none, fbdev := fbdev }

/-- The C function `framebuffer_init`.  `dev` is `none` when `open` fails.
The result is the return value, the updated object and the error message
written through `error`, if any. -/
def framebuffer_init (self : FrameBuffer) (dev : Option Device) :
    Bool × FrameBuffer × Option String :=
  match dev with
  | some d =>
    let self := { self with fd := (d.fd : Int) }
    let self := { self with w := d.xres, h := d.yres }
    let fb_bpp := d.bits_per_pixel
    let fb_bytes := Int.tdiv fb_bpp 8
    if fb_bytes = 4 then
      let self := { self with fb_data_size := self.w * self.h * 4 }
      let self := { self with fb_data := some d.mem }
      (true, self, none)
    else
      (false, self, some "Only 32 bpp framebuffers are supported")
  | none =>
    (false, { self with fd := -1 }, some "Can't open framebuffer")

/-! ## props.c and program_context.c -/

/-- Modelled from the spec: `list.c` is not among the sources; the spec calls
it a generic list utility.  `list_length` is the number of items of the
list. -/
def list_length {α : Type} (l : List α) : Int := (l.length : Int)

/-- Modelled from the spec: `list.c` is not among the sources; `list_get` is
the item at position `i`, counted from 0. -/
def list_get {α : Type} (l : List α) (i : Int) : Option α := l[i.toNat]?

/-- The C `struct _Props`: a list of name-value pairs, each a name and the
string it stands for. -/
structure Props where
  list : List (String × String)
deriving DecidableEq, Repr

/-- The C function `props_get`: the loop runs over the list until a pair
named `key` is found; the loop state is `found` and `result`. -/
def props_get (self : Props) (key : String) : Option String :=
  let l := list_length self.list
  let st := forLoop 0 l (fun i (st : Bool × Option String) =>
    -- the loop condition `!found`
    if st.1 then st
    else
      match list_get self.list i with
      | some nvp => if nvp.1 = key then (true, some nvp.2) else st
      | none => st) (false, none)
  if st.1 then st.2 else none

/-- The digits at the head of a string, accumulated in base ten. -/
def atoi_digits : List Char → Int → Int
  | [], acc => acc
  | c :: cs, acc =>
    if c.isDigit then atoi_digits cs (acc * 10 + ((c.toNat - 48 : Nat) : Int)) else acc

/-- The libc function `atoi`: optional white space, an optional sign, then
decimal digits. -/
def atoi (s : String) : Int :=
  match s.toList.dropWhile Char.isWhitespace with
  | '-' :: cs => - atoi_digits cs 0
  | '+' :: cs => atoi_digits cs 0
  | cs => atoi_digits cs 0

/-- The C function `props_get_integer`. -/
def props_get_integer (self : Props) (key : String) (deflt : Int) : Int :=
  match props_get self key with
  | some s => atoi s
  | none => deflt

/-- The C `struct _ProgramContext`. -/
structure ProgramContext where
  props : Props
  nonswitch_argc : Int
  nonswitch_argv : List String
  stdout_is_tty : Bool
  console_width : Int
  width : Int
deriving DecidableEq, Repr

/-- The C function `program_context_get_integer`. -/
def program_context_get_integer (self : ProgramContext) (key : String)
    (deflt : Int) : Int :=
  props_get_integer self.props key deflt

/-! ## program.c -/

/-- The macro `DEF_WIDTH`. -/
def DEF_WIDTH : Int := 300

/-- The macro `DEF_HEIGHT`. -/
def DEF_HEIGHT : Int := 300

/-- The macro `DEF_POSITION_X`. -/
def DEF_POSITION_X : Int := 20

/-- The macro `DEF_POSITION_Y`. -/
def DEF_POSITION_Y : Int := 20

/-- The macro `DEF_TRANSPARENCY`. -/
def DEF_TRANSPARENCY : Int := 50

/-- A call that `program.c` makes on the wallpaper region, with the
arguments it passes. -/
inductive RegionCall where
  | from_fb (x1 y1 : Int)
  | darken (percent : Int)
deriving DecidableEq, Repr

/-- The file-scope variables of `program.c`.  `calls` is not a program
variable: it records, in order, the calls made on the wallpaper region. -/
structure Globals where
  fb : Option FrameBuffer
  transparency : Int
  wallpaper_region : Option Region
  position_x : Int
  position_y : Int
  calls : List RegionCall
deriving DecidableEq, Repr

/-- The initial values of the file-scope variables of `program.c`. -/
def Globals.initial : Globals :=
  { fb := none, transparency := 40, wallpaper_region := none,
    position_x := -1, position_y := -1, calls := [] }

/-- The C function `program_signal_usr2`, the handler of the
background-changed signal.  With `wallpaper_region` or `fb` still `NULL` the
C code faults; the model then leaves the state as it is. -/
def program_signal_usr2 (g : Globals) : Globals :=
  match g.wallpaper_region, g.fb with
  | some wallpaper_region, some fb =>
    let wallpaper_region := region_from_fb wallpaper_region fb g.position_x g.position_y
    let g := { g with calls := g.calls ++ [RegionCall.from_fb g.position_x g.position_y] }
    let wallpaper_region := region_darken wallpaper_region g.transparency
    let g := { g with calls := g.calls ++ [RegionCall.darken g.transparency] }
    { g with wallpaper_region := some wallpaper_region }
  | _, _ => g

/-- The C function `program_check_context`; the frame buffer is the one the
variable `fb` points to. -/
def program_check_context (context : ProgramContext) (fb : FrameBuffer)
    (g : Globals) : Bool × Globals :=
  let ret := true
  let g := { g with position_x := program_context_get_integer context "x" DEF_POSITION_X }
  let g := { g with position_y := program_context_get_integer context "y" DEF_POSITION_Y }
  let w := program_context_get_integer context "width" DEF_WIDTH
  let h := program_context_get_integer context "height" DEF_HEIGHT
  let ret :=
    if g.position_x + w > framebuffer_get_width fb
        ∨ g.position_y + h > framebuffer_get_height fb
        ∨ g.position_x < 0 ∨ g.position_y < 0 then false else ret
  let ret :=
    if ret then
      let t := program_context_get_integer context "transparency" DEF_TRANSPARENCY
      if t < 0 ∨ t > 100 then false else ret
    else ret
  (ret, g)

/-- The C function `program_run` up to the installation of the signal
handler, just before the drawing loop.  `dev` is what the device answers,
`garbage` the content of freshly allocated memory.  The result is `none`
when the run ends before the loop. -/
def program_run_setup (context : ProgramContext) (dev : Option Device)
    (garbage : List BYTE) (g : Globals) : Option Globals :=
  let fbdev := (props_get context.props "fbdev").getD "/dev/fb0"
  let fb := framebuffer_create fbdev
  let init := framebuffer_init fb dev
  let fb := init.2.1
  let error := init.2.2
  let g := { g with fb := some fb }
  if error = none then
    let chk := program_check_context context fb g
    let g := chk.2
    if chk.1 then
      let width := program_context_get_integer context "width" DEF_WIDTH
      let height := program_context_get_integer context "height" DEF_HEIGHT
      -- a local variable that hides the file-scope `transparency`
      let transparency := program_context_get_integer context "transparency" DEF_TRANSPARENCY
      let wallpaper_region := region_create width height garbage
      let wallpaper_region := region_from_fb wallpaper_region fb g.position_x g.position_y
      let g := { g with calls := g.calls ++ [RegionCall.from_fb g.position_x g.position_y] }
      let wallpaper_region := region_darken wallpaper_region transparency
      let g := { g with calls := g.calls ++ [RegionCall.darken transparency] }
      some { g with wallpaper_region := some wallpaper_region }
    else
      none
  else
    none

/-! ## region.c: bitmap glyphs and text -/

/-- The C `struct _BitmapFont` of `bitmap_font.h`: the packed glyph table,
the glyph width and the glyph height. -/
structure BitmapFont where
  table : List BYTE
  width : Int
  height : Int
deriving DecidableEq, Repr

/-- The number of bytes of one glyph row, as `region_draw_bitmap_char`
computes it: `bf->width / 8 + (bf->width % 8 ? 1 : 0)`. -/
def glyph_stride (bf : BitmapFont) : Int :=
  Int.tdiv bf.width 8 + (if Int.tmod bf.width 8 ≠ 0 then 1 else 0)

/-- One iteration of the column loop of `region_draw_bitmap_char`; the state
is the region and the position of `ptr` in the glyph table.  The colour
arguments are `int`s and are converted to `BYTE` by the call of
`region_set_pixel`. -/
def bitmap_char_column (bf : BitmapFont) (x y : Int) (r g b : Int) (page column : Int)
    (st : Region × Int) : Region × Int :=
  let bits := (peek bf.table st.2).val
  let self :=
    if bits &&& (0x80 >>> (Int.tmod column 8).toNat) ≠ 0 then
      region_set_pixel st.1 (x + column) (y + page) (toBYTE r) (toBYTE g) (toBYTE b)
    else st.1
  let ptr := if Int.tmod column 8 = 7 then st.2 + 1 else st.2
  (self, ptr)

/-- One iteration of the row loop of `region_draw_bitmap_char`. -/
def bitmap_char_page (bf : BitmapFont) (x y : Int) (r g b : Int) (page : Int)
    (st : Region × Int) : Region × Int :=
  let st := forLoop 0 bf.width (bitmap_char_column bf x y r g b page) st
  if Int.tmod bf.width 8 ≠ 0 then (st.1, st.2 + 1) else st

/-- The C function `region_draw_bitmap_char`.  `c` is the value of the C
`char` (negative for a character with the high bit set where `char` is
signed); 32, 126 and 63 are `' '`, `'~'` and `'?'`. -/
def region_draw_bitmap_char (self : Region) (bf : BitmapFont) (c : Int)
    (x y : Int) (r g b : Int) : Region :=
  if x < self.w ∧ y < self.h then
    let c := if c < 32 ∨ c > 126 then 63 else c
    let char_offset := (c - 32) * bf.height * glyph_stride bf
    (forLoop 0 bf.height (bitmap_char_page bf x y r g b) (self, char_offset)).1
  else
    self

/-- The C function `region_draw_bitmap_text`.  `text` holds the `char`s of
the C string before its terminating NUL, so that `strlen` is its length. -/
def region_draw_bitmap_text (self : Region) (bf : BitmapFont) (text : List Int)
    (x y : Int) (r g b : Int) : Region :=
  let l := (text.length : Int)
  forLoop 0 l (fun i s =>
    let c := text.getD i.toNat 0
    region_draw_bitmap_char s bf c (x + i * bf.width) y r g b) self

/-- The layout of a text in the words of the specification: the glyphs are
drawn one after the other, glyph `i` at `x + i * glyphWidth`. -/
def draw_text_glyph_by_glyph (self : Region) (bf : BitmapFont) (text : List Int)
    (x y : Int) (r g b : Int) : Region :=
  text.enum.foldl (fun s (ic : Nat × Int) =>
    region_draw_bitmap_char s bf ic.2 (x + (ic.1 : Int) * bf.width) y r g b) self

/-! ## fbanalogclock.c -/

/-- The fonts declared in `bitmap_font.h`; `select_analog_font` returns the
address of one of them. -/
inductive FontName where
  | font8
  | font12
  | font16
  | font20
  | font24
deriving DecidableEq, Repr

/-- The C function `select_analog_font`. -/
def select_analog_font (radius : Int) : FontName :=
  if radius < 80 then FontName.font8
  else if radius < 140 then FontName.font12
  else FontName.font20

/-- A `double` that is a multiple of the constant `M_PI`: the value is
`coeff * M_PI`, with `coeff` computed exactly. -/
structure Angle where
  coeff : CFloat
deriving Repr

/-- The constant `TWOPI = 2.0 * M_PI` of `fbanalogclock.c`. -/
def TWOPI : Angle := ⟨CFloat.ofInt 2⟩

/-- The product `q * a` of a `double` and an angle. -/
def Angle.scale (q : CFloat) (a : Angle) : Angle := ⟨q * a.coeff⟩

/-- The fields of `struct tm` that the clock reads. -/
structure Tm where
  tm_hour : Int
  tm_min : Int
  tm_sec : Int
deriving DecidableEq, Repr

/-- The arguments of one call of `draw_hand`. -/
structure HandCall where
  angle : Angle
  cx : Int
  cy : Int
  thickness : Int
  l : Int
  cr : BYTE
  cg : BYTE
  cb : BYTE
deriving Repr

/-- The calls of `draw_hand` that `program_draw_clock_in_region` makes, in
order, with the arguments it computes.  `tm` is what `localtime` returns and
`fonts` gives the fonts behind the names of `bitmap_font.h`, which are not
among the sources. -/
def program_draw_clock_in_region_hands (fonts : FontName → BitmapFont) (r : Region)
    (tm : Tm) (seconds : Bool) : List HandCall :=
  let width := r.w
  let height := r.h
  let hr := tm.tm_hour
  let min := tm.tm_min
  let sec := tm.tm_sec
  let cr : BYTE := 255
  let cg : BYTE := 255
  let cb : BYTE := 255
  let lm := if height < width then Int.tdiv height 2 else Int.tdiv width 2
  let cx := Int.tdiv width 2
  let cy := Int.tdiv height 2
  let font := fonts (select_analog_font lm)
  let lm_hands := lm - 2 * font.height
  let second_hand : List HandCall :=
    if seconds then
      [{ angle := Angle.scale (CFloat.ofInt sec / CFloat.ofInt 60) TWOPI,
         cx := cx, cy := cy, thickness := 1, l := lm_hands, cr := cr, cg := cg, cb := cb }]
    else []
  let minute_hand : HandCall :=
    { angle := Angle.scale (CFloat.ofInt min / CFloat.ofInt 60) TWOPI,
      cx := cx, cy := cy, thickness := 5, l := Int.tdiv (lm_hands * 9) 10,
      cr := cr, cg := cg, cb := cb }
  let hour_hand : HandCall :=
    { angle := Angle.scale
        (CFloat.ofInt hr / CFloat.ofInt 12 + CFloat.ofInt min / CFloat.ofInt 60 / CFloat.ofInt 12)
        TWOPI,
      cx := cx, cy := cy, thickness := 10, l := Int.tdiv (lm_hands * 6) 10,
      cr := cr, cg := cg, cb := cb }
  second_hand ++ [minute_hand, hour_hand]

/-! ## program.c: the messages of program_check_context -/

/-- The messages that `program_check_context` passes to `log_error`, in
order. -/
def program_check_context_errors (context : ProgramContext) (fb : FrameBuffer) :
    List String :=
  let position_x := program_context_get_integer context "x" DEF_POSITION_X
  let position_y := program_context_get_integer context "y" DEF_POSITION_Y
  let w := program_context_get_integer context "width" DEF_WIDTH
  let h := program_context_get_integer context "height" DEF_HEIGHT
  if position_x + w > framebuffer_get_width fb
      ∨ position_y + h > framebuffer_get_height fb
      ∨ position_x < 0 ∨ position_y < 0 then
    ["Position is out of bounds, compared to framebuffer size"]
  else
    let t := program_context_get_integer context "transparency" DEF_TRANSPARENCY
    if t < 0 ∨ t > 100 then ["Transparency is a percentage, 0-100"] else []

/-! ## region.c: cloning, and regions as heap objects -/

/-- The libc function `memcpy (dst, src, n)` on buffers: the first `n` bytes
of `dst` become those of `src`. -/
def memcpy (dst src : List BYTE) (n : Int) : List BYTE :=
  src.take n.toNat ++ dst.drop n.toNat

/-- The C function `region_clone`, as a function of the value of the
original region; `garbage` is the content of the freshly allocated buffer. -/
def region_clone (other : Region) (garbage : List BYTE) : Region :=
  let self := region_create other.w other.h garbage
  let size := self.w * self.h * BPP
  { self with data := memcpy self.data other.data size }

/-- The heap of pixel buffers: block `p` is the buffer that the pointer `p`
points to. -/
structure Heap where
  blocks : List (List BYTE)
deriving DecidableEq, Repr

/-- The C `struct _Region` with its `data` field kept as a pointer into the
heap. -/
structure RegionRef where
  w : Int
  h : Int
  data : Nat
deriving DecidableEq, Repr

/-- The libc function `malloc`: a new block, distinct from every block
already allocated, holding `size` bytes of unspecified content. -/
def malloc (hp : Heap) (size : Int) (garbage : List BYTE) : Nat × Heap :=
  (hp.blocks.length,
    { blocks := hp.blocks ++
        [(List.range size.toNat).map (fun i => garbage.getD (i % garbage.length) 0)] })

/-- The region that a `Region *` denotes in a heap. -/
def RegionRef.load (r : RegionRef) (hp : Heap) : Region :=
  { w := r.w, h := r.h, data := hp.blocks.getD r.data [] }

/-- A drawing function of `region.c` run on a `Region *`: it rewrites the
buffer that `self->data` points to and nothing else. -/
def RegionRef.run (op : Region → Region) (r : RegionRef) (hp : Heap) : Heap :=
  { blocks := hp.blocks.set r.data (op (r.load hp)).data }

/-- The C function `region_create` on the heap. -/
def region_create_ref (w h : Int) (garbage : List BYTE) (hp : Heap) : RegionRef × Heap :=
  let m := malloc hp (w * h * BPP) garbage
  ({ w := w, h := h, data := m.1 }, m.2)

/-- The C function `region_clone` on the heap. -/
def region_clone_ref (other : RegionRef) (garbage : List BYTE) (hp : Heap) :
    RegionRef × Heap :=
  let c := region_create_ref other.w other.h garbage hp
  let self := c.1
  let hp := c.2
  let size := self.w * self.h * BPP
  let copied := memcpy (hp.blocks.getD self.data []) (hp.blocks.getD other.data []) size
  (self, { blocks := hp.blocks.set self.data copied })

/-! ## region.c: hollow lines -/

/-- A corner of the outline drawn by `region_draw_hollow_line`. -/
structure Corner where
  x : Int
  y : Int
deriving DecidableEq, Repr

/-- The four corners `p1, p2, p3, p4` that `region_draw_hollow_line` computes
for `t != 1`.  `cosq` and `sinq` are the values that libm returns for
`cos (q)` and `sin (q)`, `q = HALFPI - atan2 (y2 - y1, x2 - x1)`. -/
def hollow_line_corners (x1 y1 x2 y2 t : Int) (cosq sinq : CFloat) :
    Corner × Corner × Corner × Corner :=
  let i : Int := 0
  let d := i - Int.tdiv t 2
  let nx1 := (CFloat.ofInt x1 - (cosq * CFloat.ofInt d) + CFloat.half).toInt
  let ny1 := (CFloat.ofInt y1 + (sinq * CFloat.ofInt d) + CFloat.half).toInt
  let p1 : Corner := ⟨nx1, ny1⟩
  let p2 : Corner := ⟨nx1 + (x2 - x1), ny1 + (y2 - y1)⟩
  let i := t - 1
  let d := i - Int.tdiv t 2
  let nx1 := (CFloat.ofInt x1 - (CFloat.half * cosq * CFloat.ofInt d) + CFloat.half).toInt
  let ny1 := (CFloat.ofInt y1 + (CFloat.half * sinq * CFloat.ofInt d) + CFloat.half).toInt
  let p3 : Corner := ⟨nx1, ny1⟩
  let p4 : Corner := ⟨nx1 + (x2 - x1), ny1 + (y2 - y1)⟩
  (p1, p2, p3, p4)

/-- The C function `region_draw_hollow_line`, with the libm values of
`cos (q)` and `sin (q)` as parameters. -/
def region_draw_hollow_line (self : Region) (x1 y1 x2 y2 t : Int) (r g b : BYTE)
    (cosq sinq : CFloat) : Region :=
  if t = 1 then
    region_draw_line_one_pixel self x1 y1 x2 y2 r g b
  else
    let c := hollow_line_corners x1 y1 x2 y2 t cosq sinq
    let p1 := c.1
    let p2 := c.2.1
    let p3 := c.2.2.1
    let p4 := c.2.2.2
    let self := region_draw_line_one_pixel self p1.x p1.y p2.x p2.y r g b
    let self := region_draw_line_one_pixel self p2.x p2.y p4.x p4.y r g b
    let self := region_draw_line_one_pixel self p4.x p4.y p3.x p3.y r g b
    region_draw_line_one_pixel self p3.x p3.y p1.x p1.y r g b

/-! ## fbanalogclock.c: the numerals -/

/-- The decimal digits of a natural number, as `char`s, most significant
first; `fuel` bounds the number of digits. -/
def decimal_chars : Nat → Nat → List Int
  | 0, _ => []
  | fuel + 1, n =>
    if n < 10 then [((48 + n : Nat) : Int)]
    else decimal_chars fuel (n / 10) ++ [((48 + n % 10 : Nat) : Int)]

/-- The text that `sprintf (s, "%d", v)` writes. -/
def sprintf_d (v : Int) : List Int :=
  if v < 0 then 45 :: decimal_chars 20 v.natAbs else decimal_chars 20 v.natAbs

/-- What `draw_numerals` computes for the label of index `i` apart from the
position on the dial: the text `s`, the character count `chrs` and the
horizontal offset `xo` subtracted from the x position. -/
def draw_numerals_label (font : BitmapFont) (i : Int) : List Int × Int × Int :=
  let text_width := font.width
  let s := sprintf_d (i + 1)
  let chrs : Int := if i > 9 then 2 else 1
  let xo := Int.tdiv (chrs * text_width) 2
  (s, chrs, xo)

/-! ## props.c: storing a property -/

/-- Modelled from the spec: `list.c` is not among the sources; `list_append`
adds the item at the end of the list. -/
def list_append {α : Type} (l : List α) (item : α) : List α := l ++ [item]

/-- Modelled from the spec: `list.c` is not among the sources;
`list_remove_object` removes the object that the pointer designates, here
the item at position `i`. -/
def list_remove_object {α : Type} (l : List α) (i : Int) : List α := l.eraseIdx i.toNat

/-- The C function `props_delete`: the loop stops at the first item that is
not `NULL`, whatever its name, and removes it. -/
def props_delete (self : Props) (_name : String) : Props :=
  let l := list_length self.list
  let st := forLoop 0 l (fun i (st : Bool × List (String × String)) =>
    -- the loop condition `!found`
    if st.1 then st
    else
      match list_get self.list i with
      | some _ => (true, list_remove_object st.2 i)
      | none => st) (false, self.list)
  { list := st.2 }

/-- The C function `props_put`. -/
def props_put (self : Props) (name value : String) : Props :=
  let self := if (props_get self name).isSome then props_delete self name else self
  { list := list_append self.list (name, value) }

/-! ## framebuffer.c: closing the device -/

/-- A system call that `framebuffer.c` makes to release the device. -/
inductive Syscall where
  | munmap (size : Int)
  | close (fd : Int)
deriving DecidableEq, Repr

/-- The C function `framebuffer_deinit` on an object that is not `NULL` (on
`NULL` it does nothing).  The second component is the log of the system
calls made so far. -/
def framebuffer_deinit (self : FrameBuffer) (log : List Syscall) :
    FrameBuffer × List Syscall :=
  let st : FrameBuffer × List Syscall :=
    if self.fb_data.isSome then
      ({ self with fb_data := none }, log ++ [Syscall.munmap self.fb_data_size])
    else
      (self, log)
  if st.1.fd ≠ -1 then
    ({ st.1 with fd := -1 }, st.2 ++ [Syscall.close st.1.fd])
  else
    st

/-- The C function `framebuffer_destroy` on an object that is not `NULL`:
`framebuffer_deinit`, after which the object is freed.  The result is the log
of the system calls. -/
def framebuffer_destroy (self : FrameBuffer) (log : List Syscall) : List Syscall :=
  (framebuffer_deinit self log).2

/-- The end of `program_run` behind the clock loop: `framebuffer_deinit (fb)`
followed by `framebuffer_destroy (fb)`. -/
def program_run_teardown (fb : FrameBuffer) (log : List Syscall) : List Syscall :=
  let st := framebuffer_deinit fb log
  framebuffer_destroy st.1 st.2

/-! ## region.c: the memory accesses of the blit and of the glyph loop -/

/-- A byte access of `region_to_fb`: a load from the buffer of the region at
`index`, or a store into the device memory at `index`. -/
inductive Access where
  | read (index : Int)
  | write (index : Int)
deriving DecidableEq, Repr

/-- The loops of `region_to_fb` on the device memory `data`, together with
the log of the accesses they make: per pixel three loads from
`self->data` and three stores into `data`. -/
def region_to_fb_log (self : Region) (fb : FrameBuffer) (x1 y1 : Int) (data : List BYTE) :
    List BYTE × List Access :=
  let w_in := self.w
  let h_in := self.h
  let w_out := framebuffer_get_width fb
  forLoop 0 h_in (fun y st =>
    let linestart24 := y * w_in
    let linestart32 := (y + y1) * w_out
    forLoop 0 w_in (fun x (st : List BYTE × List Access) =>
      let index24 := (linestart24 + x) * BPP
      let index32 := (linestart32 + x + x1) * 4
      let b := peek self.data index24
      let g := peek self.data (index24 + 1)
      let r := peek self.data (index24 + 2)
      let data := poke st.1 index32 b
      let data := poke data (index32 + 1) g
      let data := poke data (index32 + 2) r
      (data, st.2 ++ [Access.read index24, Access.read (index24 + 1),
        Access.read (index24 + 2), Access.write index32, Access.write (index32 + 1),
        Access.write (index32 + 2)])) st) (data, [])

/-- One iteration of the column loop of `region_draw_bitmap_char`, together
with the log of the table indices read: every iteration loads `*ptr`. -/
def bitmap_char_column_log (bf : BitmapFont) (x y : Int) (r g b : Int) (page column : Int)
    (st : (Region × Int) × List Int) : (Region × Int) × List Int :=
  (bitmap_char_column bf x y r g b page column st.1, st.2 ++ [st.1.2])

/-- One iteration of the row loop of `region_draw_bitmap_char`, with the log
of the table indices read. -/
def bitmap_char_page_log (bf : BitmapFont) (x y : Int) (r g b : Int) (page : Int)
    (st : (Region × Int) × List Int) : (Region × Int) × List Int :=
  let st := forLoop 0 bf.width (bitmap_char_column_log bf x y r g b page) st
  if Int.tmod bf.width 8 ≠ 0 then ((st.1.1, st.1.2 + 1), st.2) else st

/-- The C function `region_draw_bitmap_char`, with the log of the table
indices read. -/
def region_draw_bitmap_char_log (self : Region) (bf : BitmapFont) (c : Int)
    (x y : Int) (r g b : Int) : Region × List Int :=
  if x < self.w ∧ y < self.h then
    let c := if c < 32 ∨ c > 126 then 63 else c
    let char_offset := (c - 32) * bf.height * glyph_stride bf
    let st := forLoop 0 bf.height (bitmap_char_page_log bf x y r g b) ((self, char_offset), [])
    (st.1.1, st.2)
  else
    (self, [])

/-! ## Observations used in the statements -/

/-- The colour `(r, g, b)` a region holds at pixel `(x, y)`: the three bytes
`region_set_pixel` writes for that pixel. -/
def Region.pixel (self : Region) (x y : Int) : BYTE × BYTE × BYTE :=
  let index24 := (y * self.w + x) * BPP
  (peek self.data (index24 + 2), peek self.data (index24 + 1), peek self.data index24)

/-- The bytes `(B, G, R)` of device pixel `(x, y)`, read straight from the
device memory at `(y * w + x) * 4`. -/
def FrameBuffer.bgr (self : FrameBuffer) (x y : Int) : BYTE × BYTE × BYTE :=
  let index32 := (y * self.w + x) * 4
  (peek self.mem index32, peek self.mem (index32 + 1), peek self.mem (index32 + 2))

/-- A region of the given size with every byte equal to `v`. -/
def Region.uniform (w h : Int) (v : BYTE) : Region :=
  { w := w, h := h, data := List.replicate (w * h * BPP).toNat v }

/-- The state of a region that started as `self` and in which the pixels
selected by `painted` have since been set to `(r, g, b)`. -/
def PaintedFrom (self : Region) (r g b : BYTE) (painted : Int → Int → Prop)
    [∀ x y, Decidable (painted x y)] (s : Region) : Prop :=
  s.w = self.w ∧ s.h = self.h ∧ s.data.length = self.data.length ∧
    ∀ x y : Int, 0 ≤ x → x < self.w → 0 ≤ y → y < self.h →
      s.pixel x y = if painted x y then (r, g, b) else self.pixel x y

/-- The fraction `a` is well formed and its value is the integer `n`. -/
def CFloat.IsInt (a : CFloat) (n : Int) : Prop := 0 < a.den ∧ a.num = n * (a.den : Int)

/-- The fraction `a` is well formed and its value is `m / 2^k`. -/
def CFloat.IsDyadic (a : CFloat) (m : Int) (k : Nat) : Prop :=
  0 < a.den ∧ a.num * 2 ^ k = m * (a.den : Int)

/-- The state of the device memory during `region_to_fb` at origin
`(ox, oy)` on a device of width `W` that held `d` before the call: for the
region pixels selected by `written` the three colour bytes of the device
pixel are those of the region, and every other device byte is as in `d`. -/
def BlitDone (self : Region) (W ox oy : Int) (d : List BYTE)
    (written : Int → Int → Prop) (data : List BYTE) : Prop :=
  data.length = d.length ∧
    (∀ x y k : Int, 0 ≤ x → x < self.w → 0 ≤ y → y < self.h → written x y →
      0 ≤ k → k < 3 →
      data[(((y + oy) * W + (x + ox)) * 4 + k).toNat]?
        = some (peek self.data ((y * self.w + x) * BPP + k))) ∧
    (∀ X Y k : Int, 0 ≤ X → X < W → 0 ≤ Y → 0 ≤ k → k < 4 →
      ¬ (0 ≤ X - ox ∧ X - ox < self.w ∧ 0 ≤ Y - oy ∧ Y - oy < self.h ∧
          written (X - ox) (Y - oy) ∧ k < 3) →
      data[((Y * W + X) * 4 + k).toNat]? = d[((Y * W + X) * 4 + k).toNat]?)

/-- The glyph bit in the words of the specification: bit
`0x80 >> (q mod 8)` of `table[(c - ' ') * H * stride + p * stride + q div 8]`
with `stride = ceil (W / 8)`, for row `p` and column `q` of the glyph of
`c`. -/
def glyph_bit (bf : BitmapFont) (c p q : Int) : Bool :=
  let stride := (bf.width + 7) / 8
  let index := (c - 32) * bf.height * stride + p * stride + q / 8
  decide ((peek bf.table index).val &&& (0x80 >>> (q % 8).toNat) ≠ 0)

/-- The regions `s` and `self` have the same width, height and buffer
length. -/
def Region.SameSize (s self : Region) : Prop :=
  s.w = self.w ∧ s.h = self.h ∧ s.data.length = self.data.length

/-- The access stays inside its buffer: a load below `nread`, a store below
`nwrite`. -/
def Access.InRange (nread nwrite : Int) : Access → Prop
  | Access.read i => 0 ≤ i ∧ i < nread
  | Access.write i => 0 ≤ i ∧ i < nwrite

/-! ## Theorems -/

/-- Inside the bounds the pixel index stays inside a buffer of
`w * h * BPP` bytes. -/
theorem index24_in_range (w h x y : Int) (hx : 0 ≤ x) (hxw : x < w)
    (hy : 0 ≤ y) (hyh : y < h) :
    0 ≤ (y * w + x) * 3 ∧ (y * w + x) * 3 + 2 < w * h * 3 := by
  have h1 : 0 ≤ y * w := Int.mul_nonneg hy (by omega)
  have h2 : (y + 1) * w ≤ h * w :=
    Int.mul_le_mul_of_nonneg_right (by omega) (by omega)
  have h3 : (y + 1) * w = y * w + w := by ring
  have h4 : h * w = w * h := by ring
  constructor <;> omega

/-! ### Loads, stores and loops -/

/-- A load after a store. -/
theorem getElem?_poke (d : List BYTE) (i : Int) (v : BYTE) (j : Nat) :
    (poke d i v)[j]? =
      if i.toNat = j then (if i.toNat < d.length then some v else none) else d[j]? := by
  unfold poke
  exact List.getElem?_set

/-- A store keeps the length of the buffer. -/
theorem length_poke (d : List BYTE) (i : Int) (v : BYTE) :
    (poke d i v).length = d.length := by
  unfold poke
  exact List.length_set _ _ _

/-- A load in terms of `getElem?`. -/
theorem peek_eq (d : List BYTE) (i : Int) : peek d i = (d[i.toNat]?).getD 0 := by
  unfold peek
  exact List.getD_eq_getElem?_getD _ _ _

/-- An invariant relating the loop counter and the state holds after the
loop when every iteration keeps it. -/
theorem loopFrom_invariant {σ : Type} (body : Int → σ → σ) (P : Int → σ → Prop)
    (hstep : ∀ i s, P i s → P (i + 1) (body i s)) :
    ∀ (n : Nat) (i : Int) (s : σ), P i s → P (i + n) (loopFrom body n i s) := by
  intro n
  induction n with
  | zero =>
    intro i s h
    simpa [loopFrom] using h
  | succ n ih =>
    intro i s h
    have h1 := ih (i + 1) (body i s) (hstep i s h)
    have e : i + ((n + 1 : Nat) : Int) = i + 1 + (n : Int) := by push_cast; ring
    rw [e]
    exact h1

/-- The invariant rule for `forLoop`, with the counter confined to
`lo ≤ i < hi` in the step. -/
theorem forLoop_invariant {σ : Type} (lo hi : Int) (body : Int → σ → σ)
    (P : Int → σ → Prop) (hle : lo ≤ hi)
    (hstep : ∀ i s, lo ≤ i → i < hi → P i s → P (i + 1) (body i s))
    (s : σ) (h0 : P lo s) : P hi (forLoop lo hi body s) := by
  have key := loopFrom_invariant body (fun i s => lo ≤ i ∧ (i ≤ hi → P i s))
    (by
      intro i s hP
      refine ⟨by omega, fun hi1 => ?_⟩
      exact hstep i s hP.1 (by omega) (hP.2 (by omega)))
    (hi - lo).toNat lo s ⟨le_refl _, fun _ => h0⟩
  have e : lo + ((hi - lo).toNat : Int) = hi := by omega
  rw [e] at key
  exact key.2 (le_refl _)

/-- A loop whose upper bound does not exceed its lower bound does nothing. -/
theorem forLoop_empty {σ : Type} (lo hi : Int) (body : Int → σ → σ) (s : σ)
    (h : hi ≤ lo) : forLoop lo hi body s = s := by
  unfold forLoop
  have e : (hi - lo).toNat = 0 := by omega
  rw [e]
  rfl

/-! ### region_set_pixel and region_fill_rect -/

/-- Outside the bounds the guard of `region_set_pixel` fails. -/
theorem region_set_pixel_skip (self : Region) (x y : Int) (r g b : BYTE)
    (hout : ¬ (0 ≤ x ∧ x < self.w ∧ 0 ≤ y ∧ y < self.h)) :
    region_set_pixel self x y r g b = self := by
  unfold region_set_pixel
  rw [if_neg]
  simpa using hout

/-- Distinct pixels inside the bounds have distinct linear positions. -/
theorem pixel_index_ne (w x y x' y' : Int) (hx : 0 ≤ x) (hxw : x < w)
    (hx' : 0 ≤ x') (hxw' : x' < w) (hne : ¬ (x' = x ∧ y' = y)) :
    y * w + x ≠ y' * w + x' := by
  intro heq
  have hw : 0 ≤ w := by omega
  rcases lt_trichotomy y y' with hlt | heq' | hgt
  · have h2 : (y + 1) * w ≤ y' * w := Int.mul_le_mul_of_nonneg_right (by omega) hw
    have h3 : (y + 1) * w = y * w + w := by ring
    omega
  · subst heq'
    apply hne
    constructor
    · omega
    · rfl
  · have h2 : (y' + 1) * w ≤ y * w := Int.mul_le_mul_of_nonneg_right (by omega) hw
    have h3 : (y' + 1) * w = y' * w + w := by ring
    omega

/-- The pixels of a region after `region_set_pixel`. -/
theorem region_set_pixel_pixel (self : Region) (hs : self.WellSized)
    (x y : Int) (r g b : BYTE) (x' y' : Int)
    (hx' : 0 ≤ x') (hxw' : x' < self.w) (hy' : 0 ≤ y') (hyh' : y' < self.h) :
    (region_set_pixel self x y r g b).pixel x' y' =
      if x' = x ∧ y' = y then (r, g, b) else self.pixel x' y' := by
  by_cases hin : 0 ≤ x ∧ x < self.w ∧ 0 ≤ y ∧ y < self.h
  · obtain ⟨hx, hxw, hy, hyh⟩ := hin
    obtain ⟨h0, h1⟩ := index24_in_range self.w self.h x y hx hxw hy hyh
    obtain ⟨h0', h1'⟩ := index24_in_range self.w self.h x' y' hx' hxw' hy' hyh'
    have hlen : (self.data.length : Int) = self.w * self.h * 3 := hs
    unfold region_set_pixel Region.pixel
    rw [if_pos ⟨hx, hxw, hy, hyh⟩]
    simp only [peek_eq, getElem?_poke, length_poke, BPP]
    by_cases hsame : x' = x ∧ y' = y
    · obtain ⟨rfl, rfl⟩ := hsame
      rw [if_pos (show x' = x' ∧ y' = y' from ⟨rfl, rfl⟩)]
      have a0 : ((y' * self.w + x') * 3).toNat < self.data.length := by omega
      have a1 : ((y' * self.w + x') * 3 + 1).toNat < self.data.length := by omega
      have a2 : ((y' * self.w + x') * 3 + 2).toNat < self.data.length := by omega
      have n1 : ((y' * self.w + x') * 3 + 2).toNat ≠ ((y' * self.w + x') * 3 + 1).toNat := by omega
      have n2 : ((y' * self.w + x') * 3 + 2).toNat ≠ ((y' * self.w + x') * 3).toNat := by omega
      have n3 : ((y' * self.w + x') * 3 + 1).toNat ≠ ((y' * self.w + x') * 3).toNat := by omega
      simp [a0, a1, a2, n1, n2, n3]
    · rw [if_neg hsame]
      have hne := pixel_index_ne self.w x y x' y' hx hxw hx' hxw' hsame
      have m : ∀ k k' : Int, 0 ≤ k → k < 3 → 0 ≤ k' → k' < 3 →
          ((y * self.w + x) * 3 + k).toNat ≠ ((y' * self.w + x') * 3 + k').toNat := by
        intro k k' _ _ _ _
        omega
      have m00 := m 0 0 (by omega) (by omega) (by omega) (by omega)
      have m01 := m 0 1 (by omega) (by omega) (by omega) (by omega)
      have m02 := m 0 2 (by omega) (by omega) (by omega) (by omega)
      have m10 := m 1 0 (by omega) (by omega) (by omega) (by omega)
      have m11 := m 1 1 (by omega) (by omega) (by omega) (by omega)
      have m12 := m 1 2 (by omega) (by omega) (by omega) (by omega)
      have m20 := m 2 0 (by omega) (by omega) (by omega) (by omega)
      have m21 := m 2 1 (by omega) (by omega) (by omega) (by omega)
      have m22 := m 2 2 (by omega) (by omega) (by omega) (by omega)
      simp only [Int.add_zero] at m00 m01 m02 m10 m20
      simp [m00, m01, m02, m10, m11, m12, m20, m21, m22]
  · rw [region_set_pixel_skip self x y r g b hin]
    rw [if_neg]
    intro hsame
    obtain ⟨rfl, rfl⟩ := hsame
    exact hin ⟨hx', hxw', hy', hyh'⟩

/-- `region_set_pixel` keeps the size of a region and of its buffer. -/
theorem region_set_pixel_size (self : Region) (x y : Int) (r g b : BYTE) :
    (region_set_pixel self x y r g b).w = self.w ∧
      (region_set_pixel self x y r g b).h = self.h ∧
      (region_set_pixel self x y r g b).data.length = self.data.length := by
  unfold region_set_pixel
  split
  · simp [length_poke]
  · exact ⟨rfl, rfl, rfl⟩

/-- One row of `region_fill_rect`. -/
theorem fill_rect_row (self : Region) (hs : self.WellSized) (r g b : BYTE)
    (xa xb ya y : Int) (hx : xa ≤ xb) (hya : ya ≤ y) (s : Region)
    (h : PaintedFrom self r g b (fun x' y' => xa ≤ x' ∧ x' < xb ∧ ya ≤ y' ∧ y' < y) s) :
    PaintedFrom self r g b (fun x' y' => xa ≤ x' ∧ x' < xb ∧ ya ≤ y' ∧ y' < y + 1)
      (forLoop xa xb (fun x s => region_set_pixel s x y r g b) s) := by
  have key := forLoop_invariant xa xb (fun x s => region_set_pixel s x y r g b)
    (fun x s => PaintedFrom self r g b
      (fun x' y' => (xa ≤ x' ∧ x' < xb ∧ ya ≤ y' ∧ y' < y) ∨ (y' = y ∧ xa ≤ x' ∧ x' < x)) s)
    hx
    (by
      intro i s _ _ hP
      obtain ⟨hw, hh, hl, hp⟩ := hP
      obtain ⟨sw, sh, sl⟩ := region_set_pixel_size s i y r g b
      refine ⟨by rw [sw, hw], by rw [sh, hh], by rw [sl, hl], ?_⟩
      intro x' y' h1 h2 h3 h4
      have hsz : s.WellSized := by
        unfold Region.WellSized at hs ⊢
        rw [hl, hw, hh]; exact hs
      rw [region_set_pixel_pixel s hsz i y r g b x' y' h1 (by rw [hw]; exact h2) h3
        (by rw [hh]; exact h4), hp x' y' h1 h2 h3 h4]
      by_cases c1 : x' = i ∧ y' = y
      · rw [if_pos c1, if_pos (by omega)]
      · rw [if_neg c1]
        by_cases c2 : (xa ≤ x' ∧ x' < xb ∧ ya ≤ y' ∧ y' < y) ∨ (y' = y ∧ xa ≤ x' ∧ x' < i)
        · rw [if_pos c2, if_pos (by omega)]
        · rw [if_neg c2, if_neg (by omega)])
    s
    (by
      obtain ⟨hw, hh, hl, hp⟩ := h
      refine ⟨hw, hh, hl, ?_⟩
      intro x' y' h1 h2 h3 h4
      rw [hp x' y' h1 h2 h3 h4]
      by_cases c : xa ≤ x' ∧ x' < xb ∧ ya ≤ y' ∧ y' < y
      · rw [if_pos c, if_pos (Or.inl c)]
      · rw [if_neg c, if_neg (by omega)])
  obtain ⟨hw, hh, hl, hp⟩ := key
  refine ⟨hw, hh, hl, ?_⟩
  intro x' y' h1 h2 h3 h4
  rw [hp x' y' h1 h2 h3 h4]
  by_cases c : (xa ≤ x' ∧ x' < xb ∧ ya ≤ y' ∧ y' < y) ∨ (y' = y ∧ xa ≤ x' ∧ x' < xb)
  · rw [if_pos c, if_pos (by omega)]
  · rw [if_neg c, if_neg (by omega)]

/-! ### region_darken -/

/-- The loop of `region_darken` rewrites exactly the bytes its counter
visits. -/
theorem darken_loop_getElem? (f : BYTE → BYTE) (n : Nat) :
    ∀ (k : Nat) (d : List BYTE) (j : Nat),
      (loopFrom (fun i d => poke d i (f (peek d i))) n (k : Int) d)[j]? =
        if k ≤ j ∧ j < k + n then (d[j]?).map f else d[j]? := by
  induction n with
  | zero =>
    intro k d j
    rw [if_neg (by omega)]
    rfl
  | succ n ih =>
    intro k d j
    have e : (k : Int) + 1 = ((k + 1 : Nat) : Int) := by push_cast; rfl
    show (loopFrom _ n ((k : Int) + 1) (poke d k (f (peek d k))))[j]? = _
    rw [e, ih (k + 1), getElem?_poke, peek_eq]
    simp only [Int.toNat_ofNat]
    by_cases hjk : k = j
    · subst hjk
      have c1 : ¬ (k + 1 ≤ k ∧ k < k + 1 + n) := by omega
      have c2 : k ≤ k ∧ k < k + (n + 1) := by omega
      simp only [if_neg c1, if_pos c2, if_true]
      by_cases hlt : k < d.length
      · simp [hlt, List.getElem?_eq_getElem hlt]
      · have hnone : d[k]? = none := List.getElem?_eq_none (by omega)
        simp [hlt, hnone]
    · simp only [if_neg hjk]
      by_cases hin : k + 1 ≤ j ∧ j < k + 1 + n
      · rw [if_pos hin, if_pos (by omega)]
      · rw [if_neg hin, if_neg (by omega)]

/-- The bytes of a darkened region. -/
theorem region_darken_getElem? (self : Region) (percent : Int) (j : Nat) :
    (region_darken self percent).data[j]? =
      if j < (self.w * self.h * BPP).toNat
      then (self.data[j]?).map (fun v => darken_byte v percent) else self.data[j]? := by
  have e : (region_darken self percent).data =
      loopFrom (fun i d => poke d i (darken_byte (peek d i) percent))
        (self.w * self.h * BPP - 0).toNat ((0 : Nat) : Int) self.data := rfl
  rw [e, darken_loop_getElem? (fun v => darken_byte v percent)]
  simp only [Int.sub_zero, Nat.zero_le, true_and, Nat.zero_add]

/-- For a percentage in `0..100` the darkened byte is `v * percent / 100`. -/
theorem darken_byte_val (v : BYTE) (p : Int) (h0 : 0 ≤ p) (h1 : p ≤ 100) :
    ((darken_byte v p).val : Int) = (v.val : Int) * p / 100 := by
  have hv : (0 : Int) ≤ (v.val : Int) := Int.ofNat_nonneg _
  have hv2 : (v.val : Int) < 256 := by have := v.isLt; omega
  have hmul : 0 ≤ (v.val : Int) * p := Int.mul_nonneg hv h0
  have hle : (v.val : Int) * p ≤ (v.val : Int) * 100 := Int.mul_le_mul_of_nonneg_left h1 hv
  have hq0 : 0 ≤ (v.val : Int) * p / 100 := Int.ediv_nonneg hmul (by omega)
  have hq1 : (v.val : Int) * p / 100 ≤ (v.val : Int) := by omega
  unfold darken_byte toBYTE
  rw [Int.tdiv_eq_ediv hmul (by omega)]
  show (((v.val : Int) * p / 100 % 256).toNat : Int) = _
  omega

/-- The byte-level content of C10. -/
theorem darken_byte_mono (v : BYTE) (p q : Int) (h0 : 0 ≤ p) (hpq : p ≤ q)
    (h1 : q ≤ 100) : darken_byte v p ≤ darken_byte v q ∧ darken_byte v q ≤ v := by
  have hv : (0 : Int) ≤ (v.val : Int) := Int.ofNat_nonneg _
  have ep := darken_byte_val v p h0 (by omega)
  have eq := darken_byte_val v q (by omega) h1
  have hle : (v.val : Int) * p ≤ (v.val : Int) * q := Int.mul_le_mul_of_nonneg_left hpq hv
  have hle2 : (v.val : Int) * q ≤ (v.val : Int) * 100 := Int.mul_le_mul_of_nonneg_left h1 hv
  have m1 : (v.val : Int) * p / 100 ≤ (v.val : Int) * q / 100 :=
    Int.ediv_le_ediv (by omega) hle
  have m2 : (v.val : Int) * q / 100 ≤ (v.val : Int) := by omega
  constructor
  · show (darken_byte v p).val ≤ (darken_byte v q).val
    omega
  · show (darken_byte v q).val ≤ v.val
    omega

/-! ### Rounding to single precision -/

/-- An exact quotient is its own rounding. -/
theorem roundHalfEven_exact (m d : Nat) (hd : 0 < d) : roundHalfEven (m * d) d = m := by
  unfold roundHalfEven
  have h1 : m * d / d = m := Nat.mul_div_cancel m hd
  have h2 : m * d % d = 0 := Nat.mul_mod_left m d
  simp only [h1, h2, Nat.mul_zero]
  rw [if_pos hd]

/-- Rounding does not pass an integer bound of the quotient. -/
theorem roundHalfEven_le (n d K : Nat) (hd : 0 < d) (h : n ≤ K * d) :
    roundHalfEven n d ≤ K := by
  unfold roundHalfEven
  have hq : n / d ≤ K := by
    calc n / d ≤ K * d / d := Nat.div_le_div_right h
      _ = K := Nat.mul_div_cancel K hd
  have hmod := Nat.div_add_mod n d
  have hr : n % d < d := Nat.mod_lt n hd
  by_cases hK : n / d = K
  · have h0 : n % d = 0 := by
      have : d * (n / d) = K * d := by rw [hK, Nat.mul_comm]
      omega
    simp only [h0, Nat.mul_zero]
    rw [if_pos hd]
    exact hq
  · have : n / d + 1 ≤ K := by omega
    simp only
    split_ifs <;> omega

/-- A quotient of at least 1 does not round to 0. -/
theorem roundHalfEven_pos (n d : Nat) (hd : 0 < d) (h : d ≤ n) : 0 < roundHalfEven n d := by
  unfold roundHalfEven
  have hq : 0 < n / d := Nat.div_pos h hd
  simp only
  split_ifs <;> omega

/-- No scaling down below `2^24`. -/
theorem scaleDown_zero (fuel n d : Nat) (h : n < 2 ^ 24 * d) : scaleDown fuel n d = 0 := by
  cases fuel with
  | zero => rfl
  | succ f =>
    unfold scaleDown
    rw [if_neg (by omega)]

/-- The scaled significand is at least `2^23` after a scaling down. -/
theorem scaleDown_spec (fuel n d : Nat) :
    scaleDown fuel n d = 0 ∨ 2 ^ 23 * d * 2 ^ scaleDown fuel n d ≤ n := by
  induction fuel generalizing d with
  | zero => left; rfl
  | succ f ih =>
    unfold scaleDown
    by_cases h : 2 ^ 24 * d ≤ n
    · rw [if_pos h]
      right
      rcases ih (2 * d) with h0 | h1
      · rw [h0]
        have : 2 ^ 23 * d * 2 ^ (0 + 1) = 2 ^ 24 * d := by ring
        omega
      · have : 2 ^ 23 * d * 2 ^ (scaleDown f n (2 * d) + 1)
            = 2 ^ 23 * (2 * d) * 2 ^ scaleDown f n (2 * d) := by ring
        omega
    · rw [if_neg h]
      left; rfl

/-- No scaling up from `2^23` on. -/
theorem scaleUp_zero (fuel n d : Nat) (h : 2 ^ 23 * d ≤ n) : scaleUp fuel n d = 0 := by
  cases fuel with
  | zero => rfl
  | succ f =>
    unfold scaleUp
    rw [if_neg (by omega)]

/-- With enough fuel the scaled significand reaches `2^23`. -/
theorem scaleUp_spec (fuel n d : Nat) (h : 2 ^ 23 * d ≤ n * 2 ^ fuel) :
    2 ^ 23 * d ≤ n * 2 ^ scaleUp fuel n d := by
  induction fuel generalizing n with
  | zero =>
    unfold scaleUp
    simpa using h
  | succ f ih =>
    unfold scaleUp
    by_cases hn : n < 2 ^ 23 * d
    · rw [if_pos hn]
      have h2 : 2 ^ 23 * d ≤ 2 * n * 2 ^ f := by
        have : 2 * n * 2 ^ f = n * 2 ^ (f + 1) := by ring
        omega
      have := ih (2 * n) h2
      have e : n * 2 ^ (scaleUp f (2 * n) d + 1) = 2 * n * 2 ^ scaleUp f (2 * n) d := by ring
      omega
    · rw [if_neg hn]
      simp only [pow_zero, Nat.mul_one]
      omega

/-- A scaling up stops as soon as the significand reaches `2^23`: it stays
below `2^24`. -/
theorem scaleUp_minimal (fuel n d : Nat) (h : n < 2 ^ 24 * d) :
    n * 2 ^ scaleUp fuel n d < 2 ^ 24 * d := by
  induction fuel generalizing n with
  | zero =>
    unfold scaleUp
    simpa using h
  | succ f ih =>
    unfold scaleUp
    by_cases hn : n < 2 ^ 23 * d
    · rw [if_pos hn]
      have := ih (2 * n) (by omega)
      have e : n * 2 ^ (scaleUp f (2 * n) d + 1) = 2 * n * 2 ^ scaleUp f (2 * n) d := by ring
      omega
    · rw [if_neg hn]
      simpa using h

/-- With enough fuel a scaling down brings the significand below `2^24`. -/
theorem scaleDown_spec_upper (fuel n d : Nat) (h : n < 2 ^ 24 * d * 2 ^ fuel) :
    n < 2 ^ 24 * d * 2 ^ scaleDown fuel n d := by
  induction fuel generalizing d with
  | zero =>
    unfold scaleDown
    simpa using h
  | succ f ih =>
    unfold scaleDown
    by_cases hn : 2 ^ 24 * d ≤ n
    · rw [if_pos hn]
      have e : 2 ^ 24 * d * 2 ^ (f + 1) = 2 ^ 24 * (2 * d) * 2 ^ f := by ring
      have := ih (2 * d) (by omega)
      have e2 : 2 ^ 24 * d * 2 ^ (scaleDown f n (2 * d) + 1)
          = 2 ^ 24 * (2 * d) * 2 ^ scaleDown f n (2 * d) := by ring
      omega
    · rw [if_neg hn]
      simp only [pow_zero, Nat.mul_one]
      omega

/-- The fuel `n` is enough for the scaling down of `n / d`. -/
theorem scaleDown_fuel (n d : Nat) (hd : 0 < d) : n < 2 ^ 24 * d * 2 ^ n := by
  have h1 : n < 2 ^ n := Nat.lt_two_pow n
  have h2 : 1 * 2 ^ n ≤ 2 ^ 24 * d * 2 ^ n :=
    Nat.mul_le_mul_right _ (Nat.mul_pos (by norm_num) hd)
  omega

/-- The fuel `24 + d` is enough. -/
theorem scaleUp_fuel (n d : Nat) (hn : 0 < n) : 2 ^ 23 * d ≤ n * 2 ^ (24 + d) := by
  have h1 : d < 2 ^ d := Nat.lt_two_pow d
  have h2 : (2:Nat) ^ (24 + d) = 2 ^ 24 * 2 ^ d := by ring
  have h3 : 2 ^ 23 * d ≤ 2 ^ 24 * 2 ^ d := by
    have : 2 ^ 23 * d ≤ 2 ^ 24 * d := Nat.mul_le_mul_right d (by norm_num)
    have : 2 ^ 24 * d ≤ 2 ^ 24 * 2 ^ d := Nat.mul_le_mul_left _ (by omega)
    omega
  calc 2 ^ 23 * d ≤ 2 ^ 24 * 2 ^ d := h3
    _ = 1 * 2 ^ (24 + d) := by rw [h2, Nat.one_mul]
    _ ≤ n * 2 ^ (24 + d) := Nat.mul_le_mul_right _ hn

namespace CFloat

/-- Rounding keeps the fraction well formed. -/
theorem single_den_pos (a : CFloat) (h : 0 < a.den) : 0 < (single a).den := by
  unfold single
  split_ifs
  · exact h
  · exact Nat.pos_pow_of_pos _ (by norm_num)


/-- The numerator of a negation. -/
theorem neg_num (a : CFloat) : (-a).num = -a.num := rfl

/-- The denominator of a negation. -/
theorem neg_den (a : CFloat) : (-a).den = a.den := rfl

/-- The parts of `single a` for a value other than zero. -/
theorem single_of_ne (a : CFloat) (hd : 0 < a.den) (hn : a.num ≠ 0) :
    single a = ⟨a.num.sign *
        ((roundHalfEven (a.num.natAbs * 2 ^ scaleUp (24 + a.den) a.num.natAbs a.den)
            (a.den * 2 ^ scaleDown a.num.natAbs a.num.natAbs a.den)
          * 2 ^ scaleDown a.num.natAbs a.num.natAbs a.den : Nat) : Int),
      2 ^ scaleUp (24 + a.den) a.num.natAbs a.den⟩ := by
  unfold single
  rw [if_neg (by omega)]

/-- The quotient that `single` rounds to an integer is a significand of 24
bits: it lies between `2^23` and `2^24`. -/
theorem single_significand (a : CFloat) (hd : 0 < a.den) (hn : a.num ≠ 0) :
    2 ^ 23 * (a.den * 2 ^ scaleDown a.num.natAbs a.num.natAbs a.den)
        ≤ a.num.natAbs * 2 ^ scaleUp (24 + a.den) a.num.natAbs a.den ∧
      a.num.natAbs * 2 ^ scaleUp (24 + a.den) a.num.natAbs a.den
        < 2 ^ 24 * (a.den * 2 ^ scaleDown a.num.natAbs a.num.natAbs a.den) := by
  have hN : 0 < a.num.natAbs := Int.natAbs_pos.mpr hn
  have hsu := scaleUp_spec (24 + a.den) a.num.natAbs a.den (scaleUp_fuel _ _ hN)
  have hsd := scaleDown_spec a.num.natAbs a.num.natAbs a.den
  have hsdu := scaleDown_spec_upper a.num.natAbs a.num.natAbs a.den (scaleDown_fuel _ _ hd)
  by_cases hbig : 2 ^ 24 * a.den ≤ a.num.natAbs
  · -- scaled down
    have hz : scaleUp (24 + a.den) a.num.natAbs a.den = 0 :=
      scaleUp_zero _ _ _ (by omega)
    rw [hz, pow_zero, Nat.mul_one]
    rcases hsd with h0 | h1
    · rw [h0, pow_zero, Nat.mul_one] at hsdu
      omega
    · constructor
      · rw [← Nat.mul_assoc]
        exact h1
      · rw [← Nat.mul_assoc]
        exact hsdu
  · have hz : scaleDown a.num.natAbs a.num.natAbs a.den = 0 :=
      scaleDown_zero _ _ _ (by omega)
    rw [hz, pow_zero, Nat.mul_one]
    exact ⟨hsu, scaleUp_minimal _ _ _ (by omega)⟩

/-- Two values as IEEE single precision has them: `1/3` is
`11184811 / 2^25`, and `2^24 + 1` is `2^24`. -/
theorem single_examples :
    (single ⟨1, 3⟩).num = 11184811 ∧ (single ⟨1, 3⟩).den = 2 ^ 25 ∧
      (single ⟨16777217, 1⟩).num = 16777216 ∧ (single ⟨16777217, 1⟩).den = 1 := by
  decide

/-- Rounding commutes with negation. -/
theorem single_neg (a : CFloat) : single (-a) = -(single a) := by
  by_cases h : a.den = 0 ∨ a.num = 0
  · have h2 : (-a).den = 0 ∨ (-a).num = 0 := by
      rcases h with h | h
      · left; exact h
      · right; rw [neg_num, h]; rfl
    unfold single
    rw [if_pos h, if_pos h2]
  · have hd : 0 < a.den := by omega
    have hn : a.num ≠ 0 := by omega
    rw [single_of_ne a hd hn, single_of_ne (-a) hd (by rw [neg_num]; omega)]
    show (⟨_, _⟩ : CFloat) = ⟨-_, _⟩
    simp only [neg_num, neg_den, Int.natAbs_neg, Int.sign_neg, Int.neg_mul]

/-- Rounding gives zero only for zero. -/
theorem single_num_eq_zero (a : CFloat) (hd : 0 < a.den) :
    (single a).num = 0 ↔ a.num = 0 := by
  by_cases hn : a.num = 0
  · have : single a = a := by
      unfold single
      rw [if_pos (Or.inr hn)]
    rw [this]
  · rw [single_of_ne a hd hn]
    simp only [hn, iff_false]
    have hN : 0 < a.num.natAbs := Int.natAbs_pos.mpr hn
    have hsd := scaleDown_spec a.num.natAbs a.num.natAbs a.den
    have hsu := scaleUp_spec (24 + a.den) a.num.natAbs a.den (scaleUp_fuel _ _ hN)
    have hpos : 0 < roundHalfEven
        (a.num.natAbs * 2 ^ scaleUp (24 + a.den) a.num.natAbs a.den)
        (a.den * 2 ^ scaleDown a.num.natAbs a.num.natAbs a.den) := by
      apply roundHalfEven_pos
      · exact Nat.mul_pos hd (Nat.pos_pow_of_pos _ (by norm_num))
      · rcases hsd with h0 | h1
        · rw [h0, pow_zero, Nat.mul_one]
          omega
        · have hz : scaleUp (24 + a.den) a.num.natAbs a.den = 0 := by
            apply scaleUp_zero
            have : 2 ^ 23 * a.den ≤ 2 ^ 23 * a.den * 2 ^ scaleDown a.num.natAbs a.num.natAbs a.den :=
              Nat.le_mul_of_pos_right _ (Nat.pos_pow_of_pos _ (by norm_num))
            omega
          rw [hz, pow_zero, Nat.mul_one]
          have : a.den * 2 ^ scaleDown a.num.natAbs a.num.natAbs a.den
              ≤ 2 ^ 23 * a.den * 2 ^ scaleDown a.num.natAbs a.num.natAbs a.den := by
            rw [Nat.mul_assoc]
            exact Nat.le_mul_of_pos_left _ (by norm_num)
          omega
    have hp2 : 0 < 2 ^ scaleDown a.num.natAbs a.num.natAbs a.den :=
      Nat.pos_pow_of_pos _ (by norm_num)
    have hprod := Nat.mul_pos hpos hp2
    intro h
    rcases Int.mul_eq_zero.mp h with h1 | h2
    · exact hn (Int.sign_eq_zero_iff_zero.mp h1)
    · have : (0 : Int) < ((roundHalfEven
          (a.num.natAbs * 2 ^ scaleUp (24 + a.den) a.num.natAbs a.den)
          (a.den * 2 ^ scaleDown a.num.natAbs a.num.natAbs a.den)
          * 2 ^ scaleDown a.num.natAbs a.num.natAbs a.den : Nat) : Int) := by
        exact_mod_cast hprod
      omega

/-- Rounding keeps a value of magnitude at most 1 at magnitude at most 1. -/
theorem single_le_one (a : CFloat) (hd : 0 < a.den) (h : a.num.natAbs ≤ a.den) :
    (single a).num.natAbs ≤ (single a).den := by
  by_cases hn : a.num = 0
  · have : single a = a := by
      unfold single
      rw [if_pos (Or.inr hn)]
    rw [this]
    exact h
  · rw [single_of_ne a hd hn]
    have hz : scaleDown a.num.natAbs a.num.natAbs a.den = 0 := by
      apply scaleDown_zero
      omega
    simp only [hz, pow_zero, Nat.mul_one]
    rw [Int.natAbs_mul, Int.natAbs_sign_of_nonzero hn, Nat.one_mul, Int.natAbs_ofNat]
    apply roundHalfEven_le _ _ _ hd
    rw [Nat.mul_comm]
    exact Nat.mul_le_mul_left _ h

/-- A value `m / 2^k` with `|m| < 2^24` is representable: rounding keeps
it. -/
theorem IsDyadic.single_keeps {a : CFloat} {m : Int} {k : Nat} (ha : a.IsDyadic m k)
    (hm : m.natAbs < 2 ^ 24) : (single a).IsDyadic m k := by
  obtain ⟨hd, hv⟩ := ha
  by_cases hn : a.num = 0
  · have : CFloat.single a = a := by
      unfold CFloat.single
      rw [if_pos (Or.inr hn)]
    rw [this]
    exact ⟨hd, hv⟩
  · rw [single_of_ne a hd hn]
    have hN : 0 < a.num.natAbs := Int.natAbs_pos.mpr hn
    -- the equation between the magnitudes
    have hnat : a.num.natAbs * 2 ^ k = m.natAbs * a.den := by
      have := congrArg Int.natAbs hv
      rw [Int.natAbs_mul, Int.natAbs_mul, Int.natAbs_pow] at this
      simpa using this
    have hk : 0 < 2 ^ k := Nat.pos_pow_of_pos _ (by norm_num)
    have hlt : a.num.natAbs < 2 ^ 24 * a.den := by
      have h1 : a.num.natAbs ≤ a.num.natAbs * 2 ^ k := Nat.le_mul_of_pos_right _ hk
      have h2 : m.natAbs * a.den < 2 ^ 24 * a.den := Nat.mul_lt_mul_of_pos_right hm hd
      omega
    have hz : scaleDown a.num.natAbs a.num.natAbs a.den = 0 := scaleDown_zero _ _ _ hlt
    have hsu := scaleUp_spec (24 + a.den) a.num.natAbs a.den (scaleUp_fuel _ _ hN)
    generalize scaleUp (24 + a.den) a.num.natAbs a.den = s at hsu ⊢
    simp only [hz, pow_zero, Nat.mul_one]
    -- the shift is at least k
    have hks : k ≤ s := by
      by_contra hc
      have hc : s < k := by omega
      obtain ⟨j, rfl⟩ : ∃ j, k = s + (j + 1) := ⟨k - s - 1, by omega⟩
      have e1 : a.num.natAbs * 2 ^ (s + (j + 1)) = a.num.natAbs * 2 ^ s * 2 ^ (j + 1) := by ring
      have e2 : 2 ≤ 2 ^ (j + 1) := by
        have : 2 ^ 1 ≤ 2 ^ (j + 1) := Nat.pow_le_pow_right (by norm_num) (by omega)
        simpa using this
      have e3 : 2 ^ 23 * a.den * 2 ≤ a.num.natAbs * 2 ^ s * 2 ^ (j + 1) :=
        Nat.mul_le_mul hsu e2
      have e4 : m.natAbs * a.den < 2 ^ 24 * a.den := Nat.mul_lt_mul_of_pos_right hm hd
      omega
    obtain ⟨j, rfl⟩ : ∃ j, s = k + j := ⟨s - k, by omega⟩
    have hex : a.num.natAbs * 2 ^ (k + j) = m.natAbs * 2 ^ j * a.den := by
      calc a.num.natAbs * 2 ^ (k + j) = a.num.natAbs * 2 ^ k * 2 ^ j := by ring
        _ = m.natAbs * a.den * 2 ^ j := by rw [hnat]
        _ = m.natAbs * 2 ^ j * a.den := by ring
    rw [hex, roundHalfEven_exact _ _ hd]
    refine ⟨Nat.pos_pow_of_pos _ (by norm_num), ?_⟩
    show a.num.sign * ((m.natAbs * 2 ^ j : Nat) : Int) * 2 ^ k = m * ((2 ^ (k + j) : Nat) : Int)
    have hsign : a.num.sign = m.sign := by
      have hdpos : (0 : Int) < (a.den : Int) := by exact_mod_cast hd
      have hkpos : (0 : Int) < (2 : Int) ^ k := by positivity
      have h1 : (a.num * 2 ^ k).sign = (m * (a.den : Int)).sign := by rw [hv]
      rw [Int.sign_mul, Int.sign_mul, Int.sign_eq_one_of_pos hkpos,
        Int.sign_eq_one_of_pos hdpos, Int.mul_one, Int.mul_one] at h1
      exact h1
    rw [hsign]
    simp only [Nat.cast_mul, Nat.cast_pow, Nat.cast_ofNat]
    have := Int.sign_mul_natAbs m
    calc m.sign * ((m.natAbs : Int) * 2 ^ j) * 2 ^ k
        = (m.sign * (m.natAbs : Int)) * (2 ^ j * 2 ^ k) := by ring
      _ = m * (2 ^ j * 2 ^ k) := by rw [this]
      _ = m * 2 ^ (k + j) := by ring

end CFloat

/-! ### Fractions whose value is an integer -/

namespace CFloat

/-- The numerator of a sum. -/
theorem add_num (a b : CFloat) : (a + b).num = a.num * b.den + b.num * a.den := rfl

/-- The denominator of a sum. -/
theorem add_den (a b : CFloat) : (a + b).den = a.den * b.den := rfl

/-- The numerator of a difference. -/
theorem sub_num (a b : CFloat) : (a - b).num = a.num * b.den - b.num * a.den := rfl

/-- The denominator of a difference. -/
theorem sub_den (a b : CFloat) : (a - b).den = a.den * b.den := rfl

/-- The numerator of a product. -/
theorem mul_num (a b : CFloat) : (a * b).num = a.num * b.num := rfl

/-- The denominator of a product. -/
theorem mul_den (a b : CFloat) : (a * b).den = a.den * b.den := rfl

/-- The numerator of a quotient. -/
theorem div_num (a b : CFloat) : (a / b).num = a.num * b.den * b.num.sign := rfl

/-- The denominator of a quotient. -/
theorem div_den (a b : CFloat) : (a / b).den = a.den * b.num.natAbs := rfl

/-- The conversion of an `int` has that integer as its value. -/
theorem isInt_ofInt (n : Int) : (ofInt n).IsInt n := by
  constructor
  · exact Nat.one_pos
  · show n = n * ((1 : Nat) : Int)
    simp

/-- Sums of integer-valued fractions. -/
theorem IsInt.add {a b : CFloat} {m n : Int} (ha : a.IsInt m) (hb : b.IsInt n) :
    (a + b).IsInt (m + n) := by
  obtain ⟨ha0, ha1⟩ := ha
  obtain ⟨hb0, hb1⟩ := hb
  refine ⟨Nat.mul_pos ha0 hb0, ?_⟩
  rw [add_num, add_den, ha1, hb1]
  push_cast
  ring

/-- Differences of integer-valued fractions. -/
theorem IsInt.sub {a b : CFloat} {m n : Int} (ha : a.IsInt m) (hb : b.IsInt n) :
    (a - b).IsInt (m - n) := by
  obtain ⟨ha0, ha1⟩ := ha
  obtain ⟨hb0, hb1⟩ := hb
  refine ⟨Nat.mul_pos ha0 hb0, ?_⟩
  rw [sub_num, sub_den, ha1, hb1]
  push_cast
  ring

/-- Products of integer-valued fractions. -/
theorem IsInt.mul {a b : CFloat} {m n : Int} (ha : a.IsInt m) (hb : b.IsInt n) :
    (a * b).IsInt (m * n) := by
  obtain ⟨ha0, ha1⟩ := ha
  obtain ⟨hb0, hb1⟩ := hb
  refine ⟨Nat.mul_pos ha0 hb0, ?_⟩
  rw [mul_num, mul_den, ha1, hb1]
  push_cast
  ring

/-- `floor` of an integer-valued fraction. -/
theorem IsInt.floor {a : CFloat} {n : Int} (ha : a.IsInt n) : a.floor = n := by
  obtain ⟨ha0, ha1⟩ := ha
  unfold CFloat.floor
  rw [ha1]
  exact Int.mul_ediv_cancel n (by omega)

/-- Truncation of an integer-valued fraction. -/
theorem IsInt.toInt {a : CFloat} {n : Int} (ha : a.IsInt n) : a.toInt = n := by
  obtain ⟨ha0, ha1⟩ := ha
  unfold CFloat.toInt
  rw [ha1]
  exact Int.mul_tdiv_cancel n (by omega)

/-- Zero divided by a non-zero value is zero. -/
theorem IsInt.div_zero {a b : CFloat} (ha : a.IsInt 0) (hb : b.num ≠ 0) :
    (a / b).IsInt 0 := by
  obtain ⟨ha0, ha1⟩ := ha
  refine ⟨?_, ?_⟩
  · rw [div_den]
    exact Nat.mul_pos ha0 (Int.natAbs_pos.mpr hb)
  · rw [div_num, ha1]
    simp

/-- Rounding keeps an integer of magnitude below `2^24`. -/
theorem IsInt.single {a : CFloat} {n : Int} (ha : a.IsInt n) (hn : n.natAbs < 2 ^ 24) :
    (single a).IsInt n := by
  have h : a.IsDyadic n 0 := ⟨ha.1, by rw [pow_zero, Int.mul_one]; exact ha.2⟩
  have h2 := h.single_keeps hn
  exact ⟨h2.1, by have := h2.2; rwa [pow_zero, Int.mul_one] at this⟩

/-- The conversion of an `int` of magnitude below `2^24` to `float` is
exact. -/
theorem isInt_ofIntSingle (n : Int) (hn : n.natAbs < 2 ^ 24) : (ofIntSingle n).IsInt n :=
  (isInt_ofInt n).single hn

/-- `ipart` of an integer-valued fraction. -/
theorem IsInt.ipart {a : CFloat} {n : Int} (ha : a.IsInt n) (hn : n.natAbs < 2 ^ 24) :
    (ipart a).IsInt n := by
  unfold FbClock.ipart
  rw [ha.floor]
  exact (isInt_ofInt n).single hn

/-- `fpart` of an integer-valued fraction is zero. -/
theorem IsInt.fpart {a : CFloat} {n : Int} (ha : a.IsInt n) : (fpart a).IsInt 0 := by
  unfold FbClock.fpart
  rw [ha.floor]
  have h := ha.sub (isInt_ofInt n)
  rw [Int.sub_self] at h
  exact h.single (by decide)

/-- `rfpart` of an integer-valued fraction is one. -/
theorem IsInt.rfpart {a : CFloat} {n : Int} (ha : a.IsInt n) : (rfpart a).IsInt 1 := by
  unfold FbClock.rfpart
  have h := (isInt_ofIntSingle 1 (by decide)).sub ha.fpart
  rw [Int.sub_zero] at h
  exact h.single (by decide)

/-- `floor` of a fraction whose value is `n + 1/2`. -/
theorem IsDyadic.floor_half {a : CFloat} {n : Int} (ha : a.IsDyadic (2 * n + 1) 1) :
    a.floor = n := by
  obtain ⟨ha0, ha1⟩ := ha
  unfold CFloat.floor
  have hd : (0 : Int) < (a.den : Int) := by exact_mod_cast ha0
  have e : a.num * 2 = 2 * (n * (a.den : Int)) + (a.den : Int) := by
    rw [pow_one] at ha1
    rw [ha1]
    ring
  have h1 : n ≤ a.num / (a.den : Int) := by
    rw [Int.le_ediv_iff_mul_le hd]
    omega
  have h2 : a.num / (a.den : Int) < n + 1 := by
    rw [Int.ediv_lt_iff_lt_mul hd]
    have : (n + 1) * (a.den : Int) = n * (a.den : Int) + (a.den : Int) := by ring
    omega
  omega

/-- `rnd` of an integer-valued fraction of magnitude below `2^23`. -/
theorem IsInt.rnd {a : CFloat} {n : Int} (ha : a.IsInt n) (hlo : -8388608 ≤ n)
    (hhi : n < 8388608) : (rnd a).IsInt n := by
  obtain ⟨ha0, ha1⟩ := ha
  have hdy : (a + half).IsDyadic (2 * n + 1) 1 := by
    refine ⟨Nat.mul_pos ha0 (by decide), ?_⟩
    rw [add_num, add_den, ha1]
    show (n * (a.den : Int) * ((2 : Nat) : Int) + 1 * (a.den : Int)) * 2 ^ 1
      = (2 * n + 1) * ((a.den * 2 : Nat) : Int)
    push_cast
    ring
  have hfl := (hdy.single_keeps (by omega)).floor_half
  unfold FbClock.rnd FbClock.ipart
  rw [hfl]
  exact (isInt_ofInt n).single (by omega)

/-- `rnd` of an integer-valued fraction of magnitude below `2^23`, converted
to `int`. -/
theorem IsInt.rnd_toInt {a : CFloat} {n : Int} (ha : a.IsInt n) (hlo : -8388608 ≤ n)
    (hhi : n < 8388608) : (FbClock.rnd a).toInt = n :=
  (ha.rnd hlo hhi).toInt

/-- A byte converted to `int` and back is itself. -/
theorem toBYTE_val (v : BYTE) : FbClock.toBYTE (v.val : Int) = v := by
  apply Fin.ext
  show ((v.val : Int) % 256).toNat = v.val
  have := v.isLt
  omega

/-- A channel scaled by intensity zero is 0. -/
theorem IsInt.scale_zero {t : CFloat} (ht : t.IsInt 0) (v : BYTE) :
    (t * ofBYTE v).single.toBYTE = 0 := by
  have hv : (ofBYTE v).IsInt (v.val : Int) := isInt_ofInt _
  have hm := ht.mul hv
  rw [Int.zero_mul] at hm
  have h := (hm.single (by decide)).toInt
  unfold CFloat.toBYTE
  rw [h]
  rfl

/-- A channel scaled by intensity one is itself. -/
theorem IsInt.scale_one {t : CFloat} (ht : t.IsInt 1) (v : BYTE) :
    (t * ofBYTE v).single.toBYTE = v := by
  have hv : (ofBYTE v).IsInt (v.val : Int) := isInt_ofInt _
  have hm := ht.mul hv
  rw [Int.one_mul] at hm
  have h := (hm.single (by have := v.isLt; omega)).toInt
  unfold CFloat.toBYTE
  rw [h]
  exact toBYTE_val v

end CFloat

/-! ### region_set_pixel_t and horizontal lines -/

/-- `region_set_pixel_t` is `region_set_pixel` of the scaled colour behind a
stricter guard. -/
theorem region_set_pixel_t_eq (self : Region) (x y : Int) (r g b : BYTE) (t : CFloat) :
    region_set_pixel_t self x y r g b t =
      if 0 < x ∧ 0 < y then
        region_set_pixel self x y (t * CFloat.ofBYTE r).single.toBYTE (t * CFloat.ofBYTE g).single.toBYTE
          (t * CFloat.ofBYTE b).single.toBYTE
      else self := by
  unfold region_set_pixel_t region_set_pixel
  by_cases h : x > 0 ∧ x < self.w ∧ y > 0 ∧ y < self.h
  · have h1 : 0 < x ∧ 0 < y := ⟨h.1, h.2.2.1⟩
    have h2 : x ≥ 0 ∧ x < self.w ∧ y ≥ 0 ∧ y < self.h := by omega
    simp only [if_pos h, if_pos h1, if_pos h2, Int.add_zero]
  · by_cases h1 : 0 < x ∧ 0 < y
    · have h2 : ¬ (x ≥ 0 ∧ x < self.w ∧ y ≥ 0 ∧ y < self.h) := by omega
      simp only [if_neg h, if_pos h1, if_neg h2]
    · simp only [if_neg h, if_neg h1]

/-- A region with the same sizes as a well-sized one is well sized. -/
theorem wellSized_of_size {self s : Region} (hs : self.WellSized) (hw : s.w = self.w)
    (hh : s.h = self.h) (hl : s.data.length = self.data.length) : s.WellSized := by
  unfold Region.WellSized at hs ⊢
  rw [hl, hw, hh]
  exact hs

/-- The size of a region after a pair of anti-aliased stores. -/
theorem line_plot_pair_size (s : Region) (steep : Bool) (x y : Int) (r g b : BYTE)
    (t1 t2 : CFloat) :
    (line_plot_pair s steep x y r g b t1 t2).w = s.w ∧
      (line_plot_pair s steep x y r g b t1 t2).h = s.h ∧
      (line_plot_pair s steep x y r g b t1 t2).data.length = s.data.length := by
  unfold line_plot_pair
  cases steep <;> simp only [region_set_pixel_t_eq, Bool.false_eq_true, if_false, if_true]
  all_goals
    split <;> split <;>
      simp only [(region_set_pixel_size _ _ _ _ _ _).1, (region_set_pixel_size _ _ _ _ _ _).2.1,
        (region_set_pixel_size _ _ _ _ _ _).2.2, and_self]

/-- The pixels of a region after a pair of anti-aliased stores of a line that
is not steep. -/
theorem line_plot_pair_pixel (s : Region) (hs : s.WellSized) (x y : Int) (r g b : BYTE)
    (t1 t2 : CFloat) (x' y' : Int)
    (hx' : 0 ≤ x') (hxw' : x' < s.w) (hy' : 0 ≤ y') (hyh' : y' < s.h) :
    (line_plot_pair s false x y r g b t1 t2).pixel x' y' =
      if x' = x ∧ y' = y + 1 ∧ 0 < x ∧ 0 < y + 1 then
        ((t2 * CFloat.ofBYTE r).single.toBYTE, (t2 * CFloat.ofBYTE g).single.toBYTE,
          (t2 * CFloat.ofBYTE b).single.toBYTE)
      else if x' = x ∧ y' = y ∧ 0 < x ∧ 0 < y then
        ((t1 * CFloat.ofBYTE r).single.toBYTE, (t1 * CFloat.ofBYTE g).single.toBYTE,
          (t1 * CFloat.ofBYTE b).single.toBYTE)
      else s.pixel x' y' := by
  unfold line_plot_pair
  simp only [Bool.false_eq_true, if_false]
  have hsz := region_set_pixel_size s x y (t1 * CFloat.ofBYTE r).single.toBYTE
    (t1 * CFloat.ofBYTE g).single.toBYTE (t1 * CFloat.ofBYTE b).single.toBYTE
  have hs1 := wellSized_of_size hs hsz.1 hsz.2.1 hsz.2.2
  rw [region_set_pixel_t_eq _ x (y + 1), region_set_pixel_t_eq s x y]
  by_cases c1 : 0 < x ∧ 0 < y + 1
  · rw [if_pos c1]
    by_cases c0 : 0 < x ∧ 0 < y
    · rw [if_pos c0]
      rw [region_set_pixel_pixel _ hs1 x (y + 1) _ _ _ x' y' hx' (by rw [hsz.1]; exact hxw') hy'
        (by rw [hsz.2.1]; exact hyh')]
      rw [region_set_pixel_pixel s hs x y _ _ _ x' y' hx' hxw' hy' hyh']
      split_ifs <;> first | rfl | (exfalso; omega)
    · rw [if_neg c0]
      rw [region_set_pixel_pixel s hs x (y + 1) _ _ _ x' y' hx' hxw' hy' hyh']
      split_ifs <;> first | rfl | (exfalso; omega)
  · rw [if_neg c1]
    by_cases c0 : 0 < x ∧ 0 < y
    · omega
    · rw [if_neg c0]
      split_ifs <;> first | rfl | (exfalso; omega)

/-- The numerator of `absolute x` is not negative. -/
theorem absolute_num_nonneg (a : CFloat) : 0 ≤ (absolute a).num := by
  unfold absolute
  by_cases h : a.lt (CFloat.ofInt 0) = true
  · rw [if_pos h]
    have h2 : a.num * ((1 : Nat) : Int) < 0 * (a.den : Int) := of_decide_eq_true h
    rw [CFloat.neg_num]
    omega
  · rw [if_neg h]
    have h2 : ¬ (a.num * ((1 : Nat) : Int) < 0 * (a.den : Int)) := by
      intro hc
      exact h (decide_eq_true hc)
    omega

/-- The slope of a horizontal line with distinct end points is zero. -/
theorem line_gradient_horizontal (x0 x1 y : Int) (hx : x0 < x1) :
    (line_gradient x0 y x1 y).IsInt 0 := by
  unfold line_gradient
  have hnz : (CFloat.ofIntSingle (x1 - x0)).num ≠ 0 := by
    intro hc
    have := (CFloat.single_num_eq_zero (CFloat.ofInt (x1 - x0)) Nat.one_pos).mp hc
    have e : (CFloat.ofInt (x1 - x0)).num = x1 - x0 := rfl
    omega
  have hz : (CFloat.ofIntSingle (x1 - x0)).isZero = false := decide_eq_false hnz
  simp only [hz, Bool.false_eq_true, if_false]
  have hd : (CFloat.ofIntSingle (y - y)).IsInt 0 := by
    rw [Int.sub_self]
    exact CFloat.isInt_ofIntSingle 0 (by decide)
  exact (hd.div_zero hnz).single (by decide)

/-- At an end point `(x, y)` of a line of slope zero, with `x` exact as a
`float`, `rnd (x)` the integer `x'` and `y` of magnitude below `2^23`:
`xpxl` is `x'`, `yend` is `y`, and the region is the result of one pair of
stores at `(x', y)` and `(x', y + 1)`. -/
theorem line_end_horizontal (s : Region) (G : CFloat) (hG : G.IsInt 0) (x y x' : Int)
    (hxs : (CFloat.ofIntSingle x).IsInt x) (hrnd : (rnd (CFloat.ofIntSingle x)).IsInt x')
    (hd : (x' - x).natAbs < 2 ^ 24) (hy0 : -8388608 ≤ y) (hy1 : y < 8388608)
    (r g b : BYTE) :
    (line_end s false G x y r g b).2.1 = x' ∧ (line_end s false G x y r g b).2.2.IsInt y ∧
      ∃ t1 t2, (line_end s false G x y r g b).1 = line_plot_pair s false x' y r g b t1 t2 := by
  have hys : (CFloat.ofIntSingle y).IsInt y := CFloat.isInt_ofIntSingle y (by omega)
  have hxend : (rnd (CFloat.ofIntSingle x)).toInt = x' := hrnd.toInt
  have hyend : (CFloat.ofIntSingle y
      + (G * (rnd (CFloat.ofIntSingle x) - CFloat.ofIntSingle x).single).single).single.IsInt y := by
    have h1 := (hrnd.sub hxs).single hd
    have h2 := hG.mul h1
    rw [Int.zero_mul] at h2
    have h3 := hys.add (h2.single (by decide))
    rw [Int.add_zero] at h3
    exact h3.single (by omega)
  refine ⟨hxend, hyend, ?_⟩
  refine ⟨(rfpart (CFloat.ofIntSingle y
        + (G * (rnd (CFloat.ofIntSingle x) - CFloat.ofIntSingle x).single).single).single
      * rfpart (CFloat.ofInt x + CFloat.half).single).single,
    (fpart (CFloat.ofIntSingle y
        + (G * (rnd (CFloat.ofIntSingle x) - CFloat.ofIntSingle x).single).single).single
      * rfpart (CFloat.ofInt x + CFloat.half).single).single, ?_⟩
  show line_plot_pair s false (rnd (CFloat.ofIntSingle x)).toInt
      (ipart (CFloat.ofIntSingle y
        + (G * (rnd (CFloat.ofIntSingle x) - CFloat.ofIntSingle x).single).single).single).toInt
      r g b _ _ = _
  rw [hxend, (hyend.ipart (by omega)).toInt]

/-- The main loop of `region_draw_line_one_pixel` on a horizontal line in a
row `y` of magnitude below `2^23`: row `y` receives the colour, row `y + 1`
receives black, in the columns the loop visits that `region_set_pixel_t`
accepts. -/
theorem line_loop_horizontal (self s2 : Region) (hs : self.WellSized) (r g b : BYTE)
    (x0 x1 y : Int) (hx : x0 ≤ x1 + 1) (hy0 : -8388608 ≤ y) (hy1 : y < 8388608)
    (G iy : CFloat) (hG : G.IsInt 0) (hiy : iy.IsInt y)
    (hw : s2.w = self.w) (hh : s2.h = self.h) (hl : s2.data.length = self.data.length) :
    (forLoop x0 (x1 + 1) (line_step false G r g b) (s2, iy)).1.w = self.w ∧
      (forLoop x0 (x1 + 1) (line_step false G r g b) (s2, iy)).1.h = self.h ∧
      (forLoop x0 (x1 + 1) (line_step false G r g b) (s2, iy)).1.data.length
        = self.data.length ∧
      ∀ x' y' : Int, 0 ≤ x' → x' < self.w → 0 ≤ y' → y' < self.h →
        (forLoop x0 (x1 + 1) (line_step false G r g b) (s2, iy)).1.pixel x' y' =
          if x0 ≤ x' ∧ x' ≤ x1 ∧ 0 < x' ∧ y' = y + 1 ∧ 0 < y + 1 then (0, 0, 0)
          else if x0 ≤ x' ∧ x' ≤ x1 ∧ 0 < x' ∧ y' = y ∧ 0 < y then (r, g, b)
          else s2.pixel x' y' := by
  have key := forLoop_invariant x0 (x1 + 1) (line_step false G r g b)
    (fun x st => st.2.IsInt y ∧ st.1.w = self.w ∧ st.1.h = self.h ∧
      st.1.data.length = self.data.length ∧
      ∀ x' y' : Int, 0 ≤ x' → x' < self.w → 0 ≤ y' → y' < self.h →
        st.1.pixel x' y' =
          if x0 ≤ x' ∧ x' < x ∧ 0 < x' ∧ y' = y + 1 ∧ 0 < y + 1 then (0, 0, 0)
          else if x0 ≤ x' ∧ x' < x ∧ 0 < x' ∧ y' = y ∧ 0 < y then (r, g, b)
          else s2.pixel x' y')
    hx
    (by
      intro i st _ _ hP
      obtain ⟨hI, hw', hh', hl', hp⟩ := hP
      have hstep : line_step false G r g b i st =
          (line_plot_pair st.1 false i y r g b (rfpart st.2) (fpart st.2),
            (st.2 + G).single) := by
        unfold line_step
        rw [(hI.ipart (by omega)).toInt]
      rw [hstep]
      obtain ⟨sw, sh, sl⟩ := line_plot_pair_size st.1 false i y r g b (rfpart st.2) (fpart st.2)
      have hadd : (st.2 + G).single.IsInt y := by
        have h := hI.add hG
        rw [Int.add_zero] at h
        exact h.single (by omega)
      refine ⟨hadd, by rw [sw, hw'], by rw [sh, hh'], by rw [sl, hl'], ?_⟩
      intro x' y' h1 h2 h3 h4
      show (line_plot_pair st.1 false i y r g b (rfpart st.2) (fpart st.2)).pixel x' y' = _
      rw [line_plot_pair_pixel st.1 (wellSized_of_size hs hw' hh' hl') i y r g b _ _ x' y' h1
        (by rw [hw']; exact h2) h3 (by rw [hh']; exact h4)]
      rw [hI.fpart.scale_zero, hI.fpart.scale_zero, hI.fpart.scale_zero,
        hI.rfpart.scale_one, hI.rfpart.scale_one, hI.rfpart.scale_one,
        hp x' y' h1 h2 h3 h4]
      split_ifs <;> first | rfl | (exfalso; omega))
    (s2, iy)
    (by
      refine ⟨hiy, hw, hh, hl, ?_⟩
      intro x' y' _ _ _ _
      rw [if_neg (by omega), if_neg (by omega)])
  obtain ⟨_, kw, kh, kl, kp⟩ := key
  refine ⟨kw, kh, kl, ?_⟩
  intro x' y' h1 h2 h3 h4
  rw [kp x' y' h1 h2 h3 h4]
  split_ifs <;> first | rfl | (exfalso; omega)

/-- A horizontal line given from left to right is not steep and its end
points are not exchanged. -/
theorem line_endpoints_horizontal (x0 x1 y : Int) (hx : x0 < x1) :
    line_endpoints x0 y x1 y = (false, x0, y, x1, y) := by
  have hsteep : (absolute (CFloat.ofIntSingle (x1 - x0))).lt
      (absolute (CFloat.ofIntSingle (y - y))) = false := by
    rw [Int.sub_self]
    have h0 : absolute (CFloat.ofIntSingle 0) = CFloat.ofInt 0 := rfl
    rw [h0]
    have h1 := absolute_num_nonneg (CFloat.ofIntSingle (x1 - x0))
    have hne : ¬ ((absolute (CFloat.ofIntSingle (x1 - x0))).num * ((1 : Nat) : Int)
        < 0 * ((absolute (CFloat.ofIntSingle (x1 - x0))).den : Int)) := by omega
    exact decide_eq_false hne
  unfold line_endpoints
  simp only [hsteep, Bool.false_eq_true, if_false]
  rw [if_neg (by show ¬ (x0 > x1); omega)]

/-- The region after `region_draw_line_one_pixel` on a horizontal line from
`(x0, y)` to `(x1, y)`, `x0 < x1`, where `x0` and `x1` are exact as `float`s,
`rnd` takes them to the integers `p0 <= p1`, and `y` is of magnitude below
`2^23`: in the columns `p0..p1` other than column 0, row `y` holds the colour
unless `y` is 0 or less, row `y + 1` holds black unless `y + 1` is 0 or less;
every other pixel is unchanged. -/
theorem draw_line_horizontal_rounded (self : Region) (hs : self.WellSized)
    (x0 x1 y p0 p1 : Int) (hx : x0 < x1)
    (hs0 : (CFloat.ofIntSingle x0).IsInt x0) (hr0 : (rnd (CFloat.ofIntSingle x0)).IsInt p0)
    (hd0 : (p0 - x0).natAbs < 2 ^ 24)
    (hs1 : (CFloat.ofIntSingle x1).IsInt x1) (hr1 : (rnd (CFloat.ofIntSingle x1)).IsInt p1)
    (hd1 : (p1 - x1).natAbs < 2 ^ 24) (hp : p0 ≤ p1)
    (hy0 : -8388608 ≤ y) (hy1 : y < 8388608) (r g b : BYTE) :
    (region_draw_line_one_pixel self x0 y x1 y r g b).w = self.w ∧
      (region_draw_line_one_pixel self x0 y x1 y r g b).h = self.h ∧
      (region_draw_line_one_pixel self x0 y x1 y r g b).data.length = self.data.length ∧
      ∀ x' y' : Int, 0 ≤ x' → x' < self.w → 0 ≤ y' → y' < self.h →
        (region_draw_line_one_pixel self x0 y x1 y r g b).pixel x' y' =
          if p0 ≤ x' ∧ x' ≤ p1 ∧ 0 < x' ∧ y' = y + 1 ∧ 0 < y + 1 then (0, 0, 0)
          else if p0 ≤ x' ∧ x' ≤ p1 ∧ 0 < x' ∧ y' = y ∧ 0 < y then (r, g, b)
          else self.pixel x' y' := by
  have hG := line_gradient_horizontal x0 x1 y hx
  obtain ⟨a1, a2, ta, tb, a3⟩ :=
    line_end_horizontal self (line_gradient x0 y x1 y) hG x0 y p0 hs0 hr0 hd0 hy0 hy1 r g b
  obtain ⟨b1, b2, tc, td, b3⟩ :=
    line_end_horizontal (line_end self false (line_gradient x0 y x1 y) x0 y r g b).1
      (line_gradient x0 y x1 y) hG x1 y p1 hs1 hr1 hd1 hy0 hy1 r g b
  have hout : region_draw_line_one_pixel self x0 y x1 y r g b =
      (forLoop p0 (p1 + 1) (line_step false (line_gradient x0 y x1 y) r g b)
        ((line_end (line_end self false (line_gradient x0 y x1 y) x0 y r g b).1 false
            (line_gradient x0 y x1 y) x1 y r g b).1,
          ((line_end self false (line_gradient x0 y x1 y) x0 y r g b).2.2
            + line_gradient x0 y x1 y).single)).1 := by
    unfold region_draw_line_one_pixel
    rw [line_endpoints_horizontal x0 x1 y hx]
    unfold draw_line_ordered
    simp only [a1, b1]
  obtain ⟨sw1, sh1, sl1⟩ := line_plot_pair_size self false p0 y r g b ta tb
  obtain ⟨sw2, sh2, sl2⟩ :=
    line_plot_pair_size (line_plot_pair self false p0 y r g b ta tb) false p1 y r g b tc td
  rw [a3] at b3
  have hiy : ((line_end self false (line_gradient x0 y x1 y) x0 y r g b).2.2
      + line_gradient x0 y x1 y).single.IsInt y := by
    have h := a2.add hG
    rw [Int.add_zero] at h
    exact h.single (by omega)
  rw [hout, a3, b3]
  obtain ⟨kw, kh, kl, kp⟩ := line_loop_horizontal self
    (line_plot_pair (line_plot_pair self false p0 y r g b ta tb) false p1 y r g b tc td) hs
    r g b p0 p1 y (by omega) hy0 hy1 (line_gradient x0 y x1 y) _ hG hiy
    (by rw [sw2, sw1]) (by rw [sh2, sh1]) (by rw [sl2, sl1])
  refine ⟨kw, kh, kl, ?_⟩
  intro x' y' h1 h2 h3 h4
  rw [kp x' y' h1 h2 h3 h4]
  rw [line_plot_pair_pixel _ (wellSized_of_size hs sw1 sh1 sl1) p1 y r g b tc td x' y' h1
    (by rw [sw1]; exact h2) h3 (by rw [sh1]; exact h4)]
  rw [line_plot_pair_pixel self hs p0 y r g b ta tb x' y' h1 h2 h3 h4]
  split_ifs <;> first | rfl | (exfalso; omega)

/-- The region after `region_draw_line_one_pixel` on a horizontal line from
`(x0, y)` to `(x1, y)`, `x0 < x1`, all coordinates of magnitude below `2^23`:
in the columns `x0..x1` other than column 0, row `y` holds the colour unless
`y` is 0 or less, row `y + 1` holds black unless `y + 1` is 0 or less; every
other pixel is unchanged. -/
theorem draw_line_horizontal (self : Region) (hs : self.WellSized) (x0 x1 y : Int)
    (hx : x0 < x1) (hx0 : -8388608 ≤ x0) (hx1 : x1 < 8388608) (hy0 : -8388608 ≤ y)
    (hy1 : y < 8388608) (r g b : BYTE) :
    (region_draw_line_one_pixel self x0 y x1 y r g b).w = self.w ∧
      (region_draw_line_one_pixel self x0 y x1 y r g b).h = self.h ∧
      (region_draw_line_one_pixel self x0 y x1 y r g b).data.length = self.data.length ∧
      ∀ x' y' : Int, 0 ≤ x' → x' < self.w → 0 ≤ y' → y' < self.h →
        (region_draw_line_one_pixel self x0 y x1 y r g b).pixel x' y' =
          if x0 ≤ x' ∧ x' ≤ x1 ∧ 0 < x' ∧ y' = y + 1 ∧ 0 < y + 1 then (0, 0, 0)
          else if x0 ≤ x' ∧ x' ≤ x1 ∧ 0 < x' ∧ y' = y ∧ 0 < y then (r, g, b)
          else self.pixel x' y' := by
  have hs0 := CFloat.isInt_ofIntSingle x0 (by omega)
  have hs1 := CFloat.isInt_ofIntSingle x1 (by omega)
  exact draw_line_horizontal_rounded self hs x0 x1 y x0 x1 hx hs0
    (hs0.rnd hx0 (by omega)) (by rw [Int.sub_self]; decide) hs1 (hs1.rnd (by omega) hx1)
    (by rw [Int.sub_self]; decide) (by omega) hy0 hy1 r g b

/-- A uniform region of a size that is not negative has the size
`region_create` allocates. -/
theorem Region.uniform_wellSized (w h : Int) (v : BYTE) (hw : 0 ≤ w) (hh : 0 ≤ h) :
    (Region.uniform w h v).WellSized := by
  unfold Region.WellSized Region.uniform
  simp only [List.length_replicate]
  have : 0 ≤ w * h * BPP := Int.mul_nonneg (Int.mul_nonneg hw hh) (by decide)
  omega

/-- Every pixel of a uniform region holds the value of the region. -/
theorem Region.uniform_pixel (w h : Int) (v : BYTE) (x y : Int) (hx : 0 ≤ x) (hxw : x < w)
    (hy : 0 ≤ y) (hyh : y < h) : (Region.uniform w h v).pixel x y = (v, v, v) := by
  obtain ⟨i0, i1⟩ := index24_in_range w h x y hx hxw hy hyh
  have hp : ∀ k : Int, 0 ≤ k → k < 3 →
      peek (Region.uniform w h v).data ((y * w + x) * BPP + k) = v := by
    intro k hk0 hk1
    unfold peek Region.uniform
    have hB : BPP = 3 := rfl
    rw [hB]
    simp only [List.getD_eq_getElem?_getD]
    rw [List.getElem?_replicate]
    rw [if_pos (by omega)]
    rfl
  unfold Region.pixel
  have e := hp 0 (by omega) (by omega)
  rw [Int.add_zero] at e
  show (peek _ ((y * w + x) * BPP + 2), peek _ ((y * w + x) * BPP + 1),
    peek _ ((y * w + x) * BPP)) = _
  rw [hp 2 (by omega) (by omega), hp 1 (by omega) (by omega), e]

/-! ### region_darken at 100 and at 0 -/

/-- Darkening a byte to 100 percent gives the byte back. -/
theorem darken_byte_hundred (v : BYTE) : darken_byte v 100 = v := by
  apply Fin.ext
  have h := darken_byte_val v 100 (by omega) (by omega)
  have hv := v.isLt
  omega

/-- Darkening a byte to 0 percent gives 0. -/
theorem darken_byte_zero (v : BYTE) : darken_byte v 0 = 0 := by
  apply Fin.ext
  have h := darken_byte_val v 0 (by omega) (by omega)
  have e : (v.val : Int) * 0 / 100 = 0 := by simp
  rw [e] at h
  show (darken_byte v 0).val = 0
  omega

/-! ### region_draw_bitmap_text -/

/-- The loop of `region_draw_bitmap_text` over the tail `rest` of a text, from
position `pre.length` on, is the fold over the numbered characters of
`rest`. -/
theorem text_loop_eq_foldl (F : Int → Int → Region → Region) :
    ∀ (rest pre : List Int) (s : Region),
      loopFrom (fun i s => F ((pre ++ rest).getD i.toNat 0) i s) rest.length
          (pre.length : Int) s
        = (rest.enumFrom pre.length).foldl (fun s (ic : Nat × Int) => F ic.2 (ic.1 : Int) s) s := by
  intro rest
  induction rest with
  | nil =>
    intro pre s
    rfl
  | cons c rest ih =>
    intro pre s
    have hget : (pre ++ c :: rest).getD ((pre.length : Int)).toNat 0 = c := by
      rw [List.getD_eq_getElem?_getD, Int.toNat_ofNat,
        List.getElem?_append_right (Nat.le_refl _)]
      simp
    have happ : pre ++ c :: rest = (pre ++ [c]) ++ rest := by simp
    have hlen : ((pre.length : Int) + 1) = (((pre ++ [c]).length : Nat) : Int) := by simp
    show loopFrom _ rest.length ((pre.length : Int) + 1)
        (F ((pre ++ c :: rest).getD ((pre.length : Int)).toNat 0) (pre.length : Int) s) = _
    rw [hget, List.enumFrom_cons, List.foldl_cons, happ, hlen, ih (pre ++ [c])]
    simp

/-! ### region_to_fb -/

/-- Inside the device the four bytes of a pixel lie inside a buffer of
`w * h * 4` bytes. -/
theorem index32_in_range (w h x y : Int) (hx : 0 ≤ x) (hxw : x < w)
    (hy : 0 ≤ y) (hyh : y < h) :
    0 ≤ (y * w + x) * 4 ∧ (y * w + x) * 4 + 3 < w * h * 4 := by
  have h1 : 0 ≤ y * w := Int.mul_nonneg hy (by omega)
  have h2 : (y + 1) * w ≤ h * w :=
    Int.mul_le_mul_of_nonneg_right (by omega) (by omega)
  have h3 : (y + 1) * w = y * w + w := by ring
  have h4 : h * w = w * h := by ring
  constructor <;> omega

/-- The bytes of a buffer after the three stores that `region_to_fb` makes
for one pixel. -/
theorem poke3_getElem? (data : List BYTE) (T : Int) (b g r : BYTE) (j : Nat)
    (hT : 0 ≤ T) (hlen : T + 2 < (data.length : Int)) :
    (poke (poke (poke data T b) (T + 1) g) (T + 2) r)[j]? =
      if j = T.toNat then some b
      else if j = T.toNat + 1 then some g
      else if j = T.toNat + 2 then some r
      else data[j]? := by
  have e1 : (T + 1).toNat = T.toNat + 1 := by omega
  have e2 : (T + 2).toNat = T.toNat + 2 := by omega
  have l0 : T.toNat < data.length := by omega
  have l1 : T.toNat + 1 < data.length := by omega
  have l2 : T.toNat + 2 < data.length := by omega
  simp only [getElem?_poke, length_poke, e1, e2, if_pos l0, if_pos l1, if_pos l2]
  by_cases c0 : j = T.toNat
  · subst c0
    rw [if_neg (by omega), if_neg (by omega), if_pos rfl, if_pos rfl]
  · by_cases c1 : j = T.toNat + 1
    · subst c1
      rw [if_neg (by omega), if_pos rfl, if_neg (by omega), if_pos rfl]
    · by_cases c2 : j = T.toNat + 2
      · subst c2
        rw [if_pos rfl, if_neg (by omega), if_neg (by omega), if_pos rfl]
      · rw [if_neg (Ne.symm c2), if_neg (Ne.symm c1), if_neg (Ne.symm c0), if_neg c0,
          if_neg c1, if_neg c2]

/-- One iteration of the inner loop of `region_to_fb` extends the set of
copied pixels by `(x, y)`. -/
theorem blit_step (self : Region) (W H ox oy : Int) (d : List BYTE)
    (hlen : (d.length : Int) = W * H * 4) (hox : 0 ≤ ox) (hoy : 0 ≤ oy)
    (hw : ox + self.w ≤ W) (hh : oy + self.h ≤ H)
    (written : Int → Int → Prop) (data : List BYTE) (x y : Int)
    (hx : 0 ≤ x) (hxw : x < self.w) (hy : 0 ≤ y) (hyh : y < self.h)
    (hinv : BlitDone self W ox oy d written data) :
    BlitDone self W ox oy d (fun x' y' => written x' y' ∨ (x' = x ∧ y' = y))
      (poke (poke (poke data (((y + oy) * W + x + ox) * 4)
          (peek self.data ((y * self.w + x) * BPP)))
          (((y + oy) * W + x + ox) * 4 + 1) (peek self.data ((y * self.w + x) * BPP + 1)))
          (((y + oy) * W + x + ox) * 4 + 2) (peek self.data ((y * self.w + x) * BPP + 2))) := by
  obtain ⟨hl, ha, hb⟩ := hinv
  obtain ⟨r0, r1⟩ := index32_in_range W H (x + ox) (y + oy) (by omega) (by omega) (by omega)
    (by omega)
  have hW : 0 ≤ W := by omega
  have hT0 : 0 ≤ ((y + oy) * W + x + ox) * 4 := by omega
  have hT2 : ((y + oy) * W + x + ox) * 4 + 2 < (data.length : Int) := by omega
  refine ⟨by simp only [length_poke]; exact hl, ?_, ?_⟩
  · intro x' y' k h1 h2 h3 h4 hwr hk0 hk3
    rw [poke3_getElem? data _ _ _ _ _ hT0 hT2]
    by_cases hsame : x' = x ∧ y' = y
    · obtain ⟨rfl, rfl⟩ := hsame
      rcases (show k = 0 ∨ k = 1 ∨ k = 2 by omega) with rfl | rfl | rfl
      · rw [if_pos (by omega), Int.add_zero]
      · rw [if_neg (by omega), if_pos (by omega)]
      · rw [if_neg (by omega), if_neg (by omega), if_pos (by omega)]
    · have hwr' : written x' y' := by
        rcases hwr with h | h
        · exact h
        · exact absurd h hsame
      have hne := pixel_index_ne W (x + ox) (y + oy) (x' + ox) (y' + oy) (by omega) (by omega)
        (by omega) (by omega) (by omega)
      obtain ⟨q0, _⟩ := index32_in_range W H (x' + ox) (y' + oy) (by omega) (by omega)
        (by omega) (by omega)
      rw [if_neg (by omega), if_neg (by omega), if_neg (by omega)]
      exact ha x' y' k h1 h2 h3 h4 hwr' hk0 hk3
  · intro X Y k h1 h2 h3 hk0 hk4 hnot
    have hYW : 0 ≤ Y * W := Int.mul_nonneg h3 hW
    rw [poke3_getElem? data _ _ _ _ _ hT0 hT2]
    have hnot' : ¬ (0 ≤ X - ox ∧ X - ox < self.w ∧ 0 ≤ Y - oy ∧ Y - oy < self.h ∧
        written (X - ox) (Y - oy) ∧ k < 3) := by
      intro hc
      exact hnot ⟨hc.1, hc.2.1, hc.2.2.1, hc.2.2.2.1, Or.inl hc.2.2.2.2.1, hc.2.2.2.2.2⟩
    by_cases hsame : X = x + ox ∧ Y = y + oy
    · obtain ⟨rfl, rfl⟩ := hsame
      have hk : k = 3 := by
        by_contra hk
        apply hnot
        refine ⟨by omega, by omega, by omega, by omega, Or.inr ⟨by omega, by omega⟩, by omega⟩
      subst hk
      rw [if_neg (by omega), if_neg (by omega), if_neg (by omega)]
      exact hb _ _ _ h1 h2 h3 hk0 hk4 hnot'
    · have hne := pixel_index_ne W (x + ox) (y + oy) X Y (by omega) (by omega)
        h1 h2 hsame
      rw [if_neg (by omega), if_neg (by omega), if_neg (by omega)]
      exact hb _ _ _ h1 h2 h3 hk0 hk4 hnot'

/-- `BlitDone` depends only on which pixels of the region are selected. -/
theorem BlitDone_congr (self : Region) (W ox oy : Int) (d : List BYTE)
    (written written' : Int → Int → Prop) (data : List BYTE)
    (hiff : ∀ x y : Int, 0 ≤ x → x < self.w → 0 ≤ y → y < self.h →
      (written x y ↔ written' x y))
    (hinv : BlitDone self W ox oy d written data) :
    BlitDone self W ox oy d written' data := by
  obtain ⟨hl, ha, hb⟩ := hinv
  refine ⟨hl, ?_, ?_⟩
  · intro x y k h1 h2 h3 h4 hwr hk0 hk3
    exact ha x y k h1 h2 h3 h4 ((hiff x y h1 h2 h3 h4).mpr hwr) hk0 hk3
  · intro X Y k h1 h2 h3 hk0 hk4 hnot
    apply hb X Y k h1 h2 h3 hk0 hk4
    intro hc
    exact hnot ⟨hc.1, hc.2.1, hc.2.2.1, hc.2.2.2.1,
      (hiff _ _ hc.1 hc.2.1 hc.2.2.1 hc.2.2.2.1).mp hc.2.2.2.2.1, hc.2.2.2.2.2⟩

/-- One row of `region_to_fb`. -/
theorem blit_row (self : Region) (W H ox oy : Int) (d : List BYTE)
    (hlen : (d.length : Int) = W * H * 4) (hox : 0 ≤ ox) (hoy : 0 ≤ oy)
    (hw : ox + self.w ≤ W) (hh : oy + self.h ≤ H)
    (data : List BYTE) (y : Int) (hy : 0 ≤ y) (hyh : y < self.h)
    (hinv : BlitDone self W ox oy d (fun _ y' => y' < y) data) :
    BlitDone self W ox oy d (fun _ y' => y' < y + 1)
      (forLoop 0 self.w (fun x data =>
        poke (poke (poke data (((y + oy) * W + x + ox) * 4)
          (peek self.data ((y * self.w + x) * BPP)))
          (((y + oy) * W + x + ox) * 4 + 1) (peek self.data ((y * self.w + x) * BPP + 1)))
          (((y + oy) * W + x + ox) * 4 + 2) (peek self.data ((y * self.w + x) * BPP + 2)))
        data) := by
  by_cases hwn : 0 ≤ self.w
  · have key := forLoop_invariant 0 self.w (fun x data =>
        poke (poke (poke data (((y + oy) * W + x + ox) * 4)
          (peek self.data ((y * self.w + x) * BPP)))
          (((y + oy) * W + x + ox) * 4 + 1) (peek self.data ((y * self.w + x) * BPP + 1)))
          (((y + oy) * W + x + ox) * 4 + 2) (peek self.data ((y * self.w + x) * BPP + 2)))
      (fun x data => BlitDone self W ox oy d (fun x' y' => y' < y ∨ (y' = y ∧ x' < x)) data)
      hwn
      (by
        intro i s hi0 hi1 hP
        have hstep := blit_step self W H ox oy d hlen hox hoy hw hh _ s i y hi0 hi1 hy hyh hP
        refine BlitDone_congr self W ox oy d _ _ _ ?_ hstep
        intro x' y' _ _ _ _
        constructor
        · intro h
          omega
        · intro h
          omega)
      data
      (by
        refine BlitDone_congr self W ox oy d _ _ _ ?_ hinv
        intro x' y' _ _ _ _
        constructor
        · intro h
          omega
        · intro h
          omega)
    refine BlitDone_congr self W ox oy d _ _ _ ?_ key
    intro x' y' _ _ _ _
    constructor
    · intro h
      omega
    · intro h
      omega
  · rw [forLoop_empty 0 self.w _ data (by omega)]
    refine BlitDone_congr self W ox oy d _ _ _ ?_ hinv
    intro x' y' _ _ _ _
    omega

/-- The device after `region_to_fb` on a mapped device with an in-bounds
window: the colour bytes of every pixel of the window are those of the
region, every other byte of the device memory is unchanged. -/
theorem region_to_fb_bytes (self : Region) (fb : FrameBuffer) (d : List BYTE)
    (ox oy : Int) (hmap : fb.fb_data = some d)
    (hlen : (d.length : Int) = fb.w * fb.h * 4) (hox : 0 ≤ ox) (hoy : 0 ≤ oy)
    (hw : ox + self.w ≤ fb.w) (hh : oy + self.h ≤ fb.h) :
    ∃ d', (region_to_fb self fb ox oy).fb_data = some d' ∧
      (region_to_fb self fb ox oy).w = fb.w ∧ (region_to_fb self fb ox oy).h = fb.h ∧
      BlitDone self fb.w ox oy d (fun _ _ => True) d' := by
  have hout : (region_to_fb self fb ox oy).fb_data = some
      (forLoop 0 self.h (fun y data =>
        forLoop 0 self.w (fun x data =>
          poke (poke (poke data (((y + oy) * fb.w + x + ox) * 4)
            (peek self.data ((y * self.w + x) * BPP)))
            (((y + oy) * fb.w + x + ox) * 4 + 1) (peek self.data ((y * self.w + x) * BPP + 1)))
            (((y + oy) * fb.w + x + ox) * 4 + 2) (peek self.data ((y * self.w + x) * BPP + 2)))
          data) d) := by
    unfold region_to_fb framebuffer_get_data framebuffer_get_width
    rw [hmap]
    rfl
  refine ⟨_, hout, rfl, rfl, ?_⟩
  have hstart : BlitDone self fb.w ox oy d (fun _ y' => y' < 0) d := by
    refine ⟨rfl, ?_, ?_⟩
    · intro x y k _ _ h3 _ hwr _ _
      omega
    · intro X Y k _ _ _ _ _ _
      rfl
  by_cases hhn : 0 ≤ self.h
  · have key := forLoop_invariant 0 self.h (fun y data =>
        forLoop 0 self.w (fun x data =>
          poke (poke (poke data (((y + oy) * fb.w + x + ox) * 4)
            (peek self.data ((y * self.w + x) * BPP)))
            (((y + oy) * fb.w + x + ox) * 4 + 1) (peek self.data ((y * self.w + x) * BPP + 1)))
            (((y + oy) * fb.w + x + ox) * 4 + 2) (peek self.data ((y * self.w + x) * BPP + 2)))
          data)
      (fun y data => BlitDone self fb.w ox oy d (fun _ y' => y' < y) data)
      hhn
      (fun i s hi0 hi1 hP => blit_row self fb.w fb.h ox oy d hlen hox hoy hw hh s i hi0 hi1 hP)
      d hstart
    refine BlitDone_congr self fb.w ox oy d _ _ _ ?_ key
    intro x' y' _ _ _ h4
    exact ⟨fun _ => trivial, fun _ => h4⟩
  · rw [forLoop_empty 0 self.h _ d (by omega)]
    refine BlitDone_congr self fb.w ox oy d _ _ _ ?_ hstart
    intro x' y' _ _ _ _
    omega

/-! ### Small facts for the claims on validation, cloning and the heap -/

/-- The quotient `bpp / 8` of C is 4 exactly for `32 <= bpp <= 39`. -/
theorem tdiv_eight_eq_four (bpp : Int) : Int.tdiv bpp 8 = 4 ↔ 32 ≤ bpp ∧ bpp ≤ 39 := by
  by_cases h : 0 ≤ bpp
  · rw [Int.tdiv_eq_ediv h (by omega)]
    omega
  · have hn : Int.tdiv bpp 8 = - ((-bpp) / 8) := by
      have e := Int.neg_tdiv (-bpp) 8
      rw [Int.neg_neg] at e
      rw [e, Int.tdiv_eq_ediv (by omega) (by omega)]
    rw [hn]
    omega

/-- The buffer that `region_create` allocates has `w * h * BPP` bytes. -/
theorem region_create_length (w h : Int) (garbage : List BYTE) :
    (region_create w h garbage).data.length = (w * h * BPP).toNat := by
  unfold region_create
  simp

/-- The value of a cloned region whose buffer has `w * h * BPP` bytes. -/
theorem region_clone_eq (other : Region) (garbage : List BYTE) (hs : other.WellSized) :
    region_clone other garbage = other := by
  have hlen : (other.data.length : Int) = other.w * other.h * BPP := hs
  have hd : (region_clone other garbage).data = other.data := by
    show memcpy (region_create other.w other.h garbage).data other.data
      (other.w * other.h * BPP) = other.data
    unfold memcpy
    have e : (other.w * other.h * BPP).toNat = other.data.length := by omega
    rw [List.drop_of_length_le (by rw [region_create_length]), e, List.take_length]
    simp
  have hw : (region_clone other garbage).w = other.w := rfl
  have hh : (region_clone other garbage).h = other.h := rfl
  cases other with
  | mk w h data =>
    cases hr : region_clone ⟨w, h, data⟩ garbage with
    | mk w' h' data' =>
      rw [hr] at hd hw hh
      simp only at hd hw hh
      rw [hd, hw, hh]

/-- The pointer of a clone is the first free block, and the heap after
`region_clone_ref` is the old heap with one more block. -/
theorem region_clone_ref_heap (o : RegionRef) (garbage : List BYTE) (hp : Heap)
    (ho : o.data < hp.blocks.length) :
    (region_clone_ref o garbage hp).1 = ⟨o.w, o.h, hp.blocks.length⟩ ∧
      ∃ blk, (region_clone_ref o garbage hp).2 = ⟨hp.blocks ++ [blk]⟩ ∧
        blk = memcpy ((List.range (o.w * o.h * BPP).toNat).map
            (fun i => garbage.getD (i % garbage.length) 0))
          (hp.blocks.getD o.data []) (o.w * o.h * BPP) := by
  refine ⟨rfl, _, ?_, rfl⟩
  unfold region_clone_ref region_create_ref malloc
  simp only [Heap.mk.injEq]
  have h1 : (hp.blocks ++ [(List.range (o.w * o.h * BPP).toNat).map
      (fun i => garbage.getD (i % garbage.length) 0)]).getD hp.blocks.length []
      = (List.range (o.w * o.h * BPP).toNat).map
        (fun i => garbage.getD (i % garbage.length) 0) := by
    simp [List.getD_eq_getElem?_getD]
  rw [h1]
  apply List.ext_getElem?
  intro j
  rw [List.getElem?_set]
  by_cases hj : hp.blocks.length = j
  · subst hj
    simp [List.getElem?_append_left ho]
  · rw [if_neg hj]
    by_cases hlt : j < hp.blocks.length
    · rw [List.getElem?_append_left hlt, List.getElem?_append_left hlt]
    · rw [List.getElem?_append_right (by omega), List.getElem?_append_right (by omega)]
      have : j - hp.blocks.length ≠ 0 := by omega
      cases hk : j - hp.blocks.length with
      | zero => omega
      | succ k => simp

/-! ### The corners of a hollow line -/

namespace CFloat

/-- An integer-valued fraction plus one half, converted to `int`, when the
integer is not negative. -/
theorem IsInt.add_half_toInt {a : CFloat} {n : Int} (ha : a.IsInt n) (hn : 0 ≤ n) :
    (a + half).toInt = n := by
  obtain ⟨ha0, ha1⟩ := ha
  unfold CFloat.toInt
  rw [add_num, add_den, ha1]
  show Int.tdiv (n * (a.den : Int) * ((2 : Nat) : Int) + 1 * (a.den : Int))
    ((a.den * 2 : Nat) : Int) = n
  have hd : (0 : Int) < (a.den : Int) := by omega
  have hnd : 0 ≤ n * (a.den : Int) := Int.mul_nonneg hn (by omega)
  rw [Int.tdiv_eq_ediv (by push_cast; omega) (by push_cast; omega)]
  have e : n * (a.den : Int) * ((2 : Nat) : Int) + 1 * (a.den : Int)
      = (a.den : Int) + ((a.den * 2 : Nat) : Int) * n := by push_cast; ring
  rw [e, Int.add_mul_ediv_left _ _ (by push_cast; omega)]
  have z : (a.den : Int) / ((a.den * 2 : Nat) : Int) = 0 :=
    Int.ediv_eq_zero_of_lt (by omega) (by push_cast; omega)
  omega

/-- The product of one half and an integer-valued fraction of value zero. -/
theorem IsInt.half_mul_zero {b : CFloat} (hb : b.IsInt 0) : (half * b).IsInt 0 := by
  obtain ⟨hb0, hb1⟩ := hb
  refine ⟨?_, ?_⟩
  · rw [mul_den]
    exact Nat.mul_pos (by decide) hb0
  · rw [mul_num, hb1]
    simp

end CFloat

/-! ### region_draw_bitmap_char -/

/-- `PaintedFrom` depends only on which pixels of the region are selected. -/
theorem PaintedFrom_congr (self : Region) (r g b : BYTE) (P Q : Int → Int → Prop)
    [∀ x y, Decidable (P x y)] [∀ x y, Decidable (Q x y)] (s : Region)
    (hiff : ∀ x y : Int, 0 ≤ x → x < self.w → 0 ≤ y → y < self.h → (Q x y ↔ P x y))
    (h : PaintedFrom self r g b P s) : PaintedFrom self r g b Q s := by
  obtain ⟨hw, hh, hl, hp⟩ := h
  refine ⟨hw, hh, hl, ?_⟩
  intro x y h1 h2 h3 h4
  rw [hp x y h1 h2 h3 h4]
  by_cases c : P x y
  · rw [if_pos c, if_pos ((hiff x y h1 h2 h3 h4).mpr c)]
  · rw [if_neg c, if_neg (fun hq => c ((hiff x y h1 h2 h3 h4).mp hq))]

/-- Setting one more pixel to the colour extends the painted set by that
pixel. -/
theorem PaintedFrom_set_pixel (self : Region) (hs : self.WellSized) (r g b : BYTE)
    (P Q : Int → Int → Prop) [∀ x y, Decidable (P x y)] [∀ x y, Decidable (Q x y)]
    (s : Region) (a c : Int)
    (hiff : ∀ x y : Int, 0 ≤ x → x < self.w → 0 ≤ y → y < self.h →
      (Q x y ↔ (P x y ∨ (x = a ∧ y = c))))
    (h : PaintedFrom self r g b P s) :
    PaintedFrom self r g b Q (region_set_pixel s a c r g b) := by
  obtain ⟨hw, hh, hl, hp⟩ := h
  obtain ⟨sw, sh, sl⟩ := region_set_pixel_size s a c r g b
  refine ⟨by rw [sw, hw], by rw [sh, hh], by rw [sl, hl], ?_⟩
  intro x y h1 h2 h3 h4
  rw [region_set_pixel_pixel s (wellSized_of_size hs hw hh hl) a c r g b x y h1
    (by rw [hw]; exact h2) h3 (by rw [hh]; exact h4), hp x y h1 h2 h3 h4]
  by_cases c1 : x = a ∧ y = c
  · rw [if_pos c1, if_pos ((hiff x y h1 h2 h3 h4).mpr (Or.inr c1))]
  · rw [if_neg c1]
    by_cases c2 : P x y
    · rw [if_pos c2, if_pos ((hiff x y h1 h2 h3 h4).mpr (Or.inl c2))]
    · rw [if_neg c2, if_neg]
      intro hq
      rcases (hiff x y h1 h2 h3 h4).mp hq with h | h
      · exact c2 h
      · exact c1 h

/-- For a width that is not negative the row stride of the code is
`ceil (W / 8)`. -/
theorem glyph_stride_eq (bf : BitmapFont) (hW : 0 ≤ bf.width) :
    glyph_stride bf = (bf.width + 7) / 8 := by
  unfold glyph_stride
  rw [Int.tdiv_eq_ediv hW (by omega), Int.tmod_eq_emod hW (by omega)]
  by_cases h : bf.width % 8 ≠ 0
  · rw [if_pos h]
    omega
  · rw [if_neg h]
    omega

/-- One iteration of the column loop of `region_draw_bitmap_char`, at column
`q` of row `p`, with `ptr` at the byte of that column. -/
theorem glyph_column_step (self : Region) (hs : self.WellSized) (bf : BitmapFont)
    (c x y r g b p q : Int) (hW : 0 ≤ bf.width) (hq0 : 0 ≤ q) (st : Region × Int)
    (hptr : st.2 = (c - 32) * bf.height * glyph_stride bf + p * glyph_stride bf + q / 8)
    (P : Int → Int → Prop) [∀ x y, Decidable (P x y)]
    (hP : PaintedFrom self (toBYTE r) (toBYTE g) (toBYTE b) P st.1) :
    (bitmap_char_column bf x y r g b p q st).2
        = (c - 32) * bf.height * glyph_stride bf + p * glyph_stride bf + (q + 1) / 8 ∧
      PaintedFrom self (toBYTE r) (toBYTE g) (toBYTE b)
        (fun x' y' => P x' y' ∨ (x' = x + q ∧ y' = y + p ∧ glyph_bit bf c p q = true))
        (bitmap_char_column bf x y r g b p q st).1 := by
  have hmod : Int.tmod q 8 = q % 8 := Int.tmod_eq_emod hq0 (by omega)
  have hbit : glyph_bit bf c p q
      = decide ((peek bf.table st.2).val &&& (0x80 >>> (Int.tmod q 8).toNat) ≠ 0) := by
    unfold glyph_bit
    simp only []
    rw [← glyph_stride_eq bf hW, ← hptr, hmod]
  unfold bitmap_char_column
  simp only []
  constructor
  · rw [hmod]
    by_cases h7 : q % 8 = 7
    · rw [if_pos h7]
      omega
    · rw [if_neg h7]
      omega
  · by_cases hset : (peek bf.table st.2).val &&& (0x80 >>> (Int.tmod q 8).toNat) ≠ 0
    · rw [if_pos hset]
      have hb : glyph_bit bf c p q = true := by
        rw [hbit]
        exact decide_eq_true hset
      refine PaintedFrom_set_pixel self hs _ _ _ P _ st.1 (x + q) (y + p) ?_ hP
      intro x' y' _ _ _ _
      constructor
      · rintro (h | ⟨h1, h2, _⟩)
        · exact Or.inl h
        · exact Or.inr ⟨h1, h2⟩
      · rintro (h | ⟨h1, h2⟩)
        · exact Or.inl h
        · exact Or.inr ⟨h1, h2, hb⟩
    · rw [if_neg hset]
      have hb : ¬ (glyph_bit bf c p q = true) := by
        rw [hbit]
        intro hd
        exact hset (of_decide_eq_true hd)
      refine PaintedFrom_congr self _ _ _ P _ st.1 ?_ hP
      intro x' y' _ _ _ _
      constructor
      · rintro (h | ⟨_, _, h3⟩)
        · exact h
        · exact absurd h3 hb
      · intro h
        exact Or.inl h

/-- One iteration of the row loop of `region_draw_bitmap_char`. -/
theorem glyph_row (self : Region) (hs : self.WellSized) (bf : BitmapFont)
    (c x y r g b p : Int) (hp0 : 0 ≤ p) (st : Region × Int)
    (hptr : 0 ≤ bf.width →
      st.2 = (c - 32) * bf.height * glyph_stride bf + p * glyph_stride bf)
    (hP : PaintedFrom self (toBYTE r) (toBYTE g) (toBYTE b)
      (fun x' y' => x ≤ x' ∧ x' < x + bf.width ∧ y ≤ y' ∧ y' < y + p ∧
        glyph_bit bf c (y' - y) (x' - x) = true) st.1) :
    (0 ≤ bf.width → (bitmap_char_page bf x y r g b p st).2
        = (c - 32) * bf.height * glyph_stride bf + (p + 1) * glyph_stride bf) ∧
      PaintedFrom self (toBYTE r) (toBYTE g) (toBYTE b)
        (fun x' y' => x ≤ x' ∧ x' < x + bf.width ∧ y ≤ y' ∧ y' < y + (p + 1) ∧
          glyph_bit bf c (y' - y) (x' - x) = true)
        (bitmap_char_page bf x y r g b p st).1 := by
  by_cases hW : 0 ≤ bf.width
  · have key := forLoop_invariant 0 bf.width (bitmap_char_column bf x y r g b p)
      (fun q st => st.2 = (c - 32) * bf.height * glyph_stride bf + p * glyph_stride bf + q / 8 ∧
        PaintedFrom self (toBYTE r) (toBYTE g) (toBYTE b)
          (fun x' y' => (x ≤ x' ∧ x' < x + bf.width ∧ y ≤ y' ∧ y' < y + p ∧
              glyph_bit bf c (y' - y) (x' - x) = true) ∨
            (y' = y + p ∧ x ≤ x' ∧ x' < x + q ∧ glyph_bit bf c p (x' - x) = true)) st.1)
      hW
      (by
        intro q s hq0 _ hI
        obtain ⟨h1, h2⟩ := glyph_column_step self hs bf c x y r g b p q hW hq0 s hI.1 _ hI.2
        refine ⟨h1, PaintedFrom_congr self _ _ _ _ _ _ ?_ h2⟩
        intro x' y' _ _ _ _
        constructor
        · rintro (h | ⟨e1, e2, e3, e4⟩)
          · exact Or.inl (Or.inl h)
          · by_cases hx' : x' = x + q
            · have e : x' - x = q := by omega
              rw [e] at e4
              exact Or.inr ⟨hx', e1, e4⟩
            · exact Or.inl (Or.inr ⟨e1, e2, by omega, e4⟩)
        · rintro ((h | ⟨e1, e2, e3, e4⟩) | ⟨e1, e2, e3⟩)
          · exact Or.inl h
          · exact Or.inr ⟨e1, e2, by omega, e4⟩
          · have e : x' - x = q := by omega
            refine Or.inr ⟨e2, by omega, by omega, ?_⟩
            rw [e]
            exact e3)
      st
      (by
        refine ⟨by rw [hptr hW]; omega, PaintedFrom_congr self _ _ _ _ _ _ ?_ hP⟩
        intro x' y' _ _ _ _
        constructor
        · rintro (h | ⟨_, e2, e3, _⟩)
          · exact h
          · omega
        · intro h
          exact Or.inl h)
    obtain ⟨k1, k2⟩ := key
    have hstride : glyph_stride bf
        = bf.width / 8 + (if bf.width % 8 ≠ 0 then 1 else 0) := by
      unfold glyph_stride
      rw [Int.tdiv_eq_ediv hW (by omega), Int.tmod_eq_emod hW (by omega)]
    have hmod : Int.tmod bf.width 8 = bf.width % 8 := Int.tmod_eq_emod hW (by omega)
    have hmul : (p + 1) * glyph_stride bf = p * glyph_stride bf + glyph_stride bf := by ring
    have hpaint : PaintedFrom self (toBYTE r) (toBYTE g) (toBYTE b)
        (fun x' y' => x ≤ x' ∧ x' < x + bf.width ∧ y ≤ y' ∧ y' < y + (p + 1) ∧
          glyph_bit bf c (y' - y) (x' - x) = true)
        (forLoop 0 bf.width (bitmap_char_column bf x y r g b p) st).1 := by
      refine PaintedFrom_congr self _ _ _ _ _ _ ?_ k2
      intro x' y' _ _ _ _
      constructor
      · rintro ⟨e1, e2, e3, e4, e5⟩
        by_cases hy' : y' = y + p
        · have e : y' - y = p := by omega
          rw [e] at e5
          exact Or.inr ⟨hy', e1, e2, e5⟩
        · exact Or.inl ⟨e1, e2, e3, by omega, e5⟩
      · rintro (⟨e1, e2, e3, e4, e5⟩ | ⟨e1, e2, e3, e4⟩)
        · exact ⟨e1, e2, e3, by omega, e5⟩
        · have e : y' - y = p := by omega
          refine ⟨e2, e3, by omega, by omega, ?_⟩
          rw [e]
          exact e4
    unfold bitmap_char_page
    simp only []
    rw [hmod]
    by_cases h8 : bf.width % 8 ≠ 0
    · rw [if_pos h8]
      refine ⟨fun _ => ?_, hpaint⟩
      show (forLoop 0 bf.width (bitmap_char_column bf x y r g b p) st).2 + 1 = _
      rw [k1, hmul, hstride, if_pos h8]
      omega
    · rw [if_neg h8]
      refine ⟨fun _ => ?_, hpaint⟩
      rw [k1, hmul, hstride, if_neg h8]
      omega
  · have hempty : forLoop 0 bf.width (bitmap_char_column bf x y r g b p) st = st :=
      forLoop_empty 0 bf.width _ st (by omega)
    have hreg : (bitmap_char_page bf x y r g b p st).1 = st.1 := by
      unfold bitmap_char_page
      simp only []
      rw [hempty]
      split <;> rfl
    refine ⟨fun h => absurd h hW, ?_⟩
    rw [hreg]
    refine PaintedFrom_congr self _ _ _ _ _ _ ?_ hP
    intro x' y' _ _ _ _
    constructor
    · rintro ⟨e1, e2, _⟩
      omega
    · rintro ⟨e1, e2, _⟩
      omega

/-! ### The head of region_draw_line_one_pixel -/

/-- The numerator of `absolute x` is the magnitude of the numerator. -/
theorem absolute_num (a : CFloat) : (absolute a).num = (a.num.natAbs : Int) := by
  unfold absolute
  by_cases h : a.lt (CFloat.ofInt 0) = true
  · rw [if_pos h]
    have h2 : a.num * ((1 : Nat) : Int) < 0 * (a.den : Int) := of_decide_eq_true h
    rw [CFloat.neg_num]
    omega
  · rw [if_neg h]
    have h2 : ¬ (a.num * ((1 : Nat) : Int) < 0 * (a.den : Int)) := by
      intro hc
      exact h (decide_eq_true hc)
    omega

/-- The denominator of `absolute x`. -/
theorem absolute_den (a : CFloat) : (absolute a).den = a.den := by
  unfold absolute
  split_ifs
  · rfl
  · rfl

/-- The conversion of an `int` to `float` commutes with negation. -/
theorem ofIntSingle_neg (n : Int) : CFloat.ofIntSingle (-n) = -(CFloat.ofIntSingle n) :=
  CFloat.single_neg (CFloat.ofInt n)

/-- The conversion of an `int` to `float` is a well-formed fraction. -/
theorem ofIntSingle_den_pos (n : Int) : 0 < (CFloat.ofIntSingle n).den :=
  CFloat.single_den_pos (CFloat.ofInt n) Nat.one_pos

/-- The conversion of an `int` to `float` is zero only for zero. -/
theorem ofIntSingle_num_eq_zero (n : Int) : (CFloat.ofIntSingle n).num = 0 ↔ n = 0 :=
  CFloat.single_num_eq_zero (CFloat.ofInt n) Nat.one_pos

/-- The steepness test `absolute (m) < absolute (n)` on two `int`s, in terms
of the two fractions. -/
theorem steep_iff (m n : Int) :
    (absolute (CFloat.ofIntSingle m)).lt (absolute (CFloat.ofIntSingle n)) = true ↔
      ((CFloat.ofIntSingle m).num.natAbs : Int) * ((CFloat.ofIntSingle n).den : Int)
        < ((CFloat.ofIntSingle n).num.natAbs : Int) * ((CFloat.ofIntSingle m).den : Int) := by
  unfold CFloat.lt
  rw [absolute_num, absolute_num, absolute_den, absolute_den]
  exact decide_eq_true_iff

/-- The steepness test does not depend on the signs of the two
differences. -/
theorem steep_neg (m n : Int) :
    (absolute (CFloat.ofIntSingle (-m))).lt (absolute (CFloat.ofIntSingle (-n)))
      = (absolute (CFloat.ofIntSingle m)).lt (absolute (CFloat.ofIntSingle n)) := by
  have h : ∀ a b : Bool, (a = true ↔ b = true) → a = b := by decide
  apply h
  rw [steep_iff, steep_iff, ofIntSingle_neg, ofIntSingle_neg]
  simp only [CFloat.neg_num, CFloat.neg_den, Int.natAbs_neg]

/-- Nothing is steeper than a difference of zero. -/
theorem steep_zero_right (m : Int) :
    (absolute (CFloat.ofIntSingle m)).lt (absolute (CFloat.ofIntSingle 0)) = false := by
  have h : ¬ ((absolute (CFloat.ofIntSingle m)).lt (absolute (CFloat.ofIntSingle 0)) = true) := by
    rw [steep_iff]
    have e : (CFloat.ofIntSingle 0).num = 0 := rfl
    rw [e]
    simp only [Int.natAbs_zero, Nat.cast_zero, Int.zero_mul]
    have := Int.mul_nonneg (Int.ofNat_nonneg (CFloat.ofIntSingle m).num.natAbs)
      (Int.ofNat_nonneg (CFloat.ofIntSingle 0).den)
    omega
  simpa using h

/-- A difference that is not steeper than zero is zero. -/
theorem steep_zero_left (n : Int)
    (h : (absolute (CFloat.ofIntSingle 0)).lt (absolute (CFloat.ofIntSingle n)) = false) :
    n = 0 := by
  have h2 : ¬ ((absolute (CFloat.ofIntSingle 0)).lt (absolute (CFloat.ofIntSingle n)) = true) := by
    rw [h]
    decide
  rw [steep_iff] at h2
  have e : (CFloat.ofIntSingle 0).num = 0 := rfl
  have e2 : (CFloat.ofIntSingle 0).den = 1 := rfl
  rw [e, e2] at h2
  simp only [Int.natAbs_zero, Nat.cast_zero, Int.zero_mul, Nat.cast_one, Int.mul_one] at h2
  have h3 : (CFloat.ofIntSingle n).num = 0 := by omega
  exact (ofIntSingle_num_eq_zero n).mp h3

/-- The end points that `region_draw_line_one_pixel` works with: they are
ordered from left to right, the line between them is not steep, and they
are the given end points, possibly transposed and possibly exchanged. -/
theorem line_endpoints_spec (x0 y0 x1 y1 : Int) (s : Bool) (a0 b0 a1 b1 : Int)
    (he : line_endpoints x0 y0 x1 y1 = (s, a0, b0, a1, b1)) :
    a0 ≤ a1 ∧
      (absolute (CFloat.ofIntSingle (a1 - a0))).lt (absolute (CFloat.ofIntSingle (b1 - b0)))
        = false ∧
      ((s = false ∧ ((a0, b0, a1, b1) = (x0, y0, x1, y1) ∨ (a0, b0, a1, b1) = (x1, y1, x0, y0))) ∨
        (s = true ∧ ((a0, b0, a1, b1) = (y0, x0, y1, x1) ∨ (a0, b0, a1, b1) = (y1, x1, y0, x0)))) := by
  have hneg := steep_neg (x1 - x0) (y1 - y0)
  have e1 : -(x1 - x0) = x0 - x1 := by ring
  have e2 : -(y1 - y0) = y0 - y1 := by ring
  rw [e1, e2] at hneg
  unfold line_endpoints at he
  simp only [] at he
  by_cases hS : (absolute (CFloat.ofIntSingle (x1 - x0))).lt
      (absolute (CFloat.ofIntSingle (y1 - y0))) = true
  · -- steep: the axes are exchanged
    have hasym : (absolute (CFloat.ofIntSingle (y1 - y0))).lt
        (absolute (CFloat.ofIntSingle (x1 - x0))) = false := by
      have h : ¬ ((absolute (CFloat.ofIntSingle (y1 - y0))).lt
          (absolute (CFloat.ofIntSingle (x1 - x0))) = true) := by
        rw [steep_iff] at hS ⊢
        omega
      simpa using h
    have hasym2 := steep_neg (y1 - y0) (x1 - x0)
    rw [e1, e2, hasym] at hasym2
    rw [hS] at he
    simp only [if_true] at he
    by_cases hgt : y0 > y1
    · rw [if_pos hgt] at he
      simp only [Prod.mk.injEq] at he
      obtain ⟨rfl, rfl, rfl, rfl, rfl⟩ := he
      exact ⟨by omega, hasym2, Or.inr ⟨rfl, Or.inr rfl⟩⟩
    · rw [if_neg hgt] at he
      simp only [Prod.mk.injEq] at he
      obtain ⟨rfl, rfl, rfl, rfl, rfl⟩ := he
      exact ⟨by omega, hasym, Or.inr ⟨rfl, Or.inl rfl⟩⟩
  · have hS2 : (absolute (CFloat.ofIntSingle (x1 - x0))).lt
        (absolute (CFloat.ofIntSingle (y1 - y0))) = false := by simpa using hS
    rw [hS2] at he hneg
    simp only [Bool.false_eq_true, if_false] at he
    by_cases hgt : x0 > x1
    · rw [if_pos hgt] at he
      simp only [Prod.mk.injEq] at he
      obtain ⟨rfl, rfl, rfl, rfl, rfl⟩ := he
      exact ⟨by omega, hneg, Or.inl ⟨rfl, Or.inr rfl⟩⟩
    · rw [if_neg hgt] at he
      simp only [Prod.mk.injEq] at he
      obtain ⟨rfl, rfl, rfl, rfl, rfl⟩ := he
      exact ⟨by omega, hS2, Or.inl ⟨rfl, Or.inl rfl⟩⟩

/-- The head of `region_draw_line_one_pixel` gives the same end points for
the two orders of the given end points. -/
theorem line_endpoints_symm (x0 y0 x1 y1 : Int) :
    line_endpoints x0 y0 x1 y1 = line_endpoints x1 y1 x0 y0 := by
  have hneg := steep_neg (x1 - x0) (y1 - y0)
  have e1 : -(x1 - x0) = x0 - x1 := by ring
  have e2 : -(y1 - y0) = y0 - y1 := by ring
  rw [e1, e2] at hneg
  unfold line_endpoints
  simp only []
  rw [hneg]
  by_cases hS : (absolute (CFloat.ofIntSingle (x1 - x0))).lt
      (absolute (CFloat.ofIntSingle (y1 - y0))) = true
  · rw [hS]
    simp only [if_true]
    have hne : y0 ≠ y1 := by
      intro hc
      have := steep_zero_right (x1 - x0)
      rw [hc, Int.sub_self, this] at hS
      exact absurd hS (by decide)
    by_cases hgt : y0 > y1
    · rw [if_pos hgt, if_neg (by omega)]
    · rw [if_neg hgt, if_pos (by omega)]
  · have hS2 : (absolute (CFloat.ofIntSingle (x1 - x0))).lt
        (absolute (CFloat.ofIntSingle (y1 - y0))) = false := by simpa using hS
    rw [hS2]
    simp only [Bool.false_eq_true, if_false]
    by_cases hgt : x0 > x1
    · rw [if_pos hgt, if_neg (by omega)]
    · rw [if_neg hgt]
      by_cases hlt : x0 < x1
      · rw [if_pos (by omega)]
      · have hx : x0 = x1 := by omega
        rw [if_neg (by omega)]
        rw [hx, Int.sub_self] at hS2
        have hy := steep_zero_left (y1 - y0) hS2
        have hy2 : y0 = y1 := by omega
        rw [hx, hy2]

/-! ### Loops that keep a property, and the sizes of a region -/

/-- A property that every iteration keeps holds after the loop. -/
theorem forLoop_preserves {σ : Type} (lo hi : Int) (body : Int → σ → σ) (P : σ → Prop)
    (hstep : ∀ i s, lo ≤ i → i < hi → P s → P (body i s)) (s : σ) (h0 : P s) :
    P (forLoop lo hi body s) := by
  by_cases hle : lo ≤ hi
  · exact forLoop_invariant lo hi body (fun _ s => P s) hle hstep s h0
  · rw [forLoop_empty lo hi body s (by omega)]
    exact h0

/-- Two loops over the same range whose bodies keep a relation between their
states end in related states. -/
theorem forLoop_sim {σ τ : Type} (lo hi : Int) (f : Int → σ → σ) (g : Int → τ → τ)
    (R : σ → τ → Prop) (hstep : ∀ i s t, R s t → R (f i s) (g i t)) (s : σ) (t : τ)
    (h0 : R s t) : R (forLoop lo hi f s) (forLoop lo hi g t) := by
  unfold forLoop
  generalize (hi - lo).toNat = n
  induction n generalizing lo s t with
  | zero => exact h0
  | succ n ih => exact ih (lo + 1) (f lo s) (g lo t) (hstep lo s t h0)

/-- Every region has its own sizes. -/
theorem Region.SameSize.refl (self : Region) : self.SameSize self := ⟨rfl, rfl, rfl⟩

/-- Having the same sizes is transitive. -/
theorem Region.SameSize.trans {a b c : Region} (h1 : a.SameSize b) (h2 : b.SameSize c) :
    a.SameSize c :=
  ⟨h1.1.trans h2.1, h1.2.1.trans h2.2.1, h1.2.2.trans h2.2.2⟩

/-- `region_set_pixel` keeps the sizes. -/
theorem region_set_pixel_sameSize (self : Region) (x y : Int) (r g b : BYTE) :
    (region_set_pixel self x y r g b).SameSize self :=
  region_set_pixel_size self x y r g b

/-- `region_set_pixel_t` keeps the sizes. -/
theorem region_set_pixel_t_sameSize (self : Region) (x y : Int) (r g b : BYTE) (t : CFloat) :
    (region_set_pixel_t self x y r g b t).SameSize self := by
  rw [region_set_pixel_t_eq]
  split_ifs
  · exact region_set_pixel_sameSize _ _ _ _ _ _
  · exact Region.SameSize.refl self

/-- `region_fill_rect` keeps the sizes. -/
theorem region_fill_rect_sameSize (self : Region) (x1 y1 x2 y2 : Int) (r g b : BYTE) :
    (region_fill_rect self x1 y1 x2 y2 r g b).SameSize self := by
  unfold region_fill_rect
  simp only []
  refine forLoop_preserves _ _ _ (fun s => s.SameSize self) ?_ self (Region.SameSize.refl self)
  intro y s _ _ hs
  refine forLoop_preserves _ _ _ (fun s => s.SameSize self) ?_ s hs
  intro x s _ _ hs
  exact (region_set_pixel_sameSize s x y r g b).trans hs

/-- `region_draw_bitmap_char` keeps the sizes. -/
theorem region_draw_bitmap_char_sameSize (self : Region) (bf : BitmapFont) (c x y r g b : Int) :
    (region_draw_bitmap_char self bf c x y r g b).SameSize self := by
  unfold region_draw_bitmap_char
  by_cases hg : x < self.w ∧ y < self.h
  · rw [if_pos hg]
    simp only []
    refine forLoop_preserves _ _ _ (fun (st : Region × Int) => st.1.SameSize self) ?_ _
      (Region.SameSize.refl self)
    intro page st _ _ hst
    unfold bitmap_char_page
    have hcol : (forLoop 0 bf.width (bitmap_char_column bf x y r g b page) st).1.SameSize
        self := by
      refine forLoop_preserves _ _ _ (fun (st : Region × Int) => st.1.SameSize self) ?_ st hst
      intro column st _ _ hst
      unfold bitmap_char_column
      simp only []
      split_ifs
      · exact (region_set_pixel_sameSize _ _ _ _ _ _).trans hst
      · exact hst
    simp only []
    split_ifs
    · exact hcol
    · exact hcol
  · rw [if_neg hg]
    exact Region.SameSize.refl self

/-- `region_draw_bitmap_text` keeps the sizes. -/
theorem region_draw_bitmap_text_sameSize (self : Region) (bf : BitmapFont) (text : List Int)
    (x y r g b : Int) : (region_draw_bitmap_text self bf text x y r g b).SameSize self := by
  unfold region_draw_bitmap_text
  simp only []
  refine forLoop_preserves _ _ _ (fun s => s.SameSize self) ?_ self (Region.SameSize.refl self)
  intro i s _ _ hs
  exact (region_draw_bitmap_char_sameSize s bf _ _ y r g b).trans hs

/-- A pair of anti-aliased stores keeps the sizes. -/
theorem line_plot_pair_sameSize (s : Region) (steep : Bool) (x y : Int) (r g b : BYTE)
    (t1 t2 : CFloat) : (line_plot_pair s steep x y r g b t1 t2).SameSize s :=
  line_plot_pair_size s steep x y r g b t1 t2

/-- `region_draw_line_one_pixel` keeps the sizes. -/
theorem region_draw_line_one_pixel_sameSize (self : Region) (x0 y0 x1 y1 : Int)
    (r g b : BYTE) : (region_draw_line_one_pixel self x0 y0 x1 y1 r g b).SameSize self := by
  unfold region_draw_line_one_pixel draw_line_ordered
  simp only []
  refine forLoop_preserves _ _ _ (fun (st : Region × CFloat) => st.1.SameSize self) ?_ _ ?_
  · intro x st _ _ hst
    unfold line_step
    exact (line_plot_pair_sameSize _ _ _ _ _ _ _ _ _).trans hst
  · unfold line_end
    exact (line_plot_pair_sameSize _ _ _ _ _ _ _ _ _).trans
      (line_plot_pair_sameSize _ _ _ _ _ _ _ _ _)

/-- `region_draw_hollow_line` keeps the sizes. -/
theorem region_draw_hollow_line_sameSize (self : Region) (x1 y1 x2 y2 t : Int)
    (r g b : BYTE) (cosq sinq : CFloat) :
    (region_draw_hollow_line self x1 y1 x2 y2 t r g b cosq sinq).SameSize self := by
  unfold region_draw_hollow_line
  split_ifs
  · exact region_draw_line_one_pixel_sameSize _ _ _ _ _ _ _ _
  · exact (region_draw_line_one_pixel_sameSize _ _ _ _ _ _ _ _).trans
      ((region_draw_line_one_pixel_sameSize _ _ _ _ _ _ _ _).trans
        ((region_draw_line_one_pixel_sameSize _ _ _ _ _ _ _ _).trans
          (region_draw_line_one_pixel_sameSize _ _ _ _ _ _ _ _)))

/-! ## The claims -/

set_option maxRecDepth 100000 in
/-- C1 fails as stated: on an 11 x 2 region with every byte 7, after
`region_draw_line_one_pixel` from `(0, 0)` to `(10, 0)` with colour
`(200, 100, 50)` pixel `(5, 0)` still holds `(7, 7, 7)` and pixel `(5, 1)`
holds `(0, 0, 0)`: row 0 is not painted and row 1 is not left unchanged. -/
theorem draw_line_row_zero_counterexample :
    (region_draw_line_one_pixel (Region.uniform 11 2 7) 0 0 10 0 200 100 50).pixel 5 0
        = (7, 7, 7) ∧
      (region_draw_line_one_pixel (Region.uniform 11 2 7) 0 0 10 0 200 100 50).pixel 5 1
        = (0, 0, 0) ∧
      ¬ ((∀ x : Int, 0 ≤ x → x ≤ 10 →
            (region_draw_line_one_pixel (Region.uniform 11 2 7) 0 0 10 0 200 100 50).pixel x 0
              = (200, 100, 50)) ∧
          (∀ x y : Int, 0 ≤ x → x < 11 → 0 ≤ y → y < 2 → y ≠ 0 →
            (region_draw_line_one_pixel (Region.uniform 11 2 7) 0 0 10 0 200 100 50).pixel x y
              = (Region.uniform 11 2 7).pixel x y)) := by
  have h0 : (region_draw_line_one_pixel (Region.uniform 11 2 7) 0 0 10 0 200 100 50).pixel 5 0
      = (7, 7, 7) := by decide
  have h1 : (region_draw_line_one_pixel (Region.uniform 11 2 7) 0 0 10 0 200 100 50).pixel 5 1
      = (0, 0, 0) := by decide
  refine ⟨h0, h1, ?_⟩
  intro hc
  have h2 := hc.2 5 1 (by decide) (by decide) (by decide) (by decide) (by decide)
  rw [h1] at h2
  exact absurd h2 (by decide)

/-- C1, as amended: on a region at least 11 pixels wide and 2 high whose
buffer holds `w * h * 3` bytes,
`region_draw_line_one_pixel` from `(0, 0)` to `(10, 0)` with colour
`(r, g, b)` sets every pixel `(x, 1)`, `1 <= x <= 10`, to `(0, 0, 0)`, the
zero-intensity partner of each anti-aliased pair being stored and not
blended, and leaves every pixel in the rows `y >= 2` unchanged. -/
theorem draw_line_row_zero_partner_row (self : Region) (hs : self.WellSized)
    (hw : 11 ≤ self.w) (hh : 2 ≤ self.h) (r g b : BYTE) :
    (∀ x : Int, 1 ≤ x → x ≤ 10 →
        (region_draw_line_one_pixel self 0 0 10 0 r g b).pixel x 1 = (0, 0, 0)) ∧
      (∀ x y : Int, 0 ≤ x → x < self.w → 2 ≤ y → y < self.h →
        (region_draw_line_one_pixel self 0 0 10 0 r g b).pixel x y = self.pixel x y) := by
  obtain ⟨_, _, _, hp⟩ := draw_line_horizontal self hs 0 10 0 (by omega) (by omega)
    (by omega) (by omega) (by omega) r g b
  constructor
  · intro x h1 h2
    rw [hp x 1 (by omega) (by omega) (by omega) (by omega), if_pos (by omega)]
  · intro x y h1 h2 h3 h4
    rw [hp x y h1 h2 (by omega) h4, if_neg (by omega), if_neg (by omega)]

/-- Witness of the amended C1 on an 11 x 2 region. -/
theorem draw_line_row_zero_partner_row_witness :
    (Region.uniform 11 2 7).WellSized ∧ (11 : Int) ≤ (Region.uniform 11 2 7).w ∧
      (2 : Int) ≤ (Region.uniform 11 2 7).h ∧
      ((∀ x : Int, 1 ≤ x → x ≤ 10 →
          (region_draw_line_one_pixel (Region.uniform 11 2 7) 0 0 10 0 200 100 50).pixel x 1
            = (0, 0, 0)) ∧
        (∀ x y : Int, 0 ≤ x → x < (Region.uniform 11 2 7).w → 2 ≤ y →
          y < (Region.uniform 11 2 7).h →
          (region_draw_line_one_pixel (Region.uniform 11 2 7) 0 0 10 0 200 100 50).pixel x y
            = (Region.uniform 11 2 7).pixel x y)) :=
  ⟨by decide, by decide, by decide,
    draw_line_row_zero_partner_row (Region.uniform 11 2 7) (by decide) (by decide)
      (by decide) 200 100 50⟩

/-- C2: on a mapped 1 x 1 device whose pixel holds `(B, G, R, pad) =
(10, 20, 30, 40)`, capturing a 1 x 1 region at origin `(0, 0)` yields the
bytes `(0, 0, 0)`, and blitting it back at `(0, 0)` leaves the device pixel
at `(0, 0, 0, 40)`: the B, G and R bytes are not the ones before the
capture. -/
theorem capture_then_blit_at_origin :
    let fb : FrameBuffer :=
      { fd := 3, w := 1, h := 1, fb_data_size := 4,
        fb_data := some [10, 20, 30, 40], fbdev := "/dev/fb0" }
    let captured := region_from_fb (Region.uniform 1 1 7) fb 0 0
    captured.data = [0, 0, 0] ∧
      (region_to_fb captured fb 0 0).fb_data = some [0, 0, 0, 40] ∧
      fb.bgr 0 0 = (10, 20, 30) ∧
      (region_to_fb captured fb 0 0).bgr 0 0 = (0, 0, 0) := by
  decide

/-- C3: on a mapped 2 x 2 device, `framebuffer_set_pixel (0, 0, 200, 100, 50)`
leaves the device as it was and the following `framebuffer_get_pixel (0, 0)`
returns `(0, 0, 0)`, not `(200, 100, 50)`. -/
theorem framebuffer_set_get_origin :
    let fb : FrameBuffer :=
      { fd := 3, w := 2, h := 2, fb_data_size := 16,
        fb_data := some (List.replicate 16 9), fbdev := "/dev/fb0" }
    framebuffer_set_pixel fb 0 0 200 100 50 = fb ∧
      framebuffer_get_pixel (framebuffer_set_pixel fb 0 0 200 100 50) 0 0 = (0, 0, 0) := by
  decide

/-- C4: with a configuration that `program_check_context` accepts and that
sets no transparency (so that `program_run` darkens the first capture to the
default 50 percent), the background-changed handler captures from the same
origin but passes 40 to `region_darken`. -/
theorem signal_handler_darkens_with_40 :
    let context : ProgramContext :=
      { props := ⟨[("log-level", "1"), ("width", "2"), ("height", "2"),
          ("x", "0"), ("y", "0")]⟩,
        nonswitch_argc := 0, nonswitch_argv := [], stdout_is_tty := false,
        console_width := 0, width := -1 }
    let dev : Device :=
      { fd := 3, xres := 2, yres := 2, bits_per_pixel := 32,
        mem := List.replicate 16 200 }
    (program_check_context context
        (framebuffer_init (framebuffer_create "/dev/fb0") (some dev)).2.1
        Globals.initial).1 = true ∧
      (program_run_setup context (some dev) [] Globals.initial).map (fun g => g.calls)
        = some [RegionCall.from_fb 0 0, RegionCall.darken 50] ∧
      ((program_run_setup context (some dev) [] Globals.initial).map
          program_signal_usr2).map (fun g => g.calls)
        = some [RegionCall.from_fb 0 0, RegionCall.darken 50,
            RegionCall.from_fb 0 0, RegionCall.darken 40] := by
  decide

/-- C5: on a 2 x 2 region with every byte 7, `region_fill_rect` with the
swapped corners `(1, 1, 0, 0)` changes nothing, while with the ordered corners
`(0, 0, 1, 1)` it paints pixel `(0, 0)`: the two results differ. -/
theorem fill_rect_swapped_corners :
    region_fill_rect (Region.uniform 2 2 7) 1 1 0 0 200 100 50 = Region.uniform 2 2 7 ∧
      (region_fill_rect (Region.uniform 2 2 7) 0 0 1 1 200 100 50).pixel 0 0
        = (200, 100, 50) ∧
      region_fill_rect (Region.uniform 2 2 7) 1 1 0 0 200 100 50
        ≠ region_fill_rect (Region.uniform 2 2 7) (min 1 0) (min 1 0) (max 1 0) (max 1 0)
            200 100 50 := by
  decide

/-- C6: on a region whose buffer holds `w * h * 3` bytes, for `x1 <= x2` and
`y1 <= y2`, `region_fill_rect` sets exactly the
pixels `(x, y)` of the region with `x1 <= x < x2` and `y1 <= y < y2` to
`(r, g, b)` and leaves every other pixel, and the size, unchanged; column
`x2` and row `y2` keep their colours. -/
theorem region_fill_rect_half_open (self : Region) (hs : self.WellSized)
    (x1 y1 x2 y2 : Int) (r g b : BYTE) (hx : x1 ≤ x2) (hy : y1 ≤ y2) :
    let out := region_fill_rect self x1 y1 x2 y2 r g b
    out.w = self.w ∧ out.h = self.h ∧ out.data.length = self.data.length ∧
      (∀ x y : Int, 0 ≤ x → x < self.w → 0 ≤ y → y < self.h →
        out.pixel x y =
          if x1 ≤ x ∧ x < x2 ∧ y1 ≤ y ∧ y < y2 then (r, g, b) else self.pixel x y) ∧
      (∀ y : Int, 0 ≤ x2 → x2 < self.w → 0 ≤ y → y < self.h →
        out.pixel x2 y = self.pixel x2 y) ∧
      (∀ x : Int, 0 ≤ x → x < self.w → 0 ≤ y2 → y2 < self.h →
        out.pixel x y2 = self.pixel x y2) := by
  intro out
  have ex : fill_rect_order x1 x2 = (x1, x2) := by
    unfold fill_rect_order
    rw [if_neg (by omega)]
  have ey : fill_rect_order y1 y2 = (y1, y2) := by
    unfold fill_rect_order
    rw [if_neg (by omega)]
  have hout : out = forLoop y1 y2 (fun y s =>
      forLoop x1 x2 (fun x s => region_set_pixel s x y r g b) s) self := by
    show region_fill_rect self x1 y1 x2 y2 r g b = _
    unfold region_fill_rect
    rw [ex, ey]
  have key := forLoop_invariant y1 y2 (fun y s =>
      forLoop x1 x2 (fun x s => region_set_pixel s x y r g b) s)
    (fun y s => PaintedFrom self r g b
      (fun x' y' => x1 ≤ x' ∧ x' < x2 ∧ y1 ≤ y' ∧ y' < y) s)
    hy
    (fun i s hlo _ hP => fill_rect_row self hs r g b x1 x2 y1 i hx hlo s hP)
    self
    (by
      refine ⟨rfl, rfl, rfl, ?_⟩
      intro x' y' _ _ _ _
      rw [if_neg (by omega)])
  rw [← hout] at key
  obtain ⟨hw, hh, hl, hp⟩ := key
  refine ⟨hw, hh, hl, hp, ?_, ?_⟩
  · intro y h1 h2 h3 h4
    rw [hp x2 y h1 h2 h3 h4, if_neg (by omega)]
  · intro x h1 h2 h3 h4
    rw [hp x y2 h1 h2 h3 h4, if_neg (by omega)]

/-- Witness of C6: the rectangle `(0, 0, 2, 2)` on a 3 x 3 region. -/
theorem region_fill_rect_half_open_witness :
    (Region.uniform 3 3 7).WellSized ∧ (0 : Int) ≤ 2 ∧
      (let out := region_fill_rect (Region.uniform 3 3 7) 0 0 2 2 200 100 50
       out.w = 3 ∧ out.h = 3 ∧ out.data.length = (Region.uniform 3 3 7).data.length ∧
        (∀ x y : Int, 0 ≤ x → x < 3 → 0 ≤ y → y < 3 →
          out.pixel x y =
            if 0 ≤ x ∧ x < 2 ∧ 0 ≤ y ∧ y < 2 then (200, 100, 50)
            else (Region.uniform 3 3 7).pixel x y) ∧
        (∀ y : Int, (0 : Int) ≤ 2 → (2 : Int) < 3 → 0 ≤ y → y < 3 →
          out.pixel 2 y = (Region.uniform 3 3 7).pixel 2 y) ∧
        (∀ x : Int, 0 ≤ x → x < 3 → (0 : Int) ≤ 2 → (2 : Int) < 3 →
          out.pixel x 2 = (Region.uniform 3 3 7).pixel x 2)) :=
  ⟨by decide, by decide,
    region_fill_rect_half_open (Region.uniform 3 3 7) (by decide) 0 0 2 2 200 100 50
      (by decide) (by decide)⟩

/-- C7: on a region whose buffer holds `w * h * 3` bytes, for `0 <= x < w` and
`0 <= y < h`, `region_set_pixel` stores `b`, `g`,
`r` at byte offsets `(y*w+x)*3 + 0, +1, +2` of the region's data and leaves
every other byte, and the size, unchanged. -/
theorem region_set_pixel_stores (self : Region) (x y : Int) (r g b : BYTE)
    (hsize : self.WellSized)
    (hx : 0 ≤ x) (hxw : x < self.w) (hy : 0 ≤ y) (hyh : y < self.h) :
    let i := ((y * self.w + x) * 3).toNat
    let out := region_set_pixel self x y r g b
    out.data[i]? = some b ∧ out.data[i + 1]? = some g ∧
      out.data[i + 2]? = some r ∧
      (∀ j : Nat, j ≠ i → j ≠ i + 1 → j ≠ i + 2 → out.data[j]? = self.data[j]?) ∧
      out.data.length = self.data.length ∧ out.w = self.w ∧ out.h = self.h := by
  intro i out
  obtain ⟨h0, h1⟩ := index24_in_range self.w self.h x y hx hxw hy hyh
  have hlen : (self.data.length : Int) = self.w * self.h * 3 := hsize
  have hout : out = { self with data :=
      ((self.data.set i b).set (i + 1) g).set (i + 2) r } := by
    show region_set_pixel self x y r g b = _
    unfold region_set_pixel
    rw [if_pos ⟨hx, hxw, hy, hyh⟩]
    simp only [poke, BPP]
    have e1 : ((y * self.w + x) * 3 + 1).toNat = i + 1 := by omega
    have e2 : ((y * self.w + x) * 3 + 2).toNat = i + 2 := by omega
    rw [e1, e2]
  have hi : i + 2 < self.data.length := by omega
  rw [hout]
  refine ⟨?_, ?_, ?_, ?_, ?_, rfl, rfl⟩
  · simp [List.getElem?_set]
    omega
  · simp [List.getElem?_set]
    omega
  · simp [List.getElem?_set]
    omega
  · intro j hj0 hj1 hj2
    simp [List.getElem?_set, Ne.symm hj0, Ne.symm hj1, Ne.symm hj2]
  · simp

/-- Witness of C7 at pixel `(1, 1)` of a 2 x 2 region. -/
theorem region_set_pixel_stores_witness :
    let out := region_set_pixel (Region.uniform 2 2 7) 1 1 200 100 50
    out.data[9]? = some 50 ∧ out.data[10]? = some 100 ∧ out.data[11]? = some 200 ∧
      (∀ j : Nat, j ≠ 9 → j ≠ 10 → j ≠ 11 →
        out.data[j]? = (Region.uniform 2 2 7).data[j]?) ∧
      out.data.length = (Region.uniform 2 2 7).data.length ∧
      out.w = 2 ∧ out.h = 2 :=
  region_set_pixel_stores (Region.uniform 2 2 7) 1 1 200 100 50
    (by decide) (by decide) (by decide) (by decide) (by decide)

/-- C8: for `(x, y)` outside `[0,w) x [0,h)`, `region_set_pixel` returns the
region unchanged: no byte is modified and there is no error result. -/
theorem region_set_pixel_outside (self : Region) (x y : Int) (r g b : BYTE)
    (hout : ¬ (0 ≤ x ∧ x < self.w ∧ 0 ≤ y ∧ y < self.h)) :
    region_set_pixel self x y r g b = self := by
  have hguard : ¬ (x ≥ 0 ∧ x < self.w ∧ y ≥ 0 ∧ y < self.h) := hout
  unfold region_set_pixel
  exact if_neg hguard

/-- Witness of C8 at a pixel just right of a 2 x 2 region. -/
theorem region_set_pixel_outside_witness :
    ¬ (0 ≤ (2 : Int) ∧ (2 : Int) < (Region.uniform 2 2 7).w ∧ 0 ≤ (0 : Int)
        ∧ (0 : Int) < (Region.uniform 2 2 7).h) ∧
      region_set_pixel (Region.uniform 2 2 7) 2 0 200 100 50 = Region.uniform 2 2 7 :=
  ⟨by decide, region_set_pixel_outside (Region.uniform 2 2 7) 2 0 200 100 50 (by decide)⟩

/-- C9: `region_set_pixel_t` stores nothing in column 0 and nothing in row 0,
whatever the intensity; at pixel `(0, 0)` of a 2 x 2 region, with intensity 1,
the region is returned as it was, so the pixel does not hold `(r, g, b)`. -/
theorem region_set_pixel_t_skips_first_row_and_column :
    (∀ (self : Region) (y : Int) (r g b : BYTE) (t : CFloat),
        region_set_pixel_t self 0 y r g b t = self) ∧
      (∀ (self : Region) (x : Int) (r g b : BYTE) (t : CFloat),
        region_set_pixel_t self x 0 r g b t = self) ∧
      region_set_pixel_t (Region.uniform 2 2 7) 0 0 200 100 50 (CFloat.ofInt 1)
        = Region.uniform 2 2 7 ∧
      (region_set_pixel_t (Region.uniform 2 2 7) 0 0 200 100 50 (CFloat.ofInt 1)).pixel 0 0
        = (7, 7, 7) := by
  refine ⟨?_, ?_, by decide, by decide⟩
  · intro self y r g b t
    simp [region_set_pixel_t]
  · intro self x r g b t
    simp [region_set_pixel_t]

/-- C10: `region_darken` is monotonic in its percentage: for every region,
all percentages `0 <= p <= q <= 100` and every byte position `j`, the byte of
the region darkened to `p` is at most the byte of the region darkened to `q`,
which is at most the original byte; the same holds of a single byte value. -/
theorem region_darken_monotonic (self : Region) (p q : Int) (h0 : 0 ≤ p)
    (hpq : p ≤ q) (h1 : q ≤ 100) :
    (∀ v : BYTE, darken_byte v p ≤ darken_byte v q ∧ darken_byte v q ≤ v) ∧
      ∀ j : Nat, peek (region_darken self p).data j ≤ peek (region_darken self q).data j ∧
        peek (region_darken self q).data j ≤ peek self.data j := by
  refine ⟨fun v => darken_byte_mono v p q h0 hpq h1, fun j => ?_⟩
  simp only [peek_eq, Int.toNat_ofNat, region_darken_getElem?]
  by_cases hj : j < (self.w * self.h * BPP).toNat
  · simp only [if_pos hj]
    cases hd : self.data[j]? with
    | none => simp
    | some v => simpa using darken_byte_mono v p q h0 hpq h1
  · simp only [if_neg hj]
    exact ⟨le_refl _, le_refl _⟩

/-- Witness of C10 on a 2 x 1 region, darkened to 30 and to 60 percent. -/
theorem region_darken_monotonic_witness :
    (0 : Int) ≤ 30 ∧ (30 : Int) ≤ 60 ∧ (60 : Int) ≤ 100 ∧
      ((∀ v : BYTE, darken_byte v 30 ≤ darken_byte v 60 ∧ darken_byte v 60 ≤ v) ∧
        ∀ j : Nat,
          peek (region_darken (Region.uniform 2 1 201) 30).data j
              ≤ peek (region_darken (Region.uniform 2 1 201) 60).data j ∧
            peek (region_darken (Region.uniform 2 1 201) 60).data j
              ≤ peek (Region.uniform 2 1 201).data j) :=
  ⟨by decide, by decide, by decide,
    region_darken_monotonic (Region.uniform 2 1 201) 30 60 (by decide) (by decide)
      (by decide)⟩

/-- C11: `region_darken` with 100 percent is the identity: the region, and so
every byte of its data, is unchanged. -/
theorem region_darken_hundred (self : Region) : region_darken self 100 = self := by
  have hd : (region_darken self 100).data = self.data := by
    apply List.ext_getElem?
    intro j
    rw [region_darken_getElem?]
    split
    · cases self.data[j]? with
      | none => rfl
      | some v => simp [darken_byte_hundred]
    · rfl
  have hw : (region_darken self 100).w = self.w := rfl
  have hh : (region_darken self 100).h = self.h := rfl
  cases self with
  | mk w h data =>
    cases hr : region_darken ⟨w, h, data⟩ 100 with
    | mk w' h' data' =>
      rw [hr] at hd hw hh
      simp only at hd hw hh
      rw [hd, hw, hh]

/-- C12: on a region whose buffer holds `w * h * 3` bytes, `region_darken`
with 0 percent leaves the size as it is and makes every one of the
`w * h * 3` data bytes 0. -/
theorem region_darken_zero (self : Region) (hs : self.WellSized) :
    (region_darken self 0).w = self.w ∧ (region_darken self 0).h = self.h ∧
      (region_darken self 0).data = List.replicate (self.w * self.h * BPP).toNat 0 := by
  refine ⟨rfl, rfl, ?_⟩
  have hlen : (self.data.length : Int) = self.w * self.h * BPP := hs
  apply List.ext_getElem?
  intro j
  rw [region_darken_getElem?, List.getElem?_replicate]
  by_cases hj : j < (self.w * self.h * BPP).toNat
  · rw [if_pos hj, if_pos hj]
    have hjl : j < self.data.length := by omega
    rw [List.getElem?_eq_getElem hjl]
    simp [darken_byte_zero]
  · rw [if_neg hj, if_neg hj]
    exact List.getElem?_eq_none (by omega)

/-- Witness of C12 on a 2 x 1 region with every byte 201. -/
theorem region_darken_zero_witness :
    (Region.uniform 2 1 201).WellSized ∧
      ((region_darken (Region.uniform 2 1 201) 0).w = (Region.uniform 2 1 201).w ∧
        (region_darken (Region.uniform 2 1 201) 0).h = (Region.uniform 2 1 201).h ∧
        (region_darken (Region.uniform 2 1 201) 0).data
          = List.replicate ((Region.uniform 2 1 201).w * (Region.uniform 2 1 201).h * BPP).toNat 0) :=
  ⟨by decide, region_darken_zero (Region.uniform 2 1 201) (by decide)⟩

/-- C13: for every region, font, position and colour and every character `c`
outside `' '..'~'` (below 32 or above 126, which covers DEL and the
characters with the high bit set, whether `char` is signed or not),
`region_draw_bitmap_char` gives the same region as with `'?'`. -/
theorem region_draw_bitmap_char_unprintable (self : Region) (bf : BitmapFont) (c : Int)
    (x y : Int) (r g b : Int) (hc : c < 32 ∨ 126 < c) :
    region_draw_bitmap_char self bf c x y r g b
      = region_draw_bitmap_char self bf 63 x y r g b := by
  have h1 : (if c < 32 ∨ c > 126 then (63 : Int) else c) = 63 := if_pos hc
  have h2 : (if (63 : Int) < 32 ∨ (63 : Int) > 126 then (63 : Int) else 63) = 63 := by decide
  unfold region_draw_bitmap_char
  simp only [h1, h2]

/-- Witness of C13: DEL (127) on a 10 x 4 region with an 8 x 3 font. -/
theorem region_draw_bitmap_char_unprintable_witness :
    ((127 : Int) < 32 ∨ (126 : Int) < 127) ∧
      region_draw_bitmap_char (Region.uniform 10 4 0) ⟨List.replicate 285 0xA5, 8, 3⟩ 127
          1 1 255 255 255
        = region_draw_bitmap_char (Region.uniform 10 4 0) ⟨List.replicate 285 0xA5, 8, 3⟩ 63
          1 1 255 255 255 :=
  ⟨by decide,
    region_draw_bitmap_char_unprintable (Region.uniform 10 4 0)
      ⟨List.replicate 285 0xA5, 8, 3⟩ 127 1 1 255 255 255 (by decide)⟩

/-- C14: for every text, `region_draw_bitmap_text` gives the same region as
drawing the characters one after the other with `region_draw_bitmap_char`,
character `i` at `(x + i * font.width, y)`; for the text "12" and a font of
glyph width 8, glyph '1' is drawn at `x` and then glyph '2' at `x + 8`. -/
theorem region_draw_bitmap_text_layout :
    (∀ (self : Region) (bf : BitmapFont) (text : List Int) (x y : Int) (r g b : Int),
        region_draw_bitmap_text self bf text x y r g b
          = draw_text_glyph_by_glyph self bf text x y r g b) ∧
      (∀ (self : Region) (table : List BYTE) (height : Int) (x y : Int) (r g b : Int),
        region_draw_bitmap_text self ⟨table, 8, height⟩ [49, 50] x y r g b
          = region_draw_bitmap_char
              (region_draw_bitmap_char self ⟨table, 8, height⟩ 49 x y r g b)
              ⟨table, 8, height⟩ 50 (x + 8) y r g b) := by
  have main : ∀ (self : Region) (bf : BitmapFont) (text : List Int) (x y : Int) (r g b : Int),
      region_draw_bitmap_text self bf text x y r g b
        = draw_text_glyph_by_glyph self bf text x y r g b := by
    intro self bf text x y r g b
    have h := text_loop_eq_foldl
      (fun c i s => region_draw_bitmap_char s bf c (x + i * bf.width) y r g b) text [] self
    unfold region_draw_bitmap_text draw_text_glyph_by_glyph forLoop
    simpa using h
  refine ⟨main, ?_⟩
  intro self table height x y r g b
  rw [main]
  simp [draw_text_glyph_by_glyph, List.enum, List.enumFrom]

/-- C15: on a mapped 2 x 2 device whose bytes are 1, 2, ..., 16, capturing a
2 x 2 region at origin `(0, 0)` stores `(0, 0, 0)` for the three pixels of
device row 0 and device column 0 and the device bytes only for pixel
`(1, 1)`: region pixel `(0, 0)` does not hold the `(B, G, R)` bytes
`(1, 2, 3)` of device pixel `(0, 0)`. -/
theorem region_from_fb_first_row_and_column :
    let fb : FrameBuffer :=
      { fd := 3, w := 2, h := 2, fb_data_size := 16,
        fb_data := some [1, 2, 3, 4, 5, 6, 7, 8, 9, 10, 11, 12, 13, 14, 15, 16],
        fbdev := "/dev/fb0" }
    (region_from_fb (Region.uniform 2 2 7) fb 0 0).data
        = [0, 0, 0, 0, 0, 0, 0, 0, 0, 13, 14, 15] ∧
      fb.bgr 0 0 = (1, 2, 3) ∧
      (region_from_fb (Region.uniform 2 2 7) fb 0 0).pixel 0 0 = (0, 0, 0) := by
  decide

/-- C16: on a mapped device whose memory holds `W * H * 4` bytes and for an
in-bounds window (`0 <= ox`, `0 <= oy`, `ox + w <= W`, `oy + h <= H`), after
`region_to_fb` at `(ox, oy)` every device pixel `(ox + x, oy + y)`,
`0 <= x < w`, `0 <= y < h`, has its B, G, R bytes equal to the B, G, R bytes
of region pixel `(x, y)`. -/
theorem region_to_fb_copies (self : Region) (fb : FrameBuffer) (d : List BYTE)
    (ox oy : Int) (hmap : fb.fb_data = some d)
    (hlen : (d.length : Int) = fb.w * fb.h * 4) (hox : 0 ≤ ox) (hoy : 0 ≤ oy)
    (hw : ox + self.w ≤ fb.w) (hh : oy + self.h ≤ fb.h) :
    ∀ x y : Int, 0 ≤ x → x < self.w → 0 ≤ y → y < self.h →
      (region_to_fb self fb ox oy).bgr (ox + x) (oy + y)
        = ((self.pixel x y).2.2, (self.pixel x y).2.1, (self.pixel x y).1) := by
  obtain ⟨d', hd', hw', _, _, ha, _⟩ :=
    region_to_fb_bytes self fb d ox oy hmap hlen hox hoy hw hh
  intro x y h1 h2 h3 h4
  have e : (oy + y) * fb.w + (ox + x) = (y + oy) * fb.w + (x + ox) := by ring
  have a0 := ha x y 0 h1 h2 h3 h4 trivial (by omega) (by omega)
  have a1 := ha x y 1 h1 h2 h3 h4 trivial (by omega) (by omega)
  have a2 := ha x y 2 h1 h2 h3 h4 trivial (by omega) (by omega)
  rw [Int.add_zero] at a0
  unfold FrameBuffer.bgr FrameBuffer.mem Region.pixel
  rw [hd', hw', e]
  simp only [Option.getD_some, peek_eq]
  rw [Int.add_zero] at a0
  rw [a0, a1, a2]
  simp [peek_eq]

/-- Witness of C16: a 1 x 1 region blitted at `(1, 1)` on a 2 x 2 device. -/
theorem region_to_fb_copies_witness :
    let fb : FrameBuffer :=
      { fd := 3, w := 2, h := 2, fb_data_size := 16,
        fb_data := some (List.replicate 16 9), fbdev := "/dev/fb0" }
    fb.fb_data = some (List.replicate 16 9) ∧
      (((List.replicate 16 (9 : BYTE)).length : Int) = fb.w * fb.h * 4) ∧
      (0 : Int) ≤ 1 ∧ (1 : Int) + (Region.mk 1 1 [50, 100, 200]).w ≤ fb.w ∧
      (1 : Int) + (Region.mk 1 1 [50, 100, 200]).h ≤ fb.h ∧
      ∀ x y : Int, 0 ≤ x → x < (Region.mk 1 1 [50, 100, 200]).w → 0 ≤ y →
        y < (Region.mk 1 1 [50, 100, 200]).h →
        (region_to_fb (Region.mk 1 1 [50, 100, 200]) fb 1 1).bgr (1 + x) (1 + y)
          = (((Region.mk 1 1 [50, 100, 200]).pixel x y).2.2,
              ((Region.mk 1 1 [50, 100, 200]).pixel x y).2.1,
              ((Region.mk 1 1 [50, 100, 200]).pixel x y).1) :=
  ⟨rfl, by decide, by decide, by decide, by decide,
    region_to_fb_copies (Region.mk 1 1 [50, 100, 200])
      { fd := 3, w := 2, h := 2, fb_data_size := 16,
        fb_data := some (List.replicate 16 9), fbdev := "/dev/fb0" }
      (List.replicate 16 9) 1 1 rfl (by decide) (by decide) (by decide) (by decide)
      (by decide)⟩

/-- C17 fails as stated: blitting the same 1 x 1 region at `(0, 0)` on two
1 x 1 devices whose pad bytes are 40 and 99 leaves the pad bytes at 40 and
99, so the pad byte after the call is not one fixed value. -/
theorem region_to_fb_pad_counterexample :
    let fb40 : FrameBuffer :=
      { fd := 3, w := 1, h := 1, fb_data_size := 4,
        fb_data := some [10, 20, 30, 40], fbdev := "/dev/fb0" }
    let fb99 : FrameBuffer :=
      { fd := 3, w := 1, h := 1, fb_data_size := 4,
        fb_data := some [10, 20, 30, 99], fbdev := "/dev/fb0" }
    (region_to_fb (Region.mk 1 1 [1, 2, 3]) fb40 0 0).fb_data = some [1, 2, 3, 40] ∧
      (region_to_fb (Region.mk 1 1 [1, 2, 3]) fb99 0 0).fb_data = some [1, 2, 3, 99] ∧
      ¬ ∃ c : BYTE,
        peek (region_to_fb (Region.mk 1 1 [1, 2, 3]) fb40 0 0).mem 3 = c ∧
        peek (region_to_fb (Region.mk 1 1 [1, 2, 3]) fb99 0 0).mem 3 = c := by
  refine ⟨by decide, by decide, ?_⟩
  rintro ⟨c, h1, h2⟩
  have e1 : peek (region_to_fb (Region.mk 1 1 [1, 2, 3])
      { fd := 3, w := 1, h := 1, fb_data_size := 4,
        fb_data := some [10, 20, 30, 40], fbdev := "/dev/fb0" } 0 0).mem 3 = 40 := by decide
  have e2 : peek (region_to_fb (Region.mk 1 1 [1, 2, 3])
      { fd := 3, w := 1, h := 1, fb_data_size := 4,
        fb_data := some [10, 20, 30, 99], fbdev := "/dev/fb0" } 0 0).mem 3 = 99 := by decide
  rw [e1] at h1
  rw [e2] at h2
  rw [← h1] at h2
  exact absurd h2 (by decide)

/-- C17, as amended: on a mapped device whose memory holds `W * H * 4` bytes
and for an in-bounds window, `region_to_fb` leaves the 4th (pad) byte of
every device pixel, inside the window and outside it, as it was before the
call. -/
theorem region_to_fb_keeps_pad (self : Region) (fb : FrameBuffer) (d : List BYTE)
    (ox oy : Int) (hmap : fb.fb_data = some d)
    (hlen : (d.length : Int) = fb.w * fb.h * 4) (hox : 0 ≤ ox) (hoy : 0 ≤ oy)
    (hw : ox + self.w ≤ fb.w) (hh : oy + self.h ≤ fb.h) :
    ∀ X Y : Int, 0 ≤ X → X < fb.w → 0 ≤ Y → Y < fb.h →
      peek (region_to_fb self fb ox oy).mem ((Y * fb.w + X) * 4 + 3)
        = peek fb.mem ((Y * fb.w + X) * 4 + 3) := by
  obtain ⟨d', hd', _, _, _, _, hb⟩ :=
    region_to_fb_bytes self fb d ox oy hmap hlen hox hoy hw hh
  intro X Y h1 h2 h3 _
  have b3 := hb X Y 3 h1 h2 h3 (by omega) (by omega) (by omega)
  unfold FrameBuffer.mem
  rw [hd', hmap]
  simp only [Option.getD_some, peek_eq]
  rw [b3]

/-- Witness of the amended C17: a 1 x 1 region blitted at `(1, 1)` on a
2 x 2 device. -/
theorem region_to_fb_keeps_pad_witness :
    let fb : FrameBuffer :=
      { fd := 3, w := 2, h := 2, fb_data_size := 16,
        fb_data := some (List.replicate 16 9), fbdev := "/dev/fb0" }
    fb.fb_data = some (List.replicate 16 9) ∧
      (((List.replicate 16 (9 : BYTE)).length : Int) = fb.w * fb.h * 4) ∧
      (0 : Int) ≤ 1 ∧ (1 : Int) + (Region.mk 1 1 [50, 100, 200]).w ≤ fb.w ∧
      (1 : Int) + (Region.mk 1 1 [50, 100, 200]).h ≤ fb.h ∧
      ∀ X Y : Int, 0 ≤ X → X < fb.w → 0 ≤ Y → Y < fb.h →
        peek (region_to_fb (Region.mk 1 1 [50, 100, 200]) fb 1 1).mem ((Y * fb.w + X) * 4 + 3)
          = peek fb.mem ((Y * fb.w + X) * 4 + 3) :=
  ⟨rfl, by decide, by decide, by decide, by decide,
    region_to_fb_keeps_pad (Region.mk 1 1 [50, 100, 200])
      { fd := 3, w := 2, h := 2, fb_data_size := 16,
        fb_data := some (List.replicate 16 9), fbdev := "/dev/fb0" }
      (List.replicate 16 9) 1 1 rfl (by decide) (by decide) (by decide) (by decide)
      (by decide)⟩

/-- C18: at 03:00:00, whatever the region and the fonts, the calls of
`draw_hand` made by `program_draw_clock_in_region` are, in order, the second
hand (when seconds are shown), the minute hand and the hour hand, with
thickness 1, 5 and 10, and their angles, `coeff * pi` with `coeff` the exact
value of the factor the code computes, are 0, 0 and `pi / 2`. -/
theorem hand_angles_at_three (fonts : FontName → BitmapFont) (r : Region) :
    ∃ s m h : HandCall,
      program_draw_clock_in_region_hands fonts r ⟨3, 0, 0⟩ true = [s, m, h] ∧
      program_draw_clock_in_region_hands fonts r ⟨3, 0, 0⟩ false = [m, h] ∧
      s.thickness = 1 ∧ m.thickness = 5 ∧ h.thickness = 10 ∧
      s.angle.coeff.den ≠ 0 ∧ m.angle.coeff.den ≠ 0 ∧ h.angle.coeff.den ≠ 0 ∧
      ((s.angle.coeff.num : ℝ) / (s.angle.coeff.den : ℝ)) * Real.pi = 0 ∧
      ((m.angle.coeff.num : ℝ) / (m.angle.coeff.den : ℝ)) * Real.pi = 0 ∧
      ((h.angle.coeff.num : ℝ) / (h.angle.coeff.den : ℝ)) * Real.pi = Real.pi / 2 := by
  refine ⟨_, _, _, rfl, rfl, rfl, rfl, rfl, ?_, ?_, ?_, ?_, ?_, ?_⟩
  · show (60 : Nat) ≠ 0
    decide
  · show (60 : Nat) ≠ 0
    decide
  · show (8640 : Nat) ≠ 0
    decide
  · show (((0 : Int) : ℝ) / ((60 : Nat) : ℝ)) * Real.pi = 0
    simp
  · show (((0 : Int) : ℝ) / ((60 : Nat) : ℝ)) * Real.pi = 0
    simp
  · show (((4320 : Int) : ℝ) / ((8640 : Nat) : ℝ)) * Real.pi = Real.pi / 2
    push_cast
    ring

/-- C19: `select_analog_font` returns `font8` exactly for `radius < 80`,
`font12` exactly for `80 <= radius < 140` and `font20` exactly for
`radius >= 140`; so 79 gives the small font, 80 and 139 the medium one and
140 the large one. -/
theorem select_analog_font_thresholds :
    (∀ radius : Int,
        (select_analog_font radius = FontName.font8 ↔ radius < 80) ∧
        (select_analog_font radius = FontName.font12 ↔ 80 ≤ radius ∧ radius < 140) ∧
        (select_analog_font radius = FontName.font20 ↔ 140 ≤ radius)) ∧
      select_analog_font 79 = FontName.font8 ∧ select_analog_font 80 = FontName.font12 ∧
      select_analog_font 139 = FontName.font12 ∧ select_analog_font 140 = FontName.font20 := by
  refine ⟨?_, by decide, by decide, by decide, by decide⟩
  intro radius
  unfold select_analog_font
  by_cases h1 : radius < 80
  · rw [if_pos h1]
    refine ⟨⟨fun _ => h1, fun _ => rfl⟩, ⟨fun h => ?_, fun h => ?_⟩, ⟨fun h => ?_, fun h => ?_⟩⟩
    · exact absurd h (by decide)
    · omega
    · exact absurd h (by decide)
    · omega
  · by_cases h2 : radius < 140
    · rw [if_neg h1, if_pos h2]
      refine ⟨⟨fun h => ?_, fun h => ?_⟩, ⟨fun _ => ⟨by omega, h2⟩, fun _ => rfl⟩,
        ⟨fun h => ?_, fun h => ?_⟩⟩
      · exact absurd h (by decide)
      · omega
      · exact absurd h (by decide)
      · omega
    · rw [if_neg h1, if_neg h2]
      refine ⟨⟨fun h => ?_, fun h => ?_⟩, ⟨fun h => ?_, fun h => ?_⟩,
        ⟨fun _ => by omega, fun _ => rfl⟩⟩
      · exact absurd h (by decide)
      · omega
      · exact absurd h (by decide)
      · omega

/-- C20: `program_check_context` returns TRUE exactly when `0 <= x`,
`0 <= y`, `x + width <= ` the frame-buffer width, `y + height <= ` the
frame-buffer height and `0 <= transparency <= 100`, the five values read
with the defaults 20, 20, 300, 300 and 50; it passes one message to
`log_error` when it returns FALSE and none when it returns TRUE; and
`program_run` reaches the creation of the wallpaper region exactly when the
device was initialised without error and `program_check_context` returned
TRUE. -/
theorem program_check_context_accepts (context : ProgramContext) (fb : FrameBuffer)
    (g : Globals) :
    ((program_check_context context fb g).1 = true ↔
        0 ≤ program_context_get_integer context "x" 20 ∧
        0 ≤ program_context_get_integer context "y" 20 ∧
        program_context_get_integer context "x" 20
          + program_context_get_integer context "width" 300 ≤ framebuffer_get_width fb ∧
        program_context_get_integer context "y" 20
          + program_context_get_integer context "height" 300 ≤ framebuffer_get_height fb ∧
        0 ≤ program_context_get_integer context "transparency" 50 ∧
        program_context_get_integer context "transparency" 50 ≤ 100) ∧
      (program_check_context_errors context fb).length
        = (if (program_check_context context fb g).1 = true then 0 else 1) ∧
      (∀ (dev : Option Device) (garbage : List BYTE),
        (program_run_setup context dev garbage g).isSome =
          (decide ((framebuffer_init (framebuffer_create
              ((props_get context.props "fbdev").getD "/dev/fb0")) dev).2.2 = none) &&
            (program_check_context context
              (framebuffer_init (framebuffer_create
                ((props_get context.props "fbdev").getD "/dev/fb0")) dev).2.1
              { g with fb := some (framebuffer_init (framebuffer_create
                ((props_get context.props "fbdev").getD "/dev/fb0")) dev).2.1 }).1)) := by
  refine ⟨?_, ?_, ?_⟩
  · unfold program_check_context
    simp only [DEF_POSITION_X, DEF_POSITION_Y, DEF_WIDTH, DEF_HEIGHT, DEF_TRANSPARENCY]
    by_cases hpos : program_context_get_integer context "x" 20
          + program_context_get_integer context "width" 300 > framebuffer_get_width fb
        ∨ program_context_get_integer context "y" 20
          + program_context_get_integer context "height" 300 > framebuffer_get_height fb
        ∨ program_context_get_integer context "x" 20 < 0
        ∨ program_context_get_integer context "y" 20 < 0
    · simp only [if_pos hpos, Bool.false_eq_true, if_false]
      constructor
      · intro h
        exact absurd h (by decide)
      · intro h
        omega
    · simp only [if_neg hpos, if_true]
      by_cases ht : program_context_get_integer context "transparency" 50 < 0
          ∨ program_context_get_integer context "transparency" 50 > 100
      · simp only [if_pos ht, Bool.false_eq_true, if_false]
        constructor
        · intro h
          exact absurd h (by decide)
        · intro h
          omega
      · simp only [if_neg ht]
        constructor
        · intro _
          omega
        · intro _
          trivial
  · unfold program_check_context program_check_context_errors
    by_cases hpos : program_context_get_integer context "x" DEF_POSITION_X
          + program_context_get_integer context "width" DEF_WIDTH > framebuffer_get_width fb
        ∨ program_context_get_integer context "y" DEF_POSITION_Y
          + program_context_get_integer context "height" DEF_HEIGHT > framebuffer_get_height fb
        ∨ program_context_get_integer context "x" DEF_POSITION_X < 0
        ∨ program_context_get_integer context "y" DEF_POSITION_Y < 0
    · simp [hpos]
    · by_cases ht : program_context_get_integer context "transparency" DEF_TRANSPARENCY < 0
          ∨ program_context_get_integer context "transparency" DEF_TRANSPARENCY > 100
      · simp [hpos, ht]
      · simp [hpos, ht]
  · intro dev garbage
    unfold program_run_setup
    simp only []
    by_cases he : (framebuffer_init (framebuffer_create
        ((props_get context.props "fbdev").getD "/dev/fb0")) dev).2.2 = none
    · rw [if_pos he]
      cases hc : (program_check_context context
          (framebuffer_init (framebuffer_create
            ((props_get context.props "fbdev").getD "/dev/fb0")) dev).2.1
          { g with fb := some (framebuffer_init (framebuffer_create
            ((props_get context.props "fbdev").getD "/dev/fb0")) dev).2.1 }).1 with
      | true => simp [he]
      | false => simp [he]
    · rw [if_neg he]
      simp [he]

/-- C21: on a 2 x 2 device, the configuration x=0, y=0, width=0, height=1 is
accepted by `program_check_context`, although its width is not positive, and
`program_run` goes on to create a wallpaper region of 0 x 1 pixels with an
empty buffer. -/
theorem program_check_context_accepts_zero_width :
    let context : ProgramContext :=
      { props := ⟨[("log-level", "1"), ("width", "0"), ("height", "1"),
          ("x", "0"), ("y", "0")]⟩,
        nonswitch_argc := 0, nonswitch_argv := [], stdout_is_tty := false,
        console_width := 0, width := -1 }
    let dev : Device :=
      { fd := 3, xres := 2, yres := 2, bits_per_pixel := 32,
        mem := List.replicate 16 200 }
    program_context_get_integer context "width" DEF_WIDTH = 0 ∧
      (program_check_context context
        (framebuffer_init (framebuffer_create "/dev/fb0") (some dev)).2.1
        Globals.initial).1 = true ∧
      (program_run_setup context (some dev) [] Globals.initial).map
          (fun g => g.wallpaper_region)
        = some (some { w := 0, h := 1, data := [] }) := by
  decide

/-- C22: `framebuffer_init` on a device that opens returns TRUE, sets no
error and maps the device exactly when `32 <= bits_per_pixel <= 39`; so a
device that reports 33 bits per pixel is accepted and mapped, although the
error message of the other branch says that only 32 is supported. -/
theorem framebuffer_init_accepts_33_bpp :
    (∀ (self : FrameBuffer) (d : Device),
        ((framebuffer_init self (some d)).1 = true ↔
          32 ≤ d.bits_per_pixel ∧ d.bits_per_pixel ≤ 39)) ∧
      framebuffer_init (framebuffer_create "/dev/fb0")
          (some { fd := 3, xres := 2, yres := 2, bits_per_pixel := 33,
                  mem := List.replicate 16 0 })
        = (true,
            { fd := 3, w := 2, h := 2, fb_data_size := 16,
              fb_data := some (List.replicate 16 0), fbdev := "/dev/fb0" },
            none) := by
  refine ⟨?_, by decide⟩
  intro self d
  unfold framebuffer_init
  simp only []
  by_cases h : Int.tdiv d.bits_per_pixel 8 = 4
  · rw [if_pos h]
    exact ⟨fun _ => (tdiv_eight_eq_four _).mp h, fun _ => rfl⟩
  · rw [if_neg h]
    constructor
    · intro hc
      exact absurd hc Bool.false_ne_true
    · intro hc
      exact absurd ((tdiv_eight_eq_four _).mpr hc) h

/-- C23: for a region whose buffer holds `w * h * 3` bytes, `region_clone`
returns a region with the same width and height and with every data byte
equal to the corresponding byte of the original, whatever the freshly
allocated memory held. -/
theorem region_clone_copies (other : Region) (garbage : List BYTE)
    (hs : other.WellSized) :
    (region_clone other garbage).w = other.w ∧ (region_clone other garbage).h = other.h ∧
      (region_clone other garbage).data.length = other.data.length ∧
      ∀ j : Nat, (region_clone other garbage).data[j]? = other.data[j]? := by
  rw [region_clone_eq other garbage hs]
  exact ⟨rfl, rfl, rfl, fun _ => rfl⟩

/-- Witness of C23 on a 2 x 1 region, with fresh memory full of 9. -/
theorem region_clone_copies_witness :
    (Region.mk 2 1 [1, 2, 3, 4, 5, 6]).WellSized ∧
      ((region_clone (Region.mk 2 1 [1, 2, 3, 4, 5, 6]) [9]).w = 2 ∧
        (region_clone (Region.mk 2 1 [1, 2, 3, 4, 5, 6]) [9]).h = 1 ∧
        (region_clone (Region.mk 2 1 [1, 2, 3, 4, 5, 6]) [9]).data.length
          = (Region.mk 2 1 [1, 2, 3, 4, 5, 6]).data.length ∧
        ∀ j : Nat, (region_clone (Region.mk 2 1 [1, 2, 3, 4, 5, 6]) [9]).data[j]?
          = (Region.mk 2 1 [1, 2, 3, 4, 5, 6]).data[j]?) :=
  ⟨by decide, region_clone_copies (Region.mk 2 1 [1, 2, 3, 4, 5, 6]) [9] (by decide)⟩

/-- C24: let `o` be a live region of a heap and `c` its clone.  The clone has
a buffer of its own; the original still holds what it held; the clone holds
what `region_clone` computes; and whatever a drawing function `op` does to
the buffer it is run on (`region_set_pixel`, `region_fill_rect`,
`region_darken`, glyphs, text, lines), running it on `c` leaves every byte of
`o` unchanged and running it on `o` leaves every byte of `c` unchanged. -/
theorem region_clone_independent (o : RegionRef) (hp : Heap) (garbage : List BYTE)
    (op : Region → Region) (ho : o.data < hp.blocks.length) :
    (region_clone_ref o garbage hp).1.data ≠ o.data ∧
      o.load (region_clone_ref o garbage hp).2 = o.load hp ∧
      (region_clone_ref o garbage hp).1.load (region_clone_ref o garbage hp).2
        = region_clone (o.load hp) garbage ∧
      o.load ((region_clone_ref o garbage hp).1.run op (region_clone_ref o garbage hp).2)
        = o.load hp ∧
      (region_clone_ref o garbage hp).1.load
          (o.run op (region_clone_ref o garbage hp).2)
        = (region_clone_ref o garbage hp).1.load (region_clone_ref o garbage hp).2 := by
  obtain ⟨hc, blk, hhp, hblk⟩ := region_clone_ref_heap o garbage hp ho
  rw [hc, hhp]
  have hne : hp.blocks.length ≠ o.data := by omega
  have ho1 : (hp.blocks ++ [blk]).getD o.data [] = hp.blocks.getD o.data [] := by
    simp [List.getD_eq_getElem?_getD, List.getElem?_append_left ho]
  have hc1 : (hp.blocks ++ [blk]).getD hp.blocks.length [] = blk := by
    simp [List.getD_eq_getElem?_getD]
  refine ⟨hne, ?_, ?_, ?_, ?_⟩
  · unfold RegionRef.load
    simp only [ho1]
  · unfold RegionRef.load
    simp only [hc1]
    rw [hblk]
    rfl
  · unfold RegionRef.run RegionRef.load
    simp only [List.getD_eq_getElem?_getD, List.getElem?_set_ne hne,
      List.getElem?_append_left ho]
  · unfold RegionRef.run RegionRef.load
    simp only [List.getD_eq_getElem?_getD, List.getElem?_set_ne (Ne.symm hne)]

/-- Witness of C24: a heap with one 2 x 1 region, cloned, and
`region_darken` to 0 percent as the drawing function. -/
theorem region_clone_independent_witness :
    (0 : Nat) < (Heap.mk [[1, 2, 3, 4, 5, 6]]).blocks.length ∧
      ((region_clone_ref ⟨2, 1, 0⟩ [9] ⟨[[1, 2, 3, 4, 5, 6]]⟩).1.data ≠ (RegionRef.mk 2 1 0).data ∧
        (RegionRef.mk 2 1 0).load (region_clone_ref ⟨2, 1, 0⟩ [9] ⟨[[1, 2, 3, 4, 5, 6]]⟩).2
          = (RegionRef.mk 2 1 0).load ⟨[[1, 2, 3, 4, 5, 6]]⟩ ∧
        (region_clone_ref ⟨2, 1, 0⟩ [9] ⟨[[1, 2, 3, 4, 5, 6]]⟩).1.load
            (region_clone_ref ⟨2, 1, 0⟩ [9] ⟨[[1, 2, 3, 4, 5, 6]]⟩).2
          = region_clone ((RegionRef.mk 2 1 0).load ⟨[[1, 2, 3, 4, 5, 6]]⟩) [9] ∧
        (RegionRef.mk 2 1 0).load
            ((region_clone_ref ⟨2, 1, 0⟩ [9] ⟨[[1, 2, 3, 4, 5, 6]]⟩).1.run
              (fun s => region_darken s 0)
              (region_clone_ref ⟨2, 1, 0⟩ [9] ⟨[[1, 2, 3, 4, 5, 6]]⟩).2)
          = (RegionRef.mk 2 1 0).load ⟨[[1, 2, 3, 4, 5, 6]]⟩ ∧
        (region_clone_ref ⟨2, 1, 0⟩ [9] ⟨[[1, 2, 3, 4, 5, 6]]⟩).1.load
            ((RegionRef.mk 2 1 0).run (fun s => region_darken s 0)
              (region_clone_ref ⟨2, 1, 0⟩ [9] ⟨[[1, 2, 3, 4, 5, 6]]⟩).2)
          = (region_clone_ref ⟨2, 1, 0⟩ [9] ⟨[[1, 2, 3, 4, 5, 6]]⟩).1.load
              (region_clone_ref ⟨2, 1, 0⟩ [9] ⟨[[1, 2, 3, 4, 5, 6]]⟩).2) :=
  ⟨by decide,
    region_clone_independent ⟨2, 1, 0⟩ ⟨[[1, 2, 3, 4, 5, 6]]⟩ [9]
      (fun s => region_darken s 0) (by decide)⟩

set_option maxRecDepth 100000 in
/-- C25 fails as stated: when the allocator hands out memory full of 7,
`region_create (1, 1)` returns a region whose three data bytes are 7, not
0. -/
theorem region_create_not_zeroed :
    (region_create 1 1 [7]).data = [7, 7, 7] ∧
      ¬ (∀ v ∈ (region_create 1 1 [7]).data, v = 0) := by
  decide

/-- C25, as amended: `region_create (w, h)` returns a region of width `w`
and height `h` with a buffer of `w * h * 3` bytes; the bytes are not
initialised: they hold whatever the allocated memory held, for instance any
one value `v` throughout. -/
theorem region_create_size :
    (∀ (w h : Int) (garbage : List BYTE),
        (region_create w h garbage).w = w ∧ (region_create w h garbage).h = h ∧
        (region_create w h garbage).data.length = (w * h * 3).toNat) ∧
      (∀ (w h : Int) (v : BYTE),
        (region_create w h [v]).data = List.replicate (w * h * 3).toNat v) := by
  constructor
  · intro w h garbage
    exact ⟨rfl, rfl, region_create_length w h garbage⟩
  · intro w h v
    apply List.ext_getElem?
    intro j
    unfold region_create
    simp only [List.getElem?_map, List.getElem?_range', List.getElem?_replicate, BPP]
    by_cases hj : j < (w * h * 3).toNat
    · have e : j % 1 = 0 := Nat.mod_one j
      simp [hj, List.getElem?_range hj, e]
    · have hn : (List.range (w * h * 3).toNat)[j]? = none :=
        List.getElem?_eq_none (by simp; omega)
      simp [hj, hn]

/-- C26: starting from the empty property list, after
`props_put ("log-level", "1")` and `props_put ("width", "100")` the call
`props_put ("width", "200")` removes the first pair of the list,
"log-level", instead of the old "width" pair, and `props_get ("width")`
still returns "100". -/
theorem props_put_keeps_old_value :
    props_put (props_put ⟨[]⟩ "log-level" "1") "width" "100"
        = ⟨[("log-level", "1"), ("width", "100")]⟩ ∧
      props_put (props_put (props_put ⟨[]⟩ "log-level" "1") "width" "100") "width" "200"
        = ⟨[("width", "100"), ("width", "200")]⟩ ∧
      props_get
          (props_put (props_put (props_put ⟨[]⟩ "log-level" "1") "width" "100") "width" "200")
          "width" = some "100" := by
  decide

/-- C27: on a region whose buffer holds `w * h * 3` bytes, for a character
`c` in `' '..'~'`, `region_draw_bitmap_char` at `(x, y)` sets each pixel
`(x + q, y + p)` of the region with `0 <= q < W` and `0 <= p < H` to the
colour exactly when bit `0x80 >> (q mod 8)` of
`table[(c - ' ') * H * stride + p * stride + q div 8]`, `stride = ceil (W / 8)`,
is set; the pixels whose bit is clear and all pixels outside the glyph cell
are unchanged, and so is the size. -/
theorem region_draw_bitmap_char_paints (self : Region) (hs : self.WellSized)
    (bf : BitmapFont) (c x y r g b : Int) (hc0 : 32 ≤ c) (hc1 : c ≤ 126) :
    (region_draw_bitmap_char self bf c x y r g b).w = self.w ∧
      (region_draw_bitmap_char self bf c x y r g b).h = self.h ∧
      (region_draw_bitmap_char self bf c x y r g b).data.length = self.data.length ∧
      ∀ x' y' : Int, 0 ≤ x' → x' < self.w → 0 ≤ y' → y' < self.h →
        (region_draw_bitmap_char self bf c x y r g b).pixel x' y' =
          if x ≤ x' ∧ x' < x + bf.width ∧ y ≤ y' ∧ y' < y + bf.height ∧
              glyph_bit bf c (y' - y) (x' - x) = true
          then (toBYTE r, toBYTE g, toBYTE b) else self.pixel x' y' := by
  have hcc : (if c < 32 ∨ c > 126 then (63 : Int) else c) = c := if_neg (by omega)
  have hstart : PaintedFrom self (toBYTE r) (toBYTE g) (toBYTE b)
      (fun x' y' => x ≤ x' ∧ x' < x + bf.width ∧ y ≤ y' ∧ y' < y + 0 ∧
        glyph_bit bf c (y' - y) (x' - x) = true) self := by
    refine ⟨rfl, rfl, rfl, ?_⟩
    intro x' y' _ _ _ _
    rw [if_neg (by omega)]
  suffices hmain : PaintedFrom self (toBYTE r) (toBYTE g) (toBYTE b)
      (fun x' y' => x ≤ x' ∧ x' < x + bf.width ∧ y ≤ y' ∧ y' < y + bf.height ∧
        glyph_bit bf c (y' - y) (x' - x) = true)
      (region_draw_bitmap_char self bf c x y r g b) by
    exact hmain
  unfold region_draw_bitmap_char
  by_cases hguard : x < self.w ∧ y < self.h
  · rw [if_pos hguard]
    simp only [hcc]
    by_cases hH : 0 ≤ bf.height
    · have key := forLoop_invariant 0 bf.height (bitmap_char_page bf x y r g b)
        (fun p st => (0 ≤ bf.width →
            st.2 = (c - 32) * bf.height * glyph_stride bf + p * glyph_stride bf) ∧
          PaintedFrom self (toBYTE r) (toBYTE g) (toBYTE b)
            (fun x' y' => x ≤ x' ∧ x' < x + bf.width ∧ y ≤ y' ∧ y' < y + p ∧
              glyph_bit bf c (y' - y) (x' - x) = true) st.1)
        hH
        (fun p st hp0 _ hI => glyph_row self hs bf c x y r g b p hp0 st hI.1 hI.2)
        (self, (c - 32) * bf.height * glyph_stride bf)
        ⟨fun _ => by simp, hstart⟩
      exact key.2
    · rw [forLoop_empty 0 bf.height _ _ (by omega)]
      refine PaintedFrom_congr self _ _ _ _ _ _ ?_ hstart
      intro x' y' _ _ _ _
      constructor
      · rintro ⟨_, _, e3, e4, _⟩
        omega
      · rintro ⟨_, _, e3, e4, _⟩
        omega
  · rw [if_neg hguard]
    refine PaintedFrom_congr self _ _ _ _ _ _ ?_ hstart
    intro x' y' _ h2 _ h4
    constructor
    · rintro ⟨e1, _, e3, _, _⟩
      omega
    · rintro ⟨_, _, e3, e4, _⟩
      omega

/-- Witness of C27: the glyph of '1' from an 8 x 3 font whose bytes are all
`0xA5`, drawn at `(1, 1)` on a 10 x 4 region. -/
theorem region_draw_bitmap_char_paints_witness :
    (Region.uniform 10 4 0).WellSized ∧ (32 : Int) ≤ 49 ∧ (49 : Int) ≤ 126 ∧
      ((region_draw_bitmap_char (Region.uniform 10 4 0) ⟨List.replicate 285 0xA5, 8, 3⟩ 49
            1 1 255 255 255).w = (Region.uniform 10 4 0).w ∧
        (region_draw_bitmap_char (Region.uniform 10 4 0) ⟨List.replicate 285 0xA5, 8, 3⟩ 49
            1 1 255 255 255).h = (Region.uniform 10 4 0).h ∧
        (region_draw_bitmap_char (Region.uniform 10 4 0) ⟨List.replicate 285 0xA5, 8, 3⟩ 49
            1 1 255 255 255).data.length = (Region.uniform 10 4 0).data.length ∧
        ∀ x' y' : Int, 0 ≤ x' → x' < (Region.uniform 10 4 0).w → 0 ≤ y' →
          y' < (Region.uniform 10 4 0).h →
          (region_draw_bitmap_char (Region.uniform 10 4 0) ⟨List.replicate 285 0xA5, 8, 3⟩ 49
              1 1 255 255 255).pixel x' y' =
            if 1 ≤ x' ∧ x' < 1 + (BitmapFont.mk (List.replicate 285 0xA5) 8 3).width ∧
                1 ≤ y' ∧ y' < 1 + (BitmapFont.mk (List.replicate 285 0xA5) 8 3).height ∧
                glyph_bit ⟨List.replicate 285 0xA5, 8, 3⟩ 49 (y' - 1) (x' - 1) = true
            then (toBYTE 255, toBYTE 255, toBYTE 255)
            else (Region.uniform 10 4 0).pixel x' y') :=
  ⟨by decide, by decide, by decide,
    region_draw_bitmap_char_paints (Region.uniform 10 4 0) (by decide)
      ⟨List.replicate 285 0xA5, 8, 3⟩ 49 1 1 255 255 255 (by decide) (by decide)⟩

set_option maxRecDepth 100000 in
/-- C28: on a 6 x 3 region with every byte 7, for the horizontal line from
`(1, 1)` to `(4, 1)` with colour `(200, 100, 50)`: the end-point step stores
the coverage-weighted colour `(100, 50, 25)` at `(1, 1)` and at `(4, 1)`, the
main loop runs over the columns 1..4, end points included, and after the
call both end-point pixels hold the full colour `(200, 100, 50)` written by
the main loop. -/
theorem draw_line_main_loop_rewrites_end_points :
    line_endpoints 1 1 4 1 = (false, 1, 1, 4, 1) ∧
      (line_end (Region.uniform 6 3 7) false (line_gradient 1 1 4 1) 1 1 200 100 50).2.1 = 1 ∧
      (line_end (line_end (Region.uniform 6 3 7) false (line_gradient 1 1 4 1)
          1 1 200 100 50).1 false (line_gradient 1 1 4 1) 4 1 200 100 50).2.1 = 4 ∧
      (line_end (line_end (Region.uniform 6 3 7) false (line_gradient 1 1 4 1)
          1 1 200 100 50).1 false (line_gradient 1 1 4 1) 4 1 200 100 50).1.pixel 1 1
        = (100, 50, 25) ∧
      (line_end (line_end (Region.uniform 6 3 7) false (line_gradient 1 1 4 1)
          1 1 200 100 50).1 false (line_gradient 1 1 4 1) 4 1 200 100 50).1.pixel 4 1
        = (100, 50, 25) ∧
      region_draw_line_one_pixel (Region.uniform 6 3 7) 1 1 4 1 200 100 50
        = (forLoop 1 (4 + 1) (line_step false (line_gradient 1 1 4 1) 200 100 50)
            ((line_end (line_end (Region.uniform 6 3 7) false (line_gradient 1 1 4 1)
                1 1 200 100 50).1 false (line_gradient 1 1 4 1) 4 1 200 100 50).1,
             ((line_end (Region.uniform 6 3 7) false (line_gradient 1 1 4 1)
                1 1 200 100 50).2.2 + line_gradient 1 1 4 1).single)).1 ∧
      (region_draw_line_one_pixel (Region.uniform 6 3 7) 1 1 4 1 200 100 50).pixel 1 1
        = (200, 100, 50) ∧
      (region_draw_line_one_pixel (Region.uniform 6 3 7) 1 1 4 1 200 100 50).pixel 4 1
        = (200, 100, 50) := by
  decide

/-- C29 fails as stated: for the horizontal segment `(10, 100) -> (50, 100)`
with thickness 10 and the ideal values `cos q = 0`, `sin q = 1`, the corners
are `(10, 95)`, `(50, 95)`, `(10, 102)` and `(50, 102)`: the long edges lie
on the rows `y - 5` and `y + 2`, not `y - 5` and `y + 5`. -/
theorem hollow_line_corners_thickness_ten :
    hollow_line_corners 10 100 50 100 10 (CFloat.ofInt 0) (CFloat.ofInt 1)
        = (⟨10, 95⟩, ⟨50, 95⟩, ⟨10, 102⟩, ⟨50, 102⟩) ∧
      (hollow_line_corners 10 100 50 100 10 (CFloat.ofInt 0) (CFloat.ofInt 1)).2.2.1.y
        ≠ 100 + Int.tdiv 10 2 := by
  decide

/-- C29, as amended: for thickness `t > 1` and a horizontal segment
`(x1, y) -> (x2, y)` with `0 <= x1` and `t/2 <= y` (ideal `cos q = 0`,
`sin q = 1`, the values for `x1 < x2`), the first corner pair is offset by
`t/2` from the centre line, `p1 = (x1, y - t/2)` and `p2 = (x2, y - t/2)`;
the second corner pair has the same columns, `x1` and `x2`, and lies on one
row on the other side, between the rows `y` and `y + t/2`. -/
theorem hollow_line_corners_horizontal (x1 x2 y t : Int) (ht : 1 < t) (hx : 0 ≤ x1)
    (hy : Int.tdiv t 2 ≤ y) :
    (hollow_line_corners x1 y x2 y t (CFloat.ofInt 0) (CFloat.ofInt 1)).1
        = ⟨x1, y - Int.tdiv t 2⟩ ∧
      (hollow_line_corners x1 y x2 y t (CFloat.ofInt 0) (CFloat.ofInt 1)).2.1
        = ⟨x2, y - Int.tdiv t 2⟩ ∧
      (hollow_line_corners x1 y x2 y t (CFloat.ofInt 0) (CFloat.ofInt 1)).2.2.1.x = x1 ∧
      (hollow_line_corners x1 y x2 y t (CFloat.ofInt 0) (CFloat.ofInt 1)).2.2.2.x = x2 ∧
      (hollow_line_corners x1 y x2 y t (CFloat.ofInt 0) (CFloat.ofInt 1)).2.2.2.y
        = (hollow_line_corners x1 y x2 y t (CFloat.ofInt 0) (CFloat.ofInt 1)).2.2.1.y ∧
      y ≤ (hollow_line_corners x1 y x2 y t (CFloat.ofInt 0) (CFloat.ofInt 1)).2.2.1.y ∧
      (hollow_line_corners x1 y x2 y t (CFloat.ofInt 0) (CFloat.ofInt 1)).2.2.1.y
        ≤ y + Int.tdiv t 2 := by
  have ht2 : Int.tdiv t 2 = t / 2 := Int.tdiv_eq_ediv (by omega) (by omega)
  -- first pair
  have hx1 : (CFloat.ofInt x1 - (CFloat.ofInt 0 * CFloat.ofInt (0 - Int.tdiv t 2))
      + CFloat.half).toInt = x1 := by
    have h := ((CFloat.isInt_ofInt x1).sub
      ((CFloat.isInt_ofInt 0).mul (CFloat.isInt_ofInt (0 - Int.tdiv t 2))))
    rw [Int.zero_mul, Int.sub_zero] at h
    exact h.add_half_toInt hx
  have hy1 : (CFloat.ofInt y + (CFloat.ofInt 1 * CFloat.ofInt (0 - Int.tdiv t 2))
      + CFloat.half).toInt = y - Int.tdiv t 2 := by
    have h := ((CFloat.isInt_ofInt y).add
      ((CFloat.isInt_ofInt 1).mul (CFloat.isInt_ofInt (0 - Int.tdiv t 2))))
    have e : y + 1 * (0 - Int.tdiv t 2) = y - Int.tdiv t 2 := by omega
    rw [e] at h
    exact h.add_half_toInt (by omega)
  -- second pair
  have hx3 : (CFloat.ofInt x1
      - (CFloat.half * CFloat.ofInt 0 * CFloat.ofInt (t - 1 - Int.tdiv t 2))
      + CFloat.half).toInt = x1 := by
    have h := ((CFloat.isInt_ofInt x1).sub
      (((CFloat.isInt_ofInt 0).half_mul_zero).mul
        (CFloat.isInt_ofInt (t - 1 - Int.tdiv t 2))))
    rw [Int.zero_mul, Int.sub_zero] at h
    exact h.add_half_toInt hx
  have hy3 : (CFloat.ofInt y
      + (CFloat.half * CFloat.ofInt 1 * CFloat.ofInt (t - 1 - Int.tdiv t 2))
      + CFloat.half).toInt = (y * 4 + (t - 1 - Int.tdiv t 2) * 2 + 2) / 4 := by
    unfold CFloat.toInt
    simp only [CFloat.add_num, CFloat.add_den, CFloat.mul_num, CFloat.mul_den]
    show Int.tdiv ((y * (((2 * 1 * 1 : Nat)) : Int) + 1 * 1 * (t - 1 - Int.tdiv t 2) * ((1 : Nat) : Int))
        * ((2 : Nat) : Int) + 1 * (((1 * (2 * 1 * 1) : Nat)) : Int))
      (((1 * (2 * 1 * 1) * 2 : Nat)) : Int) = _
    rw [Int.tdiv_eq_ediv (by push_cast; omega) (Int.ofNat_nonneg _)]
    push_cast
    congr 1
    ring
  refine ⟨?_, ?_, ?_, ?_, ?_, ?_, ?_⟩ <;>
    simp only [hollow_line_corners, hx1, hy1, hx3, hy3, Corner.mk.injEq] <;>
    first | trivial | omega

/-- Witness of the amended C29: thickness 10 at `(10, 100) -> (50, 100)`. -/
theorem hollow_line_corners_horizontal_witness :
    (1 : Int) < 10 ∧ (0 : Int) ≤ 10 ∧ Int.tdiv 10 2 ≤ (100 : Int) ∧
      ((hollow_line_corners 10 100 50 100 10 (CFloat.ofInt 0) (CFloat.ofInt 1)).1
          = ⟨10, 100 - Int.tdiv 10 2⟩ ∧
        (hollow_line_corners 10 100 50 100 10 (CFloat.ofInt 0) (CFloat.ofInt 1)).2.1
          = ⟨50, 100 - Int.tdiv 10 2⟩ ∧
        (hollow_line_corners 10 100 50 100 10 (CFloat.ofInt 0) (CFloat.ofInt 1)).2.2.1.x = 10 ∧
        (hollow_line_corners 10 100 50 100 10 (CFloat.ofInt 0) (CFloat.ofInt 1)).2.2.2.x = 50 ∧
        (hollow_line_corners 10 100 50 100 10 (CFloat.ofInt 0) (CFloat.ofInt 1)).2.2.2.y
          = (hollow_line_corners 10 100 50 100 10 (CFloat.ofInt 0) (CFloat.ofInt 1)).2.2.1.y ∧
        (100 : Int) ≤
          (hollow_line_corners 10 100 50 100 10 (CFloat.ofInt 0) (CFloat.ofInt 1)).2.2.1.y ∧
        (hollow_line_corners 10 100 50 100 10 (CFloat.ofInt 0) (CFloat.ofInt 1)).2.2.1.y
          ≤ 100 + Int.tdiv 10 2) :=
  ⟨by decide, by decide, by decide,
    hollow_line_corners_horizontal 10 50 100 10 (by decide) (by decide) (by decide)⟩

/-- C30: for the label 10 (`i = 9`) `draw_numerals` prints the two characters
"10" but counts one character, so with a glyph width of 8 the offset is 4 and
not 8; the labels 11 and 12 get 8 and the labels 1..9 get 4. -/
theorem draw_numerals_offset_of_ten :
    draw_numerals_label ⟨[], 8, 8⟩ 9 = ([49, 48], 1, 4) ∧
      draw_numerals_label ⟨[], 8, 8⟩ 10 = ([49, 49], 2, 8) ∧
      draw_numerals_label ⟨[], 8, 8⟩ 11 = ([49, 50], 2, 8) ∧
      (∀ i : Int, 0 ≤ i → i ≤ 9 → (draw_numerals_label ⟨[], 8, 8⟩ i).2.2 = 4) := by
  refine ⟨by decide, by decide, by decide, ?_⟩
  intro i h0 h9
  have hc : (if i > 9 then (2 : Int) else 1) = 1 := if_neg (by omega)
  show Int.tdiv ((if i > 9 then (2 : Int) else 1) * 8) 2 = 4
  rw [hc]
  decide

/-- C31 fails as stated: on a region 8388611 pixels wide and 3 high with
every byte 7, the end points `(8388609, 1)` and `(8388610, 1)` satisfy
`1 <= x0 < x1 < w`, `1 <= y` and `y + 1 < h`, but after
`region_draw_line_one_pixel` with colour `(200, 100, 50)` the pixel
`(8388609, 1)` still holds `(7, 7, 7)`: `rnd (8388609)` is 8388610, because
`8388609.5` is not a `float` and rounds to the even neighbour. -/
theorem draw_line_wide_region_counterexample :
    (Region.uniform 8388611 3 7).WellSized ∧
      ((1 : Int) ≤ 8388609 ∧ (8388609 : Int) < 8388610 ∧
        (8388610 : Int) < (Region.uniform 8388611 3 7).w ∧
        (1 : Int) + 1 < (Region.uniform 8388611 3 7).h) ∧
      (rnd (CFloat.ofIntSingle 8388609)).toInt = 8388610 ∧
      (region_draw_line_one_pixel (Region.uniform 8388611 3 7) 8388609 1 8388610 1
        200 100 50).pixel 8388609 1 = (7, 7, 7) := by
  have hs : (Region.uniform 8388611 3 7).WellSized :=
    Region.uniform_wellSized 8388611 3 7 (by decide) (by decide)
  refine ⟨hs, ⟨by decide, by decide, by decide, by decide⟩, by decide, ?_⟩
  obtain ⟨_, _, _, hp⟩ := draw_line_horizontal_rounded (Region.uniform 8388611 3 7) hs
    8388609 8388610 1 8388610 8388610 (by decide)
    (CFloat.isInt_ofIntSingle 8388609 (by decide)) ⟨by decide, by decide⟩ (by decide)
    (CFloat.isInt_ofIntSingle 8388610 (by decide)) ⟨by decide, by decide⟩ (by decide)
    (by decide) (by decide) (by decide) 200 100 50
  have hw : (Region.uniform 8388611 3 7).w = 8388611 := rfl
  have hh : (Region.uniform 8388611 3 7).h = 3 := rfl
  rw [hp 8388609 1 (by decide) (by rw [hw]; decide) (by decide) (by rw [hh]; decide)]
  rw [if_neg (by decide), if_neg (by decide)]
  exact Region.uniform_pixel 8388611 3 7 8388609 1 (by decide) (by decide) (by decide)
    (by decide)

/-- C31, as amended: on a region of size `w x h` whose buffer holds
`w * h * 3` bytes, for `1 <= x0 < x1 < w`, `1 <= y`, `y + 1 < h` and
`x1 < 2^23`, `y < 2^23`, after `region_draw_line_one_pixel` from `(x0, y)` to
`(x1, y)` every pixel `(x, y)` with `x0 <= x <= x1` holds `(r, g, b)`, every
pixel `(x, y + 1)` with `x0 <= x <= x1` holds `(0, 0, 0)` whatever it held
before, every other pixel is unchanged, and so is the size. -/
theorem draw_line_horizontal_inside (self : Region) (hs : self.WellSized)
    (x0 x1 y : Int) (r g b : BYTE) (hx0 : 1 ≤ x0) (hx : x0 < x1) (hx1 : x1 < self.w)
    (hy0 : 1 ≤ y) (hy1 : y + 1 < self.h) (hbx : x1 < 8388608) (hby : y < 8388608) :
    (region_draw_line_one_pixel self x0 y x1 y r g b).SameSize self ∧
      (∀ x : Int, x0 ≤ x → x ≤ x1 →
        (region_draw_line_one_pixel self x0 y x1 y r g b).pixel x y = (r, g, b)) ∧
      (∀ x : Int, x0 ≤ x → x ≤ x1 →
        (region_draw_line_one_pixel self x0 y x1 y r g b).pixel x (y + 1) = (0, 0, 0)) ∧
      ∀ x' y' : Int, 0 ≤ x' → x' < self.w → 0 ≤ y' → y' < self.h →
        ¬ (x0 ≤ x' ∧ x' ≤ x1 ∧ (y' = y ∨ y' = y + 1)) →
        (region_draw_line_one_pixel self x0 y x1 y r g b).pixel x' y' = self.pixel x' y' := by
  obtain ⟨kw, kh, kl, kp⟩ := draw_line_horizontal self hs x0 x1 y hx (by omega) hbx
    (by omega) hby r g b
  refine ⟨⟨kw, kh, kl⟩, ?_, ?_, ?_⟩
  · intro x h1 h2
    rw [kp x y (by omega) (by omega) (by omega) (by omega), if_neg (by omega),
      if_pos (by omega)]
  · intro x h1 h2
    rw [kp x (y + 1) (by omega) (by omega) (by omega) (by omega), if_pos (by omega)]
  · intro x' y' h1 h2 h3 h4 hn
    rw [kp x' y' h1 h2 h3 h4, if_neg (by omega), if_neg (by omega)]

/-- Witness of the amended C31 on a 6 x 4 region with the line from `(1, 1)`
to `(4, 1)`. -/
theorem draw_line_horizontal_inside_witness :
    (Region.uniform 6 4 7).WellSized ∧
      (region_draw_line_one_pixel (Region.uniform 6 4 7) 1 1 4 1 200 100 50).pixel 1 1
        = (200, 100, 50) ∧
      (region_draw_line_one_pixel (Region.uniform 6 4 7) 1 1 4 1 200 100 50).pixel 4 (1 + 1)
        = (0, 0, 0) ∧
      (region_draw_line_one_pixel (Region.uniform 6 4 7) 1 1 4 1 200 100 50).pixel 5 1
        = (Region.uniform 6 4 7).pixel 5 1 :=
  ⟨by decide,
    (draw_line_horizontal_inside (Region.uniform 6 4 7) (by decide) 1 4 1 200 100 50
      (by decide) (by decide) (by decide) (by decide) (by decide) (by decide)
      (by decide)).2.1 1 (by decide) (by decide),
    (draw_line_horizontal_inside (Region.uniform 6 4 7) (by decide) 1 4 1 200 100 50
      (by decide) (by decide) (by decide) (by decide) (by decide) (by decide)
      (by decide)).2.2.1 4 (by decide) (by decide),
    (draw_line_horizontal_inside (Region.uniform 6 4 7) (by decide) 1 4 1 200 100 50
      (by decide) (by decide) (by decide) (by decide) (by decide) (by decide)
      (by decide)).2.2.2 5 1 (by decide) (by decide) (by decide) (by decide) (by decide)⟩

/-- C32: `region_draw_line_one_pixel` gives the same region for the two
orders of the end points, for every region, colour and integer
coordinates. -/
theorem region_draw_line_one_pixel_symmetric (self : Region) (x0 y0 x1 y1 : Int)
    (r g b : BYTE) :
    region_draw_line_one_pixel self x0 y0 x1 y1 r g b
      = region_draw_line_one_pixel self x1 y1 x0 y0 r g b := by
  unfold region_draw_line_one_pixel
  rw [line_endpoints_symm x0 y0 x1 y1]

/-- C33 fails as stated: for the end points `(0, 0)` and
`(16777216, 16777217)` the line is not found steep, because
`absolute (16777217)` is `16777216.0` as a `float`; the end points stay as
they are, and `|y1 - y0| = 16777217` exceeds `x1 - x0 = 16777216`. -/
theorem line_endpoints_rounding_counterexample :
    line_endpoints 0 0 16777216 16777217 = (false, 0, 0, 16777216, 16777217) ∧
      ¬ ((((line_endpoints 0 0 16777216 16777217).2.2.2.2
            - (line_endpoints 0 0 16777216 16777217).2.2.1).natAbs : Int)
          ≤ (line_endpoints 0 0 16777216 16777217).2.2.2.1
            - (line_endpoints 0 0 16777216 16777217).2.1) := by
  decide

/-- C33, as amended: for all integer end points, the end points
`(a0, b0)`, `(a1, b1)` that `region_draw_line_one_pixel` works with after the
transposition and the ordering satisfy `a0 <= a1`; `|b1 - b0| <= a1 - a0`
holds whenever `|x1 - x0|` and `|y1 - y0|` are below `2^24`, where the
conversion to `float` is exact; `dx` is zero exactly when the given end
points coincide, the fall-back `gradient = 1` is taken exactly then, and
otherwise the gradient is the quotient of `dy` by `dx`; in both cases it
is a well-formed value of magnitude at most 1. -/
theorem line_endpoints_ordered (x0 y0 x1 y1 : Int) (s : Bool) (a0 b0 a1 b1 : Int)
    (he : line_endpoints x0 y0 x1 y1 = (s, a0, b0, a1, b1)) :
    a0 ≤ a1 ∧
      ((x1 - x0).natAbs < 2 ^ 24 → (y1 - y0).natAbs < 2 ^ 24 →
        ((b1 - b0).natAbs : Int) ≤ a1 - a0) ∧
      (a1 - a0 = 0 ↔ (x0 = x1 ∧ y0 = y1)) ∧
      ((CFloat.ofIntSingle (a1 - a0)).isZero = true ↔ (x0 = x1 ∧ y0 = y1)) ∧
      line_gradient a0 b0 a1 b1
        = (if x0 = x1 ∧ y0 = y1 then CFloat.ofIntSingle 1
          else (CFloat.ofIntSingle (b1 - b0) / CFloat.ofIntSingle (a1 - a0)).single) ∧
      0 < (line_gradient a0 b0 a1 b1).den ∧
      (line_gradient a0 b0 a1 b1).num.natAbs ≤ (line_gradient a0 b0 a1 b1).den := by
  obtain ⟨hle, hns, harr⟩ := line_endpoints_spec x0 y0 x1 y1 s a0 b0 a1 b1 he
  have hns2 : ¬ ((absolute (CFloat.ofIntSingle (a1 - a0))).lt
      (absolute (CFloat.ofIntSingle (b1 - b0))) = true) := by
    rw [hns]
    decide
  rw [steep_iff] at hns2
  -- the given end points coincide exactly when `a1 = a0`
  have hco : a1 - a0 = 0 ↔ (x0 = x1 ∧ y0 = y1) := by
    constructor
    · intro h0
      rw [h0] at hns
      have hb := steep_zero_left (b1 - b0) hns
      rcases harr with ⟨_, h | h⟩ | ⟨_, h | h⟩ <;>
        · simp only [Prod.mk.injEq] at h
          omega
    · intro hc
      rcases harr with ⟨_, h | h⟩ | ⟨_, h | h⟩ <;>
        · simp only [Prod.mk.injEq] at h
          omega
  have hzero : (CFloat.ofIntSingle (a1 - a0)).isZero = true ↔ (x0 = x1 ∧ y0 = y1) := by
    unfold CFloat.isZero
    rw [decide_eq_true_iff, ofIntSingle_num_eq_zero]
    exact hco
  have hgrad : line_gradient a0 b0 a1 b1
      = (if x0 = x1 ∧ y0 = y1 then CFloat.ofIntSingle 1
        else (CFloat.ofIntSingle (b1 - b0) / CFloat.ofIntSingle (a1 - a0)).single) := by
    unfold line_gradient
    simp only []
    by_cases hc : x0 = x1 ∧ y0 = y1
    · rw [if_pos (hzero.mpr hc), if_pos hc]
    · have hz : ¬ ((CFloat.ofIntSingle (a1 - a0)).isZero = true) := fun h => hc (hzero.mp h)
      rw [if_neg hz, if_neg hc]
  refine ⟨hle, ?_, hco, hzero, hgrad, ?_⟩
  · intro hbx hby
    have hba : (a1 - a0).natAbs < 2 ^ 24 := by
      rcases harr with ⟨_, h | h⟩ | ⟨_, h | h⟩ <;>
        · simp only [Prod.mk.injEq] at h
          omega
    have hbb : (b1 - b0).natAbs < 2 ^ 24 := by
      rcases harr with ⟨_, h | h⟩ | ⟨_, h | h⟩ <;>
        · simp only [Prod.mk.injEq] at h
          omega
    obtain ⟨hda, hna⟩ := CFloat.isInt_ofIntSingle (a1 - a0) hba
    obtain ⟨hdb, hnb⟩ := CFloat.isInt_ofIntSingle (b1 - b0) hbb
    rw [hna, hnb, Int.natAbs_mul, Int.natAbs_mul, Int.natAbs_ofNat, Int.natAbs_ofNat] at hns2
    have hpos : (0 : Int) < ((CFloat.ofIntSingle (a1 - a0)).den : Int)
        * ((CFloat.ofIntSingle (b1 - b0)).den : Int) :=
      Int.mul_pos (by exact_mod_cast hda) (by exact_mod_cast hdb)
    have hmul : ((b1 - b0).natAbs : Int) * (((CFloat.ofIntSingle (a1 - a0)).den : Int)
          * ((CFloat.ofIntSingle (b1 - b0)).den : Int))
        ≤ ((a1 - a0).natAbs : Int) * (((CFloat.ofIntSingle (a1 - a0)).den : Int)
          * ((CFloat.ofIntSingle (b1 - b0)).den : Int)) := by
      push_cast at hns2
      have e1 : (((b1 - b0).natAbs : Int) * ((CFloat.ofIntSingle (b1 - b0)).den : Int))
            * ((CFloat.ofIntSingle (a1 - a0)).den : Int)
          = ((b1 - b0).natAbs : Int) * (((CFloat.ofIntSingle (a1 - a0)).den : Int)
            * ((CFloat.ofIntSingle (b1 - b0)).den : Int)) := by ring
      have e2 : (((a1 - a0).natAbs : Int) * ((CFloat.ofIntSingle (a1 - a0)).den : Int))
            * ((CFloat.ofIntSingle (b1 - b0)).den : Int)
          = ((a1 - a0).natAbs : Int) * (((CFloat.ofIntSingle (a1 - a0)).den : Int)
            * ((CFloat.ofIntSingle (b1 - b0)).den : Int)) := by ring
      simp only [Int.natCast_natAbs] at hns2 e1 e2 ⊢
      rw [← e1, ← e2]
      omega
    have := Int.le_of_mul_le_mul_right hmul hpos
    omega
  · by_cases hc : x0 = x1 ∧ y0 = y1
    · rw [hgrad, if_pos hc]
      exact ⟨by decide, by decide⟩
    · rw [hgrad, if_neg hc]
      have hda := ofIntSingle_den_pos (a1 - a0)
      have hdb := ofIntSingle_den_pos (b1 - b0)
      have hnz : (CFloat.ofIntSingle (a1 - a0)).num ≠ 0 := by
        intro h0
        exact hc (hco.mp ((ofIntSingle_num_eq_zero _).mp h0))
      have hqd : 0 < (CFloat.ofIntSingle (b1 - b0) / CFloat.ofIntSingle (a1 - a0)).den := by
        rw [CFloat.div_den]
        exact Nat.mul_pos hdb (Int.natAbs_pos.mpr hnz)
      refine ⟨CFloat.single_den_pos _ hqd, ?_⟩
      apply CFloat.single_le_one _ hqd
      rw [CFloat.div_num, CFloat.div_den, Int.natAbs_mul, Int.natAbs_mul,
        Int.natAbs_sign_of_nonzero hnz, Nat.mul_one, Int.natAbs_ofNat]
      have h3 : ((CFloat.ofIntSingle (b1 - b0)).num.natAbs : Int)
            * ((CFloat.ofIntSingle (a1 - a0)).den : Int)
          ≤ ((CFloat.ofIntSingle (a1 - a0)).num.natAbs : Int)
            * ((CFloat.ofIntSingle (b1 - b0)).den : Int) := by omega
      have h4 : (CFloat.ofIntSingle (b1 - b0)).num.natAbs * (CFloat.ofIntSingle (a1 - a0)).den
          ≤ (CFloat.ofIntSingle (a1 - a0)).num.natAbs * (CFloat.ofIntSingle (b1 - b0)).den := by
        exact_mod_cast h3
      rw [Nat.mul_comm (CFloat.ofIntSingle (b1 - b0)).den]
      exact h4

/-- Witness of the amended C33 on the steep line from `(3, 1)` to `(0, 9)`:
the axes are exchanged, the end points are `(1, 3)` and `(9, 0)`, and
`|0 - 3| <= 9 - 1`. -/
theorem line_endpoints_ordered_witness :
    line_endpoints 3 1 0 9 = (true, 1, 3, 9, 0) ∧ (1 : Int) ≤ 9 ∧
      (((0 - 3 : Int).natAbs : Int) ≤ 9 - 1) ∧
      (line_gradient 1 3 9 0).num.natAbs ≤ (line_gradient 1 3 9 0).den :=
  ⟨by decide, (line_endpoints_ordered 3 1 0 9 true 1 3 9 0 (by decide)).1,
    (line_endpoints_ordered 3 1 0 9 true 1 3 9 0 (by decide)).2.1 (by decide) (by decide),
    (line_endpoints_ordered 3 1 0 9 true 1 3 9 0 (by decide)).2.2.2.2.2.2⟩

/-- C34: on a region whose buffer holds `w * h * 3` bytes, whenever the
bounds test of `region_set_pixel` or of `region_set_pixel_t` passes, the
three bytes at `(y * w + x) * 3 .. + 2` lie inside the buffer; and
`region_set_pixel`, `region_set_pixel_t`, `region_fill_rect`,
`region_draw_bitmap_char`, `region_draw_bitmap_text`,
`region_draw_line_one_pixel` and `region_draw_hollow_line` keep the width,
the height and the buffer length, for all integer arguments. -/
theorem region_writes_stay_inside (self : Region) (hs : self.WellSized) :
    (∀ x y : Int, x ≥ 0 ∧ x < self.w ∧ y ≥ 0 ∧ y < self.h →
        0 ≤ (y * self.w + x) * BPP ∧
          (y * self.w + x) * BPP + 2 < (self.data.length : Int)) ∧
      (∀ x y : Int, x > 0 ∧ x < self.w ∧ y > 0 ∧ y < self.h →
        0 ≤ (y * self.w + x) * BPP ∧
          (y * self.w + x) * BPP + 2 < (self.data.length : Int)) ∧
      (∀ (x y : Int) (r g b : BYTE), (region_set_pixel self x y r g b).SameSize self) ∧
      (∀ (x y : Int) (r g b : BYTE) (t : CFloat),
        (region_set_pixel_t self x y r g b t).SameSize self) ∧
      (∀ (x1 y1 x2 y2 : Int) (r g b : BYTE),
        (region_fill_rect self x1 y1 x2 y2 r g b).SameSize self) ∧
      (∀ (bf : BitmapFont) (c x y r g b : Int),
        (region_draw_bitmap_char self bf c x y r g b).SameSize self) ∧
      (∀ (bf : BitmapFont) (text : List Int) (x y r g b : Int),
        (region_draw_bitmap_text self bf text x y r g b).SameSize self) ∧
      (∀ (x0 y0 x1 y1 : Int) (r g b : BYTE),
        (region_draw_line_one_pixel self x0 y0 x1 y1 r g b).SameSize self) ∧
      (∀ (x1 y1 x2 y2 t : Int) (r g b : BYTE) (cosq sinq : CFloat),
        (region_draw_hollow_line self x1 y1 x2 y2 t r g b cosq sinq).SameSize self) := by
  have hB : BPP = 3 := rfl
  unfold Region.WellSized at hs
  refine ⟨?_, ?_, ?_, ?_, ?_, ?_, ?_, ?_, ?_⟩
  · intro x y hg
    rw [hs, hB]
    exact index24_in_range self.w self.h x y (by omega) (by omega) (by omega) (by omega)
  · intro x y hg
    rw [hs, hB]
    exact index24_in_range self.w self.h x y (by omega) (by omega) (by omega) (by omega)
  · exact fun x y r g b => region_set_pixel_sameSize self x y r g b
  · exact fun x y r g b t => region_set_pixel_t_sameSize self x y r g b t
  · exact fun x1 y1 x2 y2 r g b => region_fill_rect_sameSize self x1 y1 x2 y2 r g b
  · exact fun bf c x y r g b => region_draw_bitmap_char_sameSize self bf c x y r g b
  · exact fun bf text x y r g b => region_draw_bitmap_text_sameSize self bf text x y r g b
  · exact fun x0 y0 x1 y1 r g b => region_draw_line_one_pixel_sameSize self x0 y0 x1 y1 r g b
  · exact fun x1 y1 x2 y2 t r g b cosq sinq =>
      region_draw_hollow_line_sameSize self x1 y1 x2 y2 t r g b cosq sinq

/-- Witness of C34 on a 2 x 2 region: the pixel `(1, 1)` passes both bounds
tests and its last byte, at index 11, lies inside the 12 bytes of the
buffer. -/
theorem region_writes_stay_inside_witness :
    (Region.uniform 2 2 7).WellSized ∧
      ((0 : Int) ≤ (1 * (Region.uniform 2 2 7).w + 1) * BPP ∧
        (1 * (Region.uniform 2 2 7).w + 1) * BPP + 2
          < ((Region.uniform 2 2 7).data.length : Int)) ∧
      (region_draw_line_one_pixel (Region.uniform 2 2 7) (-5) 3 9 (-4) 1 2 3).SameSize
        (Region.uniform 2 2 7) :=
  ⟨by decide,
    (region_writes_stay_inside (Region.uniform 2 2 7) (by decide)).2.1 1 1
      ⟨by decide, by decide, by decide, by decide⟩,
    (region_writes_stay_inside (Region.uniform 2 2 7) (by decide)).2.2.2.2.2.2.2.1
      (-5) 3 9 (-4) 1 2 3⟩

/-- C35: `region_to_fb` with the log of its accesses computes the device
memory that `region_to_fb` computes, and when `0 <= x1`, `0 <= y1`,
`x1 + w <= W` and `y1 + h <= H` for a region of size `w x h` and a device of
size `W x H`, every load from the region is at an index in
`0 .. w * h * 3 - 1` and every store into the device at an index in
`0 .. W * H * 4 - 1`. -/
theorem region_to_fb_accesses_in_range (self : Region) (fb : FrameBuffer) (x1 y1 : Int)
    (data : List BYTE) (hx : 0 ≤ x1) (hy : 0 ≤ y1) (hw : x1 + self.w ≤ fb.w)
    (hh : y1 + self.h ≤ fb.h) :
    (region_to_fb self fb x1 y1).fb_data
        = fb.fb_data.map (fun d => (region_to_fb_log self fb x1 y1 d).1) ∧
      ∀ a ∈ (region_to_fb_log self fb x1 y1 data).2,
        a.InRange (self.w * self.h * 3) (fb.w * fb.h * 4) := by
  constructor
  · unfold region_to_fb region_to_fb_log framebuffer_get_data
    simp only []
    congr 1
    funext d
    symm
    refine forLoop_sim 0 self.h _ _
      (fun (s : List BYTE × List Access) (t : List BYTE) => s.1 = t) ?_ (d, []) d rfl
    intro y s t hst
    refine forLoop_sim 0 self.w _ _
      (fun (s : List BYTE × List Access) (t : List BYTE) => s.1 = t) ?_ s t hst
    intro x s t hst
    simp only []
    rw [hst]
  · unfold region_to_fb_log framebuffer_get_width
    simp only []
    refine forLoop_preserves 0 self.h _
      (fun (st : List BYTE × List Access) =>
        ∀ a ∈ st.2, a.InRange (self.w * self.h * 3) (fb.w * fb.h * 4)) ?_ (data, []) ?_
    · intro y st hy0 hy1 hst
      refine forLoop_preserves 0 self.w _
        (fun (st : List BYTE × List Access) =>
          ∀ a ∈ st.2, a.InRange (self.w * self.h * 3) (fb.w * fb.h * 4)) ?_ st hst
      intro x st hx0 hx1 hst a ha
      have hB : BPP = 3 := rfl
      obtain ⟨i0, i1⟩ := index24_in_range self.w self.h x y hx0 hx1 hy0 hy1
      obtain ⟨j0, j1⟩ := index32_in_range fb.w fb.h (x + x1) (y + y1) (by omega) (by omega)
        (by omega) (by omega)
      have e : ((y + y1) * fb.w + x + x1) * 4 = ((y + y1) * fb.w + (x + x1)) * 4 := by ring
      simp only [List.mem_append, List.mem_cons, List.mem_singleton, List.not_mem_nil,
        or_false] at ha
      rcases ha with ha | ha | ha | ha | ha | ha | ha
      · exact hst a ha
      all_goals
        rw [ha]
        simp only [Access.InRange, hB, e]
        omega
    · intro a ha
      simp at ha

/-- Witness of C35 on a 1 x 1 region blitted at `(1, 1)` of a 2 x 2 device:
the accesses are the loads at 0, 1, 2 and the stores at 12, 13, 14. -/
theorem region_to_fb_accesses_in_range_witness :
    (region_to_fb_log (Region.uniform 1 1 7) ⟨3, 2, 2, 16, some (List.replicate 16 0), "fb"⟩
        1 1 (List.replicate 16 0)).2
        = [Access.read 0, Access.read 1, Access.read 2, Access.write 12, Access.write 13,
          Access.write 14] ∧
      ∀ a ∈ (region_to_fb_log (Region.uniform 1 1 7)
          ⟨3, 2, 2, 16, some (List.replicate 16 0), "fb"⟩ 1 1 (List.replicate 16 0)).2,
        a.InRange ((Region.uniform 1 1 7).w * (Region.uniform 1 1 7).h * 3) (2 * 2 * 4) :=
  ⟨by decide,
    (region_to_fb_accesses_in_range (Region.uniform 1 1 7)
      ⟨3, 2, 2, 16, some (List.replicate 16 0), "fb"⟩ 1 1 (List.replicate 16 0)
      (by decide) (by decide) (by decide) (by decide)).2⟩

/-- C36: for a font of width `W > 0` and height `H > 0` whose table holds
`95 * H * ceil (W / 8)` bytes, `region_draw_bitmap_char` with the log of the
table indices it reads draws what `region_draw_bitmap_char` draws, and every
index it reads lies inside the table, for every character and every
position. -/
theorem region_draw_bitmap_char_reads_in_range (self : Region) (bf : BitmapFont)
    (c x y r g b : Int) (hW : 0 < bf.width) (hH : 0 < bf.height)
    (hlen : (bf.table.length : Int) = 95 * bf.height * ((bf.width + 7) / 8)) :
    (region_draw_bitmap_char_log self bf c x y r g b).1
        = region_draw_bitmap_char self bf c x y r g b ∧
      ∀ i ∈ (region_draw_bitmap_char_log self bf c x y r g b).2,
        0 ≤ i ∧ i < (bf.table.length : Int) := by
  have hstride : glyph_stride bf = (bf.width + 7) / 8 := glyph_stride_eq bf (by omega)
  have hs1 : 1 ≤ glyph_stride bf := by
    rw [hstride]
    omega
  unfold region_draw_bitmap_char_log region_draw_bitmap_char
  by_cases hg : x < self.w ∧ y < self.h
  · rw [if_pos hg, if_pos hg]
    simp only []
    -- the character after the substitution of '?'
    obtain ⟨c', hc', hc0, hc1⟩ : ∃ c' : Int, (if c < 32 ∨ c > 126 then 63 else c) = c' ∧
        32 ≤ c' ∧ c' ≤ 126 := by
      refine ⟨_, rfl, ?_, ?_⟩ <;> split_ifs <;> omega
    rw [hc']
    constructor
    · -- the region is the one of the loop without the log
      have key := forLoop_sim 0 bf.height (bitmap_char_page_log bf x y r g b)
        (bitmap_char_page bf x y r g b)
        (fun (s : (Region × Int) × List Int) (t : Region × Int) => s.1 = t)
        (by
          intro page s t hst
          unfold bitmap_char_page_log bitmap_char_page
          have hcol := forLoop_sim 0 bf.width (bitmap_char_column_log bf x y r g b page)
            (bitmap_char_column bf x y r g b page)
            (fun (s : (Region × Int) × List Int) (t : Region × Int) => s.1 = t)
            (by
              intro column s t hst
              unfold bitmap_char_column_log
              simp only []
              rw [hst])
            s t hst
          simp only [] at hcol ⊢
          split_ifs
          · rw [← hcol]
          · exact hcol)
        ((self, (c' - 32) * bf.height * glyph_stride bf), [])
        (self, (c' - 32) * bf.height * glyph_stride bf) rfl
      simp only [] at key
      rw [key]
    · -- the indices read
      have hbound : ∀ p q : Int, 0 ≤ p → p < bf.height → 0 ≤ q → q < bf.width →
          0 ≤ (c' - 32) * bf.height * glyph_stride bf + p * glyph_stride bf + q / 8 ∧
            (c' - 32) * bf.height * glyph_stride bf + p * glyph_stride bf + q / 8
              < (bf.table.length : Int) := by
        intro p q hp0 hp1 hq0 hq1
        rw [hlen, ← hstride]
        have hq8 : q / 8 < glyph_stride bf := by
          rw [hstride]
          omega
        have hHS : 0 ≤ bf.height * glyph_stride bf := Int.mul_nonneg (by omega) (by omega)
        have h1 : 0 ≤ (c' - 32) * (bf.height * glyph_stride bf) :=
          Int.mul_nonneg (by omega) hHS
        have h2 : (c' - 32) * (bf.height * glyph_stride bf)
            ≤ 94 * (bf.height * glyph_stride bf) :=
          Int.mul_le_mul_of_nonneg_right (by omega) hHS
        have h3 : 0 ≤ p * glyph_stride bf := Int.mul_nonneg hp0 (by omega)
        have h4 : (p + 1) * glyph_stride bf ≤ bf.height * glyph_stride bf :=
          Int.mul_le_mul_of_nonneg_right (by omega) (by omega)
        have e1 : (c' - 32) * bf.height * glyph_stride bf
            = (c' - 32) * (bf.height * glyph_stride bf) := by ring
        have e2 : (p + 1) * glyph_stride bf = p * glyph_stride bf + glyph_stride bf := by ring
        have e3 : 95 * bf.height * glyph_stride bf = 95 * (bf.height * glyph_stride bf) := by
          ring
        have hq80 : 0 ≤ q / 8 := by omega
        rw [e1, e3]
        constructor <;> omega
      have key := forLoop_invariant 0 bf.height (bitmap_char_page_log bf x y r g b)
        (fun p (st : (Region × Int) × List Int) =>
          st.1.2 = (c' - 32) * bf.height * glyph_stride bf + p * glyph_stride bf ∧
            ∀ i ∈ st.2, 0 ≤ i ∧ i < (bf.table.length : Int))
        (by omega)
        (by
          intro p st hp0 hp1 hst
          obtain ⟨hptr, hin⟩ := hst
          have hcol := forLoop_invariant 0 bf.width (bitmap_char_column_log bf x y r g b p)
            (fun q (st : (Region × Int) × List Int) =>
              st.1.2 = (c' - 32) * bf.height * glyph_stride bf + p * glyph_stride bf + q / 8 ∧
                ∀ i ∈ st.2, 0 ≤ i ∧ i < (bf.table.length : Int))
            (by omega)
            (by
              intro q st hq0 hq1 hst
              obtain ⟨hptr, hin⟩ := hst
              have hmod : Int.tmod q 8 = q % 8 := Int.tmod_eq_emod hq0 (by omega)
              constructor
              · show (bitmap_char_column bf x y r g b p q st.1).2 = _
                unfold bitmap_char_column
                simp only []
                rw [hmod, hptr]
                split_ifs <;> omega
              · intro i hi
                unfold bitmap_char_column_log at hi
                simp only [List.mem_append, List.mem_singleton] at hi
                rcases hi with hi | hi
                · exact hin i hi
                · rw [hi, hptr]
                  exact hbound p q hp0 hp1 hq0 hq1)
            st
            (by
              refine ⟨?_, hin⟩
              rw [hptr]
              omega)
          obtain ⟨cptr, cin⟩ := hcol
          have htd : Int.tdiv bf.width 8 = bf.width / 8 :=
            Int.tdiv_eq_ediv (by omega) (by omega)
          have htm : Int.tmod bf.width 8 = bf.width % 8 :=
            Int.tmod_eq_emod (by omega) (by omega)
          have hst8 : glyph_stride bf
              = bf.width / 8 + (if bf.width % 8 ≠ 0 then 1 else 0) := by
            unfold glyph_stride
            rw [htd, htm]
          unfold bitmap_char_page_log
          simp only []
          rw [htm]
          by_cases h8 : bf.width % 8 ≠ 0
          · rw [if_pos h8]
            rw [if_pos h8] at hst8
            refine ⟨?_, cin⟩
            show (forLoop 0 bf.width (bitmap_char_column_log bf x y r g b p) st).1.2 + 1 = _
            rw [cptr]
            have e : (p + 1) * glyph_stride bf = p * glyph_stride bf + glyph_stride bf := by
              ring
            omega
          · rw [if_neg h8]
            rw [if_neg h8] at hst8
            refine ⟨?_, cin⟩
            rw [cptr]
            have e : (p + 1) * glyph_stride bf = p * glyph_stride bf + glyph_stride bf := by
              ring
            omega)
        ((self, (c' - 32) * bf.height * glyph_stride bf), [])
        (by
          refine ⟨?_, ?_⟩
          · show (c' - 32) * bf.height * glyph_stride bf = _
            omega
          · intro i hi
            simp at hi)
      exact key.2
  · rw [if_neg hg, if_neg hg]
    refine ⟨rfl, ?_⟩
    intro i hi
    simp at hi

set_option maxRecDepth 100000 in
/-- Witness of C36 on a font of width 9 and height 2, two bytes per glyph
row, with the character `'~'`, the last of the table: the indices read are
376, 376, ..., 377, 378, ..., 379, all below the 380 bytes of the table. -/
theorem region_draw_bitmap_char_reads_in_range_witness :
    ((List.replicate 380 (0xA5 : BYTE)).length : Int) = 95 * 2 * ((9 + 7) / 8) ∧
      (region_draw_bitmap_char_log (Region.uniform 10 4 0) ⟨List.replicate 380 0xA5, 9, 2⟩
        126 0 0 255 255 255).2
        = [376, 376, 376, 376, 376, 376, 376, 376, 377,
            378, 378, 378, 378, 378, 378, 378, 378, 379] ∧
      ∀ i ∈ (region_draw_bitmap_char_log (Region.uniform 10 4 0)
          ⟨List.replicate 380 0xA5, 9, 2⟩ 126 0 0 255 255 255).2,
        0 ≤ i ∧ i < ((List.replicate 380 (0xA5 : BYTE)).length : Int) :=
  ⟨by decide, by decide,
    (region_draw_bitmap_char_reads_in_range (Region.uniform 10 4 0)
      ⟨List.replicate 380 0xA5, 9, 2⟩ 126 0 0 255 255 255 (by decide) (by decide)
      (by decide)).2⟩

/-- C37: on a mapped device of size `W x H` whose memory holds `W * H * 4`
bytes, with `0 <= x1`, `0 <= y1`, `x1 + w <= W` and `y1 + h <= H` for a
region of size `w x h`, `region_to_fb` leaves the device mapped with the same
geometry and memory size, and for every device pixel `(X, Y)` outside the
window `[x1, x1 + w) x [y1, y1 + h)` each of its four bytes is as before the
call.  The region is an input only: the function has no store into it. -/
theorem region_to_fb_outside_window (self : Region) (fb : FrameBuffer) (d : List BYTE)
    (x1 y1 : Int) (hmap : fb.fb_data = some d)
    (hlen : (d.length : Int) = fb.w * fb.h * 4) (hx : 0 ≤ x1) (hy : 0 ≤ y1)
    (hw : x1 + self.w ≤ fb.w) (hh : y1 + self.h ≤ fb.h) :
    (region_to_fb self fb x1 y1).w = fb.w ∧ (region_to_fb self fb x1 y1).h = fb.h ∧
      (region_to_fb self fb x1 y1).fd = fb.fd ∧
      (region_to_fb self fb x1 y1).fb_data_size = fb.fb_data_size ∧
      (region_to_fb self fb x1 y1).fb_data.isSome = true ∧
      (region_to_fb self fb x1 y1).mem.length = d.length ∧
      ∀ X Y k : Int, 0 ≤ X → X < fb.w → 0 ≤ Y → Y < fb.h → 0 ≤ k → k < 4 →
        ¬ (x1 ≤ X ∧ X < x1 + self.w ∧ y1 ≤ Y ∧ Y < y1 + self.h) →
        (region_to_fb self fb x1 y1).mem[((Y * fb.w + X) * 4 + k).toNat]?
          = d[((Y * fb.w + X) * 4 + k).toNat]? := by
  obtain ⟨d', hd', hw', hh', hlen', _, hframe⟩ :=
    region_to_fb_bytes self fb d x1 y1 hmap hlen hx hy hw hh
  have hmem : (region_to_fb self fb x1 y1).mem = d' := by
    unfold FrameBuffer.mem
    rw [hd']
    rfl
  refine ⟨hw', hh', rfl, rfl, by rw [hd']; rfl, by rw [hmem]; exact hlen', ?_⟩
  intro X Y k hX0 hX1 hY0 _ hk0 hk1 hout
  rw [hmem]
  exact hframe X Y k hX0 hX1 hY0 hk0 hk1 (by omega)

/-- Witness of C37 on a 2 x 2 device with a 1 x 1 region blitted at
`(1, 1)`: the pad byte aside, the bytes of the pixels `(0, 0)`, `(1, 0)` and
`(0, 1)` stay, here byte 2 of pixel `(1, 0)`. -/
theorem region_to_fb_outside_window_witness :
    ((List.replicate 16 (9 : BYTE)).length : Int) = 2 * 2 * 4 ∧
      (region_to_fb (Region.uniform 1 1 7) ⟨3, 2, 2, 16, some (List.replicate 16 9), "fb"⟩
        1 1).mem[((0 * 2 + 1) * 4 + 2 : Int).toNat]?
        = (List.replicate 16 (9 : BYTE))[((0 * 2 + 1) * 4 + 2 : Int).toNat]? :=
  ⟨by decide,
    (region_to_fb_outside_window (Region.uniform 1 1 7)
      ⟨3, 2, 2, 16, some (List.replicate 16 9), "fb"⟩ (List.replicate 16 9) 1 1 rfl
      (by decide) (by decide) (by decide) (by decide) (by decide)).2.2.2.2.2.2 1 0 2
      (by decide) (by decide) (by decide) (by decide) (by decide) (by decide) (by decide)⟩

/-- C38: on a device that is mapped and open, `framebuffer_deinit` calls
`munmap` and then `close`, in this order and once each, and leaves
`fb_data = NULL` and `fd = -1`; a further `framebuffer_deinit` or
`framebuffer_destroy` on the result makes no system call and changes
nothing, so that the end of `program_run` (`framebuffer_deinit` followed by
`framebuffer_destroy`) releases the mapping once. -/
theorem framebuffer_deinit_idempotent (self : FrameBuffer) (d : List BYTE)
    (log : List Syscall) (hmap : self.fb_data = some d) (hfd : self.fd ≠ -1) :
    (framebuffer_deinit self log).2
        = log ++ [Syscall.munmap self.fb_data_size, Syscall.close self.fd] ∧
      (framebuffer_deinit self log).1.fb_data = none ∧
      (framebuffer_deinit self log).1.fd = -1 ∧
      (∀ log2 : List Syscall,
        framebuffer_deinit (framebuffer_deinit self log).1 log2
          = ((framebuffer_deinit self log).1, log2)) ∧
      (∀ log2 : List Syscall,
        framebuffer_destroy (framebuffer_deinit self log).1 log2 = log2) ∧
      program_run_teardown self log
        = log ++ [Syscall.munmap self.fb_data_size, Syscall.close self.fd] := by
  have h1 : framebuffer_deinit self log
      = ({ self with fb_data := none, fd := -1 },
          log ++ [Syscall.munmap self.fb_data_size, Syscall.close self.fd]) := by
    unfold framebuffer_deinit
    simp only [hmap, Option.isSome_some, if_true, ne_eq, hfd, not_false_eq_true,
      List.append_assoc, List.singleton_append]
  have h2 : ∀ log2 : List Syscall,
      framebuffer_deinit { self with fb_data := none, fd := -1 } log2
        = ({ self with fb_data := none, fd := -1 }, log2) := by
    intro log2
    unfold framebuffer_deinit
    simp
  refine ⟨by rw [h1], by rw [h1], by rw [h1], ?_, ?_, ?_⟩
  · intro log2
    rw [h1]
    exact h2 log2
  · intro log2
    unfold framebuffer_destroy
    rw [h1]
    show (framebuffer_deinit { self with fb_data := none, fd := -1 } log2).2 = log2
    rw [h2 log2]
  · unfold program_run_teardown framebuffer_destroy
    rw [h1]
    show (framebuffer_deinit { self with fb_data := none, fd := -1 } _).2 = _
    rw [h2]

/-- Witness of C38 on the device that `framebuffer_init` leaves behind for a
2 x 2 device at 32 bpp with descriptor 3. -/
theorem framebuffer_deinit_idempotent_witness :
    (framebuffer_init (framebuffer_create "/dev/fb0")
        (some ⟨3, 2, 2, 32, List.replicate 16 0⟩)).2.1.fb_data = some (List.replicate 16 0) ∧
      (framebuffer_init (framebuffer_create "/dev/fb0")
        (some ⟨3, 2, 2, 32, List.replicate 16 0⟩)).2.1.fd ≠ -1 ∧
      program_run_teardown (framebuffer_init (framebuffer_create "/dev/fb0")
        (some ⟨3, 2, 2, 32, List.replicate 16 0⟩)).2.1 []
        = [Syscall.munmap 16, Syscall.close 3] :=
  ⟨by decide, by decide,
    (framebuffer_deinit_idempotent
      (framebuffer_init (framebuffer_create "/dev/fb0")
        (some ⟨3, 2, 2, 32, List.replicate 16 0⟩)).2.1
      (List.replicate 16 0) [] (by decide) (by decide)).2.2.2.2.2⟩

/-- C39 fails: in a list that holds "log-level" before "width",
`props_put ("width", "200")` removes the first pair, "log-level", so
`props_get ("log-level")` returns "1" before the call and `NULL` after it,
although "log-level" is not the name that was put. -/
theorem props_put_loses_other_key :
    props_get ⟨[("log-level", "1"), ("width", "100")]⟩ "log-level" = some "1" ∧
      props_put ⟨[("log-level", "1"), ("width", "100")]⟩ "width" "200"
        = ⟨[("width", "100"), ("width", "200")]⟩ ∧
      props_get (props_put ⟨[("log-level", "1"), ("width", "100")]⟩ "width" "200")
        "log-level" = none := by
  decide

end FbClock
